import Mathlib

/-! # Overlap job partitioning (canu, `overlapInCorePartition.C`)

A shallow embedding of `outputJob`, `partitionLength`, `loadReadLengths` and
the part of `main` after the option loop, and of `gkStore_readInPartition`
and the bit budget constants of `gkStore.H`, together with the properties of
the emitted job plan and of the checks made before it.

Conventions of the embedding.

* `uint32` and `uint64` variables are natural numbers; every C operation that
  can wrap is written with an explicit `% u32` or `% u64`.
* The three output streams `BAT`, `JOB`, `OPT` and the log line on `stderr`
  are index aligned: one call of `outputJob` appends one line to each.  A
  `Job` holds the values of one such call: the number printed to `BAT`, the
  number printed to `JOB`, the text of the `OPT` line, and the eight range
  and count arguments (which are what the log line prints).
* The `while` and `do ... while` loops take a fuel argument.  A run ends in a
  `Halt`: the loops finished, an `assert` failed, `readLen` was indexed
  outside of its `numReads + 1` entries, or the fuel ran out.  The jobs
  emitted up to that point are kept in every case.
* A read store is a `GkStore`: its counts, the read `gkStore_getRead` returns
  for an ID, and its partition map.  The role sets `libToHash` and `libToRef`
  (`set<uint32>`) are finite sets of natural numbers.
-/

namespace OverlapPartition

/-- The number of values of a `uint32`. -/
def u32 : Nat := 4294967296

/-- The number of values of a `uint64`. -/
def u64 : Nat := 18446744073709551616

/-- Source: `uint32  batchMax = 1000;`. -/
def batchMax : Nat := 1000

/-- One job: what a single call of `outputJob` writes. -/
structure Job where
  /-- The number printed (as `%03u`) to `BAT`. -/
  batchName : Nat
  /-- The number printed (as `%06u`) to `JOB`. -/
  jobName : Nat
  /-- The line printed to `OPT`. -/
  opt : String
  hashBeg : Nat
  hashEnd : Nat
  numHashReads : Nat
  numHashBases : Nat
  refBeg : Nat
  refEnd : Nat
  numRefReads : Nat
  numRefBases : Nat
deriving DecidableEq, Repr

/-- The three counters `outputJob` updates by reference. -/
structure Counters where
  batchSize : Nat
  batchName : Nat
  jobName : Nat
deriving DecidableEq, Repr

/-- How a run of the partitioner ends. -/
inductive Halt where
  | finished
  | assertFailed
  | badIndex
  | outOfFuel
deriving DecidableEq, Repr

/-- The text `outputJob` prints to `OPT` (lines 68-71): the short form when
`numHashReads == 0`, the long form otherwise. -/
def optLine (hashBeg hashEnd numHashReads numHashBases refBeg refEnd : Nat) : String :=
  if numHashReads = 0 then
    "-h " ++ toString hashBeg ++ "-" ++ toString hashEnd ++
      " -r " ++ toString refBeg ++ "-" ++ toString refEnd ++ "\n"
  else
    "-h " ++ toString hashBeg ++ "-" ++ toString hashEnd ++
      " -r " ++ toString refBeg ++ "-" ++ toString refEnd ++
      " --hashstrings " ++ toString numHashReads ++
      " --hashdatalen " ++ toString numHashBases ++ "\n"

/-- Source: `outputJob` (lines 55-85).  Returns the job written and the
updated counters.  The assignment `refBeg = refEnd + 1` of line 75 changes a
by-value parameter only and has no effect. -/
def outputJob (hashBeg hashEnd numHashReads numHashBases
    refBeg refEnd numRefReads numRefBases : Nat) (c : Counters) : Job × Counters :=
  let job : Job :=
    { batchName := c.batchName
      jobName := c.jobName
      opt := optLine hashBeg hashEnd numHashReads numHashBases refBeg refEnd
      hashBeg := hashBeg
      hashEnd := hashEnd
      numHashReads := numHashReads
      numHashBases := numHashBases
      refBeg := refBeg
      refEnd := refEnd
      numRefReads := numRefReads
      numRefBases := numRefBases }
  let batchSize := (c.batchSize + 1) % u32
  let jobName := (c.jobName + 1) % u32
  if batchSize ≥ batchMax then
    (job, { batchSize := 0, batchName := (c.batchName + 1) % u32, jobName := jobName })
  else
    (job, { batchSize := batchSize, batchName := c.batchName, jobName := jobName })

/-- The variables of one `do ... while` scan: the range end and the three
accumulators. -/
structure Scan where
  pos : Nat
  len : Nat
  reads : Nat
  bases : Nat
deriving DecidableEq, Repr

/-- Source: the body of the hash scan, lines 243-251, for the read of length
`l` found at the new position `hashEnd`.  `continue` inside a `do ... while`
jumps to the loop condition, so a short read only advances `hashEnd`. -/
def hashAcc (minOverlapLength : Nat) (s : Scan) (hashEnd l : Nat) : Scan :=
  if l < minOverlapLength then
    { s with pos := hashEnd }
  else
    { pos := hashEnd
      len := (s.len + (l + 1) % u32) % u64
      reads := (s.reads + 1) % u32
      bases := (s.bases + (l + 1) % u32) % u64 }

/-- Source: the hash scan, the `do ... while` of lines 242-252. -/
def hashScan (readLen : List Nat) (minOverlapLength ovlHashBlockLength hashMax : Nat) :
    Nat → Scan → Except Halt Scan
  | 0, _ => .error .outOfFuel
  | fuel + 1, s =>
    match readLen[(s.pos + 1) % u32]? with
    | none => .error .badIndex
    | some l =>
      if (hashAcc minOverlapLength s ((s.pos + 1) % u32) l).len < ovlHashBlockLength ∧
          (hashAcc minOverlapLength s ((s.pos + 1) % u32) l).pos < hashMax then
        hashScan readLen minOverlapLength ovlHashBlockLength hashMax fuel
          (hashAcc minOverlapLength s ((s.pos + 1) % u32) l)
      else
        .ok (hashAcc minOverlapLength s ((s.pos + 1) % u32) l)

/-- Source: the body of the reference scan, lines 267-275.  `refLen`
accumulates `readLen[refEnd]`, `refBases` accumulates `readLen[refEnd] + 1`. -/
def refAcc (minOverlapLength : Nat) (s : Scan) (refEnd l : Nat) : Scan :=
  if l < minOverlapLength then
    { s with pos := refEnd }
  else
    { pos := refEnd
      len := (s.len + l) % u64
      reads := (s.reads + 1) % u32
      bases := (s.bases + (l + 1) % u32) % u64 }

/-- Source: the reference scan, the `do ... while` of lines 266-276. -/
def refScan (readLen : List Nat) (minOverlapLength ovlRefBlockLength refMax : Nat) :
    Nat → Scan → Except Halt Scan
  | 0, _ => .error .outOfFuel
  | fuel + 1, s =>
    match readLen[(s.pos + 1) % u32]? with
    | none => .error .badIndex
    | some l =>
      if (refAcc minOverlapLength s ((s.pos + 1) % u32) l).len < ovlRefBlockLength ∧
          (refAcc minOverlapLength s ((s.pos + 1) % u32) l).pos < refMax then
        refScan readLen minOverlapLength ovlRefBlockLength refMax fuel
          (refAcc minOverlapLength s ((s.pos + 1) % u32) l)
      else
        .ok (refAcc minOverlapLength s ((s.pos + 1) % u32) l)

/-- The inputs of `partitionLength` that stay fixed during the run.
`numReads` is `gkp->gkStore_getNumReads()`; `readLen` is the array returned by
`loadReadLengths`, with `numReads + 1` entries. -/
structure Params where
  numReads : Nat
  readLen : List Nat
  minOverlapLength : Nat
  ovlHashBlockLength : Nat
  ovlRefBlockLength : Nat
  libToHash : Finset Nat
  hashMin : Nat
  hashMax : Nat
  libToRef : Finset Nat
  refMin : Nat
  refMax : Nat

/-- Lines 220-221: `hashMax` after `if (hashMax > numReads) hashMax = numReads`. -/
def Params.hashMaxC (p : Params) : Nat :=
  if p.hashMax > p.numReads then p.numReads else p.hashMax

/-- Lines 222-223: `refMax` after `if (refMax > numReads) refMax = numReads`. -/
def Params.refMaxC (p : Params) : Nat :=
  if p.refMax > p.numReads then p.numReads else p.refMax

/-- The second conjunct of the inner loop condition, line 260:
`libToHash.size() != 0 && libToHash == libToRef`. -/
def Params.sameSets (p : Params) : Bool :=
  decide (p.libToHash.card ≠ 0 ∧ p.libToHash = p.libToRef)

/-- The second conjunct of the clamp condition, line 280:
`libToHash.size() == 0 || libToHash != libToRef`. -/
def Params.capAtHash (p : Params) : Bool :=
  decide (p.libToHash.card = 0 ∨ p.libToHash ≠ p.libToRef)

/-- Source: lines 278-281, the reference end reported for a scan that
stopped at `refEnd`: clamped to `refMax`, then (unless the role sets are the
same non-empty set) to `hashEnd`. -/
def clampRef (p : Params) (hashEnd refEnd : Nat) : Nat :=
  let refEnd1 := if refEnd > p.refMaxC then p.refMaxC else refEnd
  if refEnd1 > hashEnd ∧ p.capAtHash = true then hashEnd else refEnd1

/-- Source: the condition of the inner `while` loop, lines 259-260. -/
def refCond (p : Params) (hashEnd refBeg : Nat) : Prop :=
  refBeg < p.refMaxC ∧ (refBeg < hashEnd ∨ p.sameSets = true)

instance (p : Params) (hashEnd refBeg : Nat) : Decidable (refCond p hashEnd refBeg) := by
  unfold refCond
  infer_instance

/-- Source: the inner `while` loop, lines 259-292, for the hash range
`hashBeg .. hashEnd` with counts `hashReads`, `hashBases`.  `scanFuel` is the
fuel given to each reference scan.  Returns the jobs emitted and either the
counters at loop exit or the reason the run stopped. -/
def refLoop (p : Params) (scanFuel hashBeg hashEnd hashReads hashBases : Nat) :
    Nat → Nat → Nat → Counters → List Job × Except Halt Counters
  | 0, _, _, _ => ([], .error .outOfFuel)
  | fuel + 1, refBeg, refEnd, c =>
    if refCond p hashEnd refBeg then
      match refScan p.readLen p.minOverlapLength p.ovlRefBlockLength p.refMaxC scanFuel
          { pos := refEnd, len := 0, reads := 0, bases := 0 } with
      | .error h => ([], .error h)
      | .ok s =>
        let refEnd1 := clampRef p hashEnd s.pos
        let out := outputJob hashBeg hashEnd hashReads hashBases
          refBeg refEnd1 s.reads s.bases c
        let rest := refLoop p scanFuel hashBeg hashEnd hashReads hashBases fuel
          ((refEnd1 + 1) % u32) refEnd1 out.2
        (out.1 :: rest.1, rest.2)
    else
      ([], .ok c)

/-- Source: the outer `while` loop, lines 231-295.  `innerFuel` is the fuel
given to each scan and to each inner loop. -/
def hashLoop (p : Params) (innerFuel : Nat) :
    Nat → Nat → Nat → Counters → List Job × Halt
  | 0, _, _, _ => ([], .outOfFuel)
  | fuel + 1, hashBeg, hashEnd, c =>
    if hashBeg < p.hashMaxC then
      if hashEnd ≠ (hashBeg + u32 - 1) % u32 then
        ([], .assertFailed)
      else
        match hashScan p.readLen p.minOverlapLength p.ovlHashBlockLength p.hashMaxC innerFuel
            { pos := hashEnd, len := 0, reads := 0, bases := 0 } with
        | .error h => ([], h)
        | .ok s =>
          if ¬ s.pos ≤ p.hashMaxC then
            ([], .assertFailed)
          else
            let inner := refLoop p innerFuel hashBeg s.pos s.reads s.bases innerFuel p.refMin 0 c
            match inner.2 with
            | .error h => (inner.1, h)
            | .ok c1 =>
              let rest := hashLoop p innerFuel fuel ((s.pos + 1) % u32) s.pos c1
              (inner.1 ++ rest.1, rest.2)
    else
      ([], .finished)

/-- Source: `partitionLength` (lines 189-297).  The counters start at
`batchSize = 0`, `batchName = 1`, `jobName = 1` (lines 214-216); the loop
starts at `hashBeg = hashMin`, `hashEnd = hashMin - 1` (lines 228-229). -/
def partitionLength (p : Params) (fuel : Nat) : List Job × Halt :=
  hashLoop p fuel fuel p.hashMin ((p.hashMin + u32 - 1) % u32)
    { batchSize := 0, batchName := 1, jobName := 1 }

/-- The counters after `k` calls of `outputJob`, counted from the initial
values of lines 214-216. -/
def countersAfter (k : Nat) : Counters :=
  { batchSize := k % batchMax
    batchName := (1 + k / batchMax) % u32
    jobName := (1 + k) % u32 }

/-- How two consecutive jobs of a run are related: either they share the hash
range and the reference range of the second starts right after the end of the
first, or the second opens the next hash range, starts again at `refMin`, and
the inner loop condition had failed after the first. -/
def JobStep (p : Params) (a b : Job) : Prop :=
  (b.hashBeg = a.hashBeg ∧ b.hashEnd = a.hashEnd ∧ b.refBeg = a.refEnd + 1) ∨
  (b.hashBeg = a.hashEnd + 1 ∧ b.refBeg = p.refMin ∧ ¬ refCond p a.hashEnd (a.refEnd + 1))

/-- The bytes the reads with IDs `a ≤ i < a + n` take in the hash table:
`readLen[i] + 1` for every read of length at least `minOverlapLength`, nothing
for a shorter read. -/
def sizeFrom (readLen : List Nat) (minOverlapLength a : Nat) : Nat → Nat
  | 0 => 0
  | n + 1 =>
    sizeFrom readLen minOverlapLength a n +
      (if readLen.getD (a + n) 0 < minOverlapLength then 0 else readLen.getD (a + n) 0 + 1)

/-- The number of reads with IDs `a ≤ i < a + n` of length at least
`minOverlapLength`. -/
def countFrom (readLen : List Nat) (minOverlapLength a : Nat) : Nat → Nat
  | 0 => 0
  | n + 1 =>
    countFrom readLen minOverlapLength a n +
      (if readLen.getD (a + n) 0 < minOverlapLength then 0 else 1)

/-! ## Example inputs -/

/-- The array `loadReadLengths` returns for a store of `n` reads that all have
length `len`: entry 0 is the zero left by `memset`, entries `1 .. n` are `len`. -/
def uniformReads (n len : Nat) : List Nat := 0 :: List.replicate n len

/-- The inputs of `partitionLength` for a store of `n` reads of length `len`. -/
def uniformParams (n len minOverlapLength ovlHashBlockLength ovlRefBlockLength : Nat)
    (libToHash : Finset Nat) (hashMin hashMax : Nat)
    (libToRef : Finset Nat) (refMin refMax : Nat) : Params :=
  { numReads := n
    readLen := uniformReads n len
    minOverlapLength := minOverlapLength
    ovlHashBlockLength := ovlHashBlockLength
    ovlRefBlockLength := ovlRefBlockLength
    libToHash := libToHash
    hashMin := hashMin
    hashMax := hashMax
    libToRef := libToRef
    refMin := refMin
    refMax := refMax }

/-- The scenario of the specification: 10 reads of length 100, no minimum
overlap length, both block lengths 250, both role sets empty, so that `main`
passes `hashMin = refMin = 1` and `hashMax = refMax = UINT32_MAX`. -/
def specScenario : Params :=
  uniformParams 10 100 0 250 250 ∅ 1 4294967295 ∅ 1 4294967295

/-- The scenario of the specification with one library that is both the hash
and the reference role set; `loadReadLengths` then returns the bounds 1 and 10. -/
def sameSetsScenario : Params :=
  uniformParams 10 100 0 250 250 {1} 1 10 {1} 1 10

/-- Reads 1 to 4 in library 1, reads 5 to 10 in library 2; the hash role set is
both libraries, the reference role set is library 2; reference block length 350. -/
def twoLibraryScenario : Params :=
  uniformParams 10 100 0 250 350 {1, 2} 1 10 {2} 5 10

/-- Four reads of length 100 with block lengths 50: every range is one read. -/
def longReadScenario : Params :=
  uniformParams 4 100 0 50 50 ∅ 1 4294967295 ∅ 1 4294967295

/-- The scenario of the specification with reference block length 150. -/
def narrowRefScenario : Params :=
  uniformParams 10 100 0 250 150 ∅ 1 4294967295 ∅ 1 4294967295

/-- The scenario of the specification with reference block length 350. -/
def wideRefScenario : Params :=
  uniformParams 10 100 0 250 350 ∅ 1 4294967295 ∅ 1 4294967295

/-- Ten reads of length 10, all shorter than the minimum overlap length 50, in
one library that is the hash role set. -/
def shortReadScenario : Params :=
  uniformParams 10 10 50 250 250 {1} 1 10 ∅ 1 4294967295

/-- The second job of `twoLibraryScenario`. -/
def twoLibraryJob : Job :=
  { batchName := 1
    jobName := 2
    opt := "-h 4-6 -r 5-6 --hashstrings 3 --hashdatalen 303\n"
    hashBeg := 4
    hashEnd := 6
    numHashReads := 3
    numHashBases := 303
    refBeg := 5
    refEnd := 6
    numRefReads := 4
    numRefBases := 404 }

/-- The third job of `sameSetsScenario`: hash range 1-3 against reference range 7-9. -/
def sameSetsJob : Job :=
  { batchName := 1
    jobName := 3
    opt := "-h 1-3 -r 7-9 --hashstrings 3 --hashdatalen 303\n"
    hashBeg := 1
    hashEnd := 3
    numHashReads := 3
    numHashBases := 303
    refBeg := 7
    refEnd := 9
    numRefReads := 3
    numRefBases := 303 }

/-- The first job of `specScenario`: hash range 1-3 against reference range 1-3. -/
def specFirstJob : Job :=
  { batchName := 1
    jobName := 1
    opt := "-h 1-3 -r 1-3 --hashstrings 3 --hashdatalen 303\n"
    hashBeg := 1
    hashEnd := 3
    numHashReads := 3
    numHashBases := 303
    refBeg := 1
    refEnd := 3
    numRefReads := 3
    numRefBases := 303 }

/-- A store of `n` reads of length 1 in one library that is both the hash and
the reference role set, with both block lengths 1: every hash range and every
reference range is a single read. -/
def unitScenario (n : Nat) : Params :=
  uniformParams n 1 0 1 1 {1} 1 n {1} 1 n

/-- The third job of `specScenario`: hash range 4-6 against reference range 4-6. -/
def specThirdJob : Job :=
  { batchName := 1
    jobName := 3
    opt := "-h 4-6 -r 4-6 --hashstrings 3 --hashdatalen 303\n"
    hashBeg := 4
    hashEnd := 6
    numHashReads := 3
    numHashBases := 303
    refBeg := 4
    refEnd := 6
    numRefReads := 3
    numRefBases := 303 }

/-- The read IDs of `ids` whose read has at least `minOverlapLength` bases: the
reads a scan includes. -/
def includedReads (readLen : List Nat) (minOverlapLength : Nat) (ids : Finset Nat) :
    Finset Nat :=
  ids.filter (fun i => minOverlapLength ≤ readLen.getD i 0)

/-- The number of included reads among `ids`. -/
def readCount (readLen : List Nat) (minOverlapLength : Nat) (ids : Finset Nat) : Nat :=
  (includedReads readLen minOverlapLength ids).card

/-- The sum of `readLen[i] + 1` over the included reads among `ids`. -/
def readBytes (readLen : List Nat) (minOverlapLength : Nat) (ids : Finset Nat) : Nat :=
  Finset.sum (includedReads readLen minOverlapLength ids) (fun i => readLen.getD i 0 + 1)

/-- The sum of `readLen[i]` over the included reads among `ids`. -/
def readBases (readLen : List Nat) (minOverlapLength : Nat) (ids : Finset Nat) : Nat :=
  Finset.sum (includedReads readLen minOverlapLength ids) (fun i => readLen.getD i 0)

/-- Six reads of lengths 100, 100, 10, 100, 100, 10 with minimum overlap length
50 and block lengths 300, both role sets empty: reads 3 and 6 are too short to
be included. -/
def mixedScenario : Params :=
  { numReads := 6
    readLen := [0, 100, 100, 10, 100, 100, 10]
    minOverlapLength := 50
    ovlHashBlockLength := 300
    ovlRefBlockLength := 300
    libToHash := ∅
    hashMin := 1
    hashMax := 4294967295
    libToRef := ∅
    refMin := 1
    refMax := 4294967295 }

/-- The first job of `mixedScenario`: hash range 1-4 (three included reads)
against reference range 1-4. -/
def mixedFirstJob : Job :=
  { batchName := 1
    jobName := 1
    opt := "-h 1-4 -r 1-4 --hashstrings 3 --hashdatalen 303\n"
    hashBeg := 1
    hashEnd := 4
    numHashReads := 3
    numHashBases := 303
    refBeg := 1
    refEnd := 4
    numRefReads := 3
    numRefBases := 303 }

/-- The last job of `mixedScenario`: hash range 5-6 against reference range
5-6; read 6, the end of both ranges, is too short to be included. -/
def mixedLastJob : Job :=
  { batchName := 1
    jobName := 3
    opt := "-h 5-6 -r 5-6 --hashstrings 1 --hashdatalen 101\n"
    hashBeg := 5
    hashEnd := 6
    numHashReads := 1
    numHashBases := 101
    refBeg := 5
    refEnd := 6
    numRefReads := 1
    numRefBases := 101 }

/-- The number of bases of the reads with IDs `a ≤ i < a + n` that have at
least `minOverlapLength` bases: what the reference scan adds to `refLen`. -/
def lenFrom (readLen : List Nat) (minOverlapLength a : Nat) : Nat → Nat
  | 0 => 0
  | n + 1 =>
    lenFrom readLen minOverlapLength a n +
      (if readLen.getD (a + n) 0 < minOverlapLength then 0 else readLen.getD (a + n) 0)

/-- The scenario of the specification with reference block length 201. -/
def refOvershootScenario : Params :=
  uniformParams 10 100 0 250 201 ∅ 1 4294967295 ∅ 1 4294967295

/-- The first job of `refOvershootScenario`: hash range 1-3 against reference
range 1-3, with 3 reference reads and 303 reference bytes. -/
def refOvershootJob : Job :=
  { batchName := 1
    jobName := 1
    opt := "-h 1-3 -r 1-3 --hashstrings 3 --hashdatalen 303\n"
    hashBeg := 1
    hashEnd := 3
    numHashReads := 3
    numHashBases := 303
    refBeg := 1
    refEnd := 3
    numRefReads := 3
    numRefBases := 303 }

/-- The first job of `wideRefScenario`: hash range 1-3 against the reported
reference range 1-3, with the counts of the four reads the scan went through. -/
def wideRefJob : Job :=
  { batchName := 1
    jobName := 1
    opt := "-h 1-3 -r 1-3 --hashstrings 3 --hashdatalen 303\n"
    hashBeg := 1
    hashEnd := 3
    numHashReads := 3
    numHashBases := 303
    refBeg := 1
    refEnd := 3
    numRefReads := 4
    numRefBases := 404 }

/-! ## The read store (`gkStore.H`) -/

/-- What the accessors of a `gkRead` return (`gkRead.H` is not part of the
sources at hand, so the values are taken as given): `gkRead_readID`,
`gkRead_libraryID`, `gkRead_rawLength`, `gkRead_correctedLength`,
`gkRead_trimmedLength` and `gkRead_sequenceLength`. -/
structure GkRead where
  readID : Nat
  libraryID : Nat
  rawLength : Nat
  correctedLength : Nat
  trimmedLength : Nat
  sequenceLength : Nat
deriving DecidableEq, Repr

/-- The parts of a `gkStore` the partitioner and `gkStore_readInPartition` use:
the counts of `_info`, the read `gkStore_getRead(id)` returns (the function is
declared in `gkStore.H` and defined elsewhere, so it is a parameter),
`_partitionID`, and `_readIDtoPartitionID`, which is `none` for a `NULL`
pointer and the array otherwise. -/
structure GkStore where
  numLibraries : Nat
  numReads : Nat
  getRead : Nat → GkRead
  partitionID : Nat
  readIDtoPartitionID : Option (List Nat)

/-- Source: `gkStore::gkStore_readInPartition`, `gkStore.H` lines 210-213.  The
result is `none` when `id` lies outside of a loaded partition map. -/
def gkStore_readInPartition (gkp : GkStore) (id : Nat) : Option Bool :=
  match gkp.readIDtoPartitionID with
  | none => some true
  | some m =>
    match m[id]? with
    | none => none
    | some pid => some (decide (pid = gkp.partitionID))

/-- A store of three reads that is not partitioned. -/
def plainStore : GkStore :=
  { numLibraries := 1
    numReads := 3
    getRead := fun ii =>
      { readID := ii, libraryID := 1, rawLength := 100, correctedLength := 0,
        trimmedLength := 0, sequenceLength := 100 }
    partitionID := 4294967295
    readIDtoPartitionID := none }

/-- The same store opened as partition 2, with reads 1 and 3 in partition 2 and
read 2 in partition 1. -/
def partitionedStore : GkStore :=
  { plainStore with partitionID := 2, readIDtoPartitionID := some [0, 2, 1, 2] }

/-! ## Loading the read lengths (`loadReadLengths`) -/

/-- What `loadReadLengths` hands back: the array it returns and the four bounds
it writes through its reference parameters. -/
structure Loaded where
  readLen : List Nat
  hashMin : Nat
  hashMax : Nat
  refMin : Nat
  refMax : Nat
deriving DecidableEq, Repr

/-- Source: lines 113-116, the loop `for (uint32 i=0; i<=numLibs; i++)` that
fills `doHash` and `doRef`, from counter value `i` on.  `libToHash.count(i) != 0`
is membership of `i`. -/
def fillRoles (libToHash libToRef : Finset Nat) (numLibs : Nat) :
    Nat → Nat → List Bool × List Bool → Except Halt (List Bool × List Bool)
  | 0, _, _ => .error .outOfFuel
  | fuel + 1, i, (doHash, doRef) =>
    if i ≤ numLibs then
      if i < doHash.length ∧ i < doRef.length then
        fillRoles libToHash libToRef numLibs fuel ((i + 1) % u32)
          (doHash.set i (decide (i ∈ libToHash)), doRef.set i (decide (i ∈ libToRef)))
      else .error .badIndex
    else .ok (doHash, doRef)

/-- Lines 157 and 162: `(test == true) && (doRole[lib] == true)`.  The array is
only read when `test` holds; a library ID past its end is a fault. -/
def roleTest (test : Bool) (doRole : List Bool) (lib : Nat) : Except Halt Bool :=
  if test then
    match doRole[lib]? with
    | some b => .ok b
    | none => .error .badIndex
  else .ok false

/-- Source: lines 133-170, the loop `for (uint32 ii=1; ii<=numReads; ii++)` from
counter value `ii` on.  The first component lists the lines
`ERROR: readID=%u != ii=%u` written, as pairs `(readID, ii)`; the `assert` that
follows such a line aborts the run.  The statistics of lines 144-155 and
167-169 are only printed and are left out. -/
def loadLoop (gkp : GkStore) (testHash testRef : Bool) (doHash doRef : List Bool) :
    Nat → Nat → Loaded → List (Nat × Nat) × Except Halt Loaded
  | 0, _, _ => ([], .error .outOfFuel)
  | fuel + 1, ii, st =>
    if ii ≤ gkp.numReads then
      if (gkp.getRead ii).readID ≠ ii then
        ([((gkp.getRead ii).readID, ii)], .error .assertFailed)
      else if st.readLen.length ≤ ii then ([], .error .badIndex)
      else
        match roleTest testHash doHash (gkp.getRead ii).libraryID with
        | .error e => ([], .error e)
        | .ok h =>
          match roleTest testRef doRef (gkp.getRead ii).libraryID with
          | .error e => ([], .error e)
          | .ok r =>
            loadLoop gkp testHash testRef doHash doRef fuel ((ii + 1) % u32)
              { readLen := st.readLen.set ii (gkp.getRead ii).sequenceLength
                hashMin := if h then min st.hashMin ii else st.hashMin
                hashMax := if h then max st.hashMax ii else st.hashMax
                refMin := if r then min st.refMin ii else st.refMin
                refMax := if r then max st.refMax ii else st.refMax }
    else ([], .ok st)

/-- Source: `loadReadLengths`, lines 86-185.  `hashMin`, `hashMax`, `refMin` and
`refMax` are the values the caller holds in the variables passed by reference;
the result carries the values they hold on return.  The arrays are allocated
with `numReads + 1` and `numLibs + 1` entries, computed in `uint32`. -/
def loadReadLengths (gkp : GkStore) (libToHash : Finset Nat) (hashMin hashMax : Nat)
    (libToRef : Finset Nat) (refMin refMax : Nat) (fuel : Nat) :
    List (Nat × Nat) × Except Halt Loaded :=
  let testHash := decide (libToHash.card > 0)
  let testRef := decide (libToRef.card > 0)
  match fillRoles libToHash libToRef gkp.numLibraries fuel 0
      (List.replicate ((gkp.numLibraries + 1) % u32) false,
       List.replicate ((gkp.numLibraries + 1) % u32) false) with
  | .error e => ([], .error e)
  | .ok (doHash, doRef) =>
    loadLoop gkp testHash testRef doHash doRef fuel 1
      { readLen := List.replicate ((gkp.numReads + 1) % u32) 0
        hashMin := if testHash then u32 - 1 else hashMin
        hashMax := if testHash then 0 else hashMax
        refMin := if testRef then u32 - 1 else refMin
        refMax := if testRef then 0 else refMax }

/-- The state of one pair of bounds after the reads `1 .. k-1` have been looked
at: untouched when the role set is empty; `UINT32_MAX` and `0` while no read
of the role was seen; the least and the greatest read of the role otherwise. -/
def RoleBounds (test : Bool) (inRole : Nat → Prop) (k mn0 mx0 mn mx : Nat) : Prop :=
  (test = false → mn = mn0 ∧ mx = mx0) ∧
  (test = true → (∀ i, 1 ≤ i → i < k → ¬ inRole i) → mn = u32 - 1 ∧ mx = 0) ∧
  (test = true → (∃ i, 1 ≤ i ∧ i < k ∧ inRole i) →
    (1 ≤ mn ∧ mn < k ∧ inRole mn ∧ ∀ i, 1 ≤ i → i < k → inRole i → mn ≤ i) ∧
    (1 ≤ mx ∧ mx < k ∧ inRole mx ∧ ∀ i, 1 ≤ i → i < k → inRole i → i ≤ mx))

/-- A store of five reads in two libraries: reads 1 and 2 are in library 1,
reads 3 to 5 in library 2; read `ii` has length `100 * ii`. -/
def twoLibraryStore : GkStore :=
  { numLibraries := 2
    numReads := 5
    getRead := fun ii =>
      { readID := ii, libraryID := if ii ≤ 2 then 1 else 2, rawLength := 100 * ii,
        correctedLength := 0, trimmedLength := 0, sequenceLength := 100 * ii }
    partitionID := 4294967295
    readIDtoPartitionID := none }

/-- A store of three reads whose second read reports the ID 7. -/
def brokenStore : GkStore :=
  { plainStore with
    getRead := fun ii =>
      { readID := if ii = 2 then 7 else ii, libraryID := 1, rawLength := 100,
        correctedLength := 0, trimmedLength := 0, sequenceLength := 100 } }

/-! ## The driver (`main`) -/

/-- What the option loop of `main` (lines 349-385) leaves behind: the number of
unknown options it counted in `err`, and the values of the variables the known
options set. -/
structure Options where
  unknownOptions : Nat
  gkpStoreName : Option String
  ovlHashBlockLength : Nat
  ovlRefBlockLength : Nat
  minOverlapLength : Nat
  checkAllLibUsed : Bool
  libToHash : Finset Nat
  libToRef : Finset Nat

/-- How a run of `main` ends: `exit(0)` of line 470, `exit(1)` after the usage
text (line 400), `exit(1)` after `one of -H and/or -R are invalid` (line 435),
or a stop inside the run (a failed assertion, a fault, or no end). -/
inductive Exit where
  | success
  | usage
  | invalidLibraries
  | halted (h : Halt)
deriving DecidableEq, Repr

/-- The counter `invalidLibs` together with the libraries named by the `ERROR`
and by the `Warning` lines of the coverage loop (lines 428 and 430). -/
structure LibCheck where
  invalidLibs : Nat
  errors : List Nat
  warnings : List Nat
deriving DecidableEq, Repr

/-- Source: lines 424-432, the loop `for (uint32 lib=1; lib<=numLibs; lib++)`
from counter value `lib` on. -/
def coverageLoop (libToHash libToRef : Finset Nat) (checkAllLibUsed : Bool)
    (numLibs : Nat) : Nat → Nat → LibCheck → Option LibCheck
  | 0, _, _ => none
  | fuel + 1, lib, c =>
    if lib ≤ numLibs then
      if lib ∉ libToHash ∧ lib ∉ libToRef then
        if checkAllLibUsed then
          coverageLoop libToHash libToRef checkAllLibUsed numLibs fuel ((lib + 1) % u32)
            { c with errors := c.errors ++ [lib], invalidLibs := (c.invalidLibs + 1) % u32 }
        else
          coverageLoop libToHash libToRef checkAllLibUsed numLibs fuel ((lib + 1) % u32)
            { c with warnings := c.warnings ++ [lib] }
      else
        coverageLoop libToHash libToRef checkAllLibUsed numLibs fuel ((lib + 1) % u32) c
    else some c

/-- Source: lines 411-433 of `main`.  The two loops over the role sets count
one error for each ID with `numLibs < *it`; the coverage loop only runs when
both sets are non-empty. -/
def checkLibraries (numLibs : Nat) (libToHash libToRef : Finset Nat)
    (checkAllLibUsed : Bool) (fuel : Nat) : Option LibCheck :=
  let c0 : LibCheck :=
    { invalidLibs := ((libToHash.filter (fun it => numLibs < it)).card +
        (libToRef.filter (fun it => numLibs < it)).card) % u32
      errors := []
      warnings := [] }
  if libToHash.card > 0 ∧ libToRef.card > 0 then
    coverageLoop libToHash libToRef checkAllLibUsed numLibs fuel 1 c0
  else some c0

/-- What a run of `main` leaves behind: how it ended, the IDs named by the
lines `ERROR: -H ... is invalid` and `ERROR: -R ... is invalid`, the libraries
named by the `ERROR` and by the `Warning` lines of the coverage loop, the
`readID` errors of `loadReadLengths`, and the jobs written. -/
structure Run where
  exit : Exit
  invalidHash : Finset Nat
  invalidRef : Finset Nat
  notMentioned : List Nat
  warnings : List Nat
  readIdErrors : List (Nat × Nat)
  jobs : List Job

/-- A run that ends after the usage text. -/
def usageRun : Run :=
  { exit := .usage, invalidHash := ∅, invalidRef := ∅, notMentioned := [], warnings := [],
    readIdErrors := [], jobs := [] }

/-- Source: `main`, lines 387-470, after the option loop.  `gkStore_open` is
defined outside of the sources at hand and is a parameter.  `err` is non-zero
when an option was unknown, a block length is zero or no store was named. -/
def main (gkStore_open : String → GkStore) (o : Options) (fuel : Nat) : Run :=
  match o.gkpStoreName with
  | none => usageRun
  | some gkpStoreName =>
    if o.unknownOptions ≠ 0 ∨ o.ovlHashBlockLength = 0 ∨ o.ovlRefBlockLength = 0 then
      usageRun
    else
      let gkp := gkStore_open gkpStoreName
      let numLibs := gkp.numLibraries
      let invalidHash := o.libToHash.filter (fun it => numLibs < it)
      let invalidRef := o.libToRef.filter (fun it => numLibs < it)
      match checkLibraries numLibs o.libToHash o.libToRef o.checkAllLibUsed fuel with
      | none => { usageRun with exit := .halted .outOfFuel, invalidHash := invalidHash,
                                invalidRef := invalidRef }
      | some c =>
        if c.invalidLibs > 0 then
          { exit := .invalidLibraries, invalidHash := invalidHash, invalidRef := invalidRef,
            notMentioned := c.errors, warnings := c.warnings, readIdErrors := [], jobs := [] }
        else if ¬ (o.ovlHashBlockLength > 0) then
          { exit := .halted .assertFailed, invalidHash := invalidHash,
            invalidRef := invalidRef, notMentioned := c.errors, warnings := c.warnings,
            readIdErrors := [], jobs := [] }
        else
          match loadReadLengths gkp o.libToHash 1 (u32 - 1) o.libToRef 1 (u32 - 1) fuel with
          | (errs, .error h) =>
            { exit := .halted h, invalidHash := invalidHash, invalidRef := invalidRef,
              notMentioned := c.errors, warnings := c.warnings, readIdErrors := errs,
              jobs := [] }
          | (errs, .ok r) =>
            let run := partitionLength
              { numReads := gkp.numReads, readLen := r.readLen,
                minOverlapLength := o.minOverlapLength,
                ovlHashBlockLength := o.ovlHashBlockLength,
                ovlRefBlockLength := o.ovlRefBlockLength,
                libToHash := o.libToHash, hashMin := r.hashMin, hashMax := r.hashMax,
                libToRef := o.libToRef, refMin := r.refMin, refMax := r.refMax } fuel
            { exit := if run.2 = .finished then .success else .halted run.2,
              invalidHash := invalidHash, invalidRef := invalidRef,
              notMentioned := c.errors, warnings := c.warnings, readIdErrors := errs,
              jobs := run.1 }

/-- The libraries `lib` with `k ≤ lib ≤ numLibs` that are in neither role set,
in increasing order. -/
def uncoveredFrom (libToHash libToRef : Finset Nat) (numLibs k : Nat) : List Nat :=
  (List.range' k (numLibs + 1 - k)).filter (fun l => decide (l ∉ libToHash ∧ l ∉ libToRef))

/-- The number of IDs of the two role sets that are greater than `numLibs`. -/
def invalidCount (libToHash libToRef : Finset Nat) (numLibs : Nat) : Nat :=
  (libToHash.filter (fun it => numLibs < it)).card +
    (libToRef.filter (fun it => numLibs < it)).card

/-- Options naming library 0 as the only hash library. -/
def zeroLibraryOptions : Options :=
  { unknownOptions := 0, gkpStoreName := some "reads.gkpStore", ovlHashBlockLength := 1000,
    ovlRefBlockLength := 1000, minOverlapLength := 0, checkAllLibUsed := true,
    libToHash := {0}, libToRef := ∅ }

/-- Options naming the libraries `3 .. b` in both roles, with the coverage
check enabled. -/
def manyLibrariesOptions (b : Nat) : Options :=
  { unknownOptions := 0, gkpStoreName := some "reads.gkpStore", ovlHashBlockLength := 1000,
    ovlRefBlockLength := 1000, minOverlapLength := 0, checkAllLibUsed := true,
    libToHash := Finset.Icc 3 b, libToRef := Finset.Icc 3 b }

/-- Options naming library 1 for the hash table and library 3 for the stream,
with the coverage check enabled (`true`) or disabled by `-C` (`false`). -/
def partialOptions (checkAllLibUsed : Bool) : Options :=
  { zeroLibraryOptions with
    checkAllLibUsed := checkAllLibUsed, libToHash := {1}, libToRef := {3} }

/-- A store of six reads in three libraries, two reads of length 100 each. -/
def threeLibraryStore : GkStore :=
  { numLibraries := 3
    numReads := 6
    getRead := fun ii =>
      { readID := ii, libraryID := (ii + 1) / 2, rawLength := 100,
        correctedLength := 0, trimmedLength := 0, sequenceLength := 100 }
    partitionID := 4294967295
    readIDtoPartitionID := none }

/-! ## The constants of `gkStore.H`

The constants are preprocessor definitions: a name stands for a sequence of
tokens that is pasted, unparenthesised, wherever the name is used, and only the
pasted text is parsed.  The definitions are kept as token sequences and are
evaluated by a reader of C constant expressions. -/

/-- The C types that occur in the constants: `int` (the type of a decimal
literal that fits), `uint32` and `uint64`. -/
inductive CType where
  | int
  | uint32
  | uint64
deriving DecidableEq, Repr

/-- A value of a C integer type.  Negative `int` values are not represented. -/
structure CVal where
  type : CType
  val : Nat
deriving DecidableEq, Repr

/-- The names defined in `gkStore.H`, lines 45-81, that the bit budget uses. -/
inductive CDefine where
  | AS_MAX_LIBRARIES_BITS
  | AS_MAX_LIBRARIES
  | AS_MAX_READLEN_BITS
  | AS_MAX_READLEN
  | AS_MAX_READS_BITS
  | AS_MAX_READS
  | AS_BLOBFILE_MAX_SIZE
deriving DecidableEq, Repr

/-- The tokens of the replacement texts. -/
inductive Tok where
  | num (n : Nat)
  | ty (t : CType)
  | lparen
  | rparen
  | shl
  | minus
  | star
  | ident (d : CDefine)
deriving DecidableEq, Repr

/-- Source: the replacement text of each definition, `gkStore.H` lines 45-81,
token by token. -/
def CDefine.body : CDefine → List Tok
  | .AS_MAX_LIBRARIES_BITS => [.num 6]
  | .AS_MAX_LIBRARIES =>
    [.lparen, .lparen, .lparen, .ty .uint32, .rparen, .num 1, .shl,
     .ident .AS_MAX_LIBRARIES_BITS, .rparen, .minus, .num 1, .rparen]
  | .AS_MAX_READLEN_BITS => [.num 21]
  | .AS_MAX_READLEN =>
    [.lparen, .lparen, .lparen, .ty .uint32, .rparen, .num 1, .shl,
     .ident .AS_MAX_READLEN_BITS, .rparen, .minus, .num 1, .rparen]
  | .AS_MAX_READS_BITS =>
    [.num 64, .minus, .ident .AS_MAX_READLEN_BITS, .minus, .ident .AS_MAX_LIBRARIES_BITS]
  | .AS_MAX_READS =>
    [.lparen, .lparen, .lparen, .ty .uint64, .rparen, .num 1, .shl,
     .ident .AS_MAX_READS_BITS, .rparen, .minus, .num 1, .rparen]
  | .AS_BLOBFILE_MAX_SIZE => [.num 1024, .star, .num 1024, .star, .num 1024]

/-- Replacement of every defined name by its text, repeated on the result
(`fuel` bounds the nesting depth). -/
def expand : Nat → List Tok → Option (List Tok)
  | 0, toks => if toks.all (fun t => match t with | .ident _ => false | _ => true)
      then some toks else none
  | fuel + 1, toks =>
    expand fuel (toks.flatMap (fun t => match t with | .ident d => d.body | t => [t]))

/-- The number of value bits of a type. -/
def CType.bits : CType → Nat
  | .int => 31
  | .uint32 => 32
  | .uint64 => 64

/-- The common type of the operands of `-` and `*` (usual arithmetic
conversions): the unsigned type wins over `int`, the wider over the narrower. -/
def CType.common : CType → CType → CType
  | .uint64, _ => .uint64
  | _, .uint64 => .uint64
  | .uint32, _ => .uint32
  | _, .uint32 => .uint32
  | .int, .int => .int

/-- A result in type `t`: reduced modulo `2^bits` for the unsigned types; an
`int` result outside of the type is undefined. -/
def CType.wrap (t : CType) (v : Nat) : Option CVal :=
  match t with
  | .int => if v < 2 ^ 31 then some ⟨.int, v⟩ else none
  | t => some ⟨t, v % 2 ^ t.bits⟩

/-- The binary operators `<<`, `-` and `*`.  A shift has the type of its left
operand and is undefined for a count of at least the width of that type; a
negative `int` difference is not represented. -/
def applyOp (op : Tok) (a b : CVal) : Option CVal :=
  match op with
  | .shl =>
    if b.val < (if a.type = .int then 32 else a.type.bits) then a.type.wrap (a.val <<< b.val)
    else none
  | .minus =>
    match a.type.common b.type with
    | .int => if b.val ≤ a.val then some ⟨.int, a.val - b.val⟩ else none
    | t => t.wrap (a.val + 2 ^ t.bits - b.val % 2 ^ t.bits)
  | .star => (a.type.common b.type).wrap (a.val * b.val)
  | _ => none

/-- The operator levels of the grammar, loosest first: shift, additive,
multiplicative; below them the unary level (casts) and the primaries. -/
def levelOf : Tok → Option Nat
  | .shl => some 0
  | .minus => some 1
  | .star => some 2
  | _ => none

/-- What the reader is doing: reading an operand of a level (3 is the unary
level), or having read the left operand `v` of a level and looking for an
operator of that level. -/
inductive Mode where
  | operand (level : Nat)
  | rest (level : Nat) (v : CVal)

/-- A reader of constant expressions with the precedence of C: `*` binds
tighter than `-`, which binds tighter than `<<`; operators of one level
associate to the left; a cast `(type)` applies to the unary expression that
follows.  Returns the value and the tokens left over. -/
def readExpr : Nat → Mode → List Tok → Option (CVal × List Tok)
  | 0, _, _ => none
  | fuel + 1, .operand level, toks =>
    if level < 3 then
      match readExpr fuel (.operand (level + 1)) toks with
      | none => none
      | some (v, r) => readExpr fuel (.rest level v) r
    else
      match toks with
      | .num n :: r => (CType.int.wrap n).map (fun v => (v, r))
      | .lparen :: .ty t :: .rparen :: r =>
        match readExpr fuel (.operand 3) r with
        | none => none
        | some (v, r2) => some (⟨t, v.val % 2 ^ t.bits⟩, r2)
      | .lparen :: r =>
        match readExpr fuel (.operand 0) r with
        | some (v, .rparen :: r2) => some (v, r2)
        | _ => none
      | _ => none
  | fuel + 1, .rest level v, toks =>
    match toks with
    | [] => some (v, [])
    | op :: r =>
      if levelOf op = some level then
        match readExpr fuel (.operand (level + 1)) r with
        | none => none
        | some (w, r2) =>
          match applyOp op v w with
          | none => none
          | some x => readExpr fuel (.rest level x) r2
      else some (v, op :: r)

/-- The value of a token sequence: all names replaced, then read as one
expression with nothing left over. -/
def cValue (toks : List Tok) : Option CVal :=
  match expand 4 toks with
  | none => none
  | some e =>
    match readExpr (4 * e.length + 8) (.operand 0) e with
    | some (v, []) => some v
    | _ => none

/-- The value of a defined name used on its own. -/
def CDefine.value (d : CDefine) : Option CVal :=
  cValue [.ident d]

/-- The first job of `twoLibraryScenario`: hash range 4-6 with the reference
range reported as 5-4 and the counts of the reads 1-4. -/
def backwardRefJob : Job :=
  { batchName := 1
    jobName := 1
    opt := "-h 4-6 -r 5-4 --hashstrings 3 --hashdatalen 303\n"
    hashBeg := 4
    hashEnd := 6
    numHashReads := 3
    numHashBases := 303
    refBeg := 5
    refEnd := 4
    numRefReads := 4
    numRefBases := 404 }

/-- A store of ten reads of length 100: reads 1 to 4 are in library 1, reads 5
to 10 in library 2. -/
def splitStore : GkStore :=
  { numLibraries := 2
    numReads := 10
    getRead := fun ii =>
      { readID := ii, libraryID := if ii ≤ 4 then 1 else 2, rawLength := 100,
        correctedLength := 0, trimmedLength := 0, sequenceLength := 100 }
    partitionID := 4294967295
    readIDtoPartitionID := none }

/-- The options `-hl 250 -rl 350 -H 1-2 -R 2`. -/
def splitOptions : Options :=
  { unknownOptions := 0, gkpStoreName := some "reads.gkpStore", ovlHashBlockLength := 250,
    ovlRefBlockLength := 350, minOverlapLength := 0, checkAllLibUsed := true,
    libToHash := {1, 2}, libToRef := {2} }

/-- The last job of `specScenario`: hash range 7-9 against reference range 7-9. -/
def specLastJob : Job :=
  { batchName := 1
    jobName := 6
    opt := "-h 7-9 -r 7-9 --hashstrings 3 --hashdatalen 303\n"
    hashBeg := 7
    hashEnd := 9
    numHashReads := 3
    numHashBases := 303
    refBeg := 7
    refEnd := 9
    numRefReads := 3
    numRefBases := 303 }

/-- A store of one read of length 100 with both role sets empty. -/
def oneReadScenario : Params :=
  uniformParams 1 100 0 250 250 ∅ 1 4294967295 ∅ 1 4294967295

/-- The bounds `loadReadLengths` returns for a non-empty hash role set without
reads, `hashMin = UINT32_MAX` and `hashMax = 0`, on ten reads of length 100. -/
def emptyRoleScenario : Params :=
  uniformParams 10 100 0 250 250 {3} 4294967295 0 ∅ 1 4294967295

/-! # Properties -/

/-! ## Single emissions -/

@[simp] theorem outputJob_fst (hb he hr hbs rb re rr rbs : Nat) (c : Counters) :
    (outputJob hb he hr hbs rb re rr rbs c).1 =
      { batchName := c.batchName, jobName := c.jobName,
        opt := optLine hb he hr hbs rb re,
        hashBeg := hb, hashEnd := he, numHashReads := hr, numHashBases := hbs,
        refBeg := rb, refEnd := re, numRefReads := rr, numRefBases := rbs } := by
  simp only [outputJob]
  split <;> rfl

theorem clampRef_le_refMaxC (p : Params) (he e : Nat) : clampRef p he e ≤ p.refMaxC := by
  simp only [clampRef]
  split_ifs <;> omega

theorem clampRef_le_hashEnd (p : Params) (he e : Nat) (h : p.capAtHash = true) :
    clampRef p he e ≤ he := by
  simp only [clampRef, h, and_true]
  split_ifs <;> omega

theorem clampRef_eq_pos (p : Params) (he e : Nat) (h : e ≤ p.refMaxC) (h2 : p.capAtHash = false) :
    clampRef p he e = e := by
  simp only [clampRef, h2, Bool.false_eq_true, and_false, if_false]
  split_ifs <;> omega

/-! ## The scans -/

theorem hashAcc_pos (mo : Nat) (s : Scan) (e l : Nat) : (hashAcc mo s e l).pos = e := by
  unfold hashAcc; split <;> rfl

theorem refAcc_pos (mo : Nat) (s : Scan) (e l : Nat) : (refAcc mo s e l).pos = e := by
  unfold refAcc; split <;> rfl

theorem hashScan_pos (rl : List Nat) (mo bl mx : Nat) (hmx : mx < u32) :
    ∀ fuel s0 s, hashScan rl mo bl mx fuel s0 = .ok s →
      (s0.pos + 1) % u32 ≤ s.pos ∧ (s.pos ≤ (s0.pos + 1) % u32 ∨ s.pos ≤ mx) := by
  intro fuel
  induction fuel with
  | zero => intro s0 s h; simp [hashScan] at h
  | succ n ih =>
    intro s0 s h
    simp only [hashScan] at h
    split at h
    · simp at h
    · rename_i l hl
      split at h
      · rename_i hc
        have := ih _ _ h
        rw [hashAcc_pos] at this
        have h2 := hc.2
        rw [hashAcc_pos] at h2
        unfold u32 at *
        omega
      · simp only [Except.ok.injEq] at h
        subst h
        rw [hashAcc_pos]
        omega

theorem refScan_pos (rl : List Nat) (mo bl mx : Nat) (hmx : mx < u32) :
    ∀ fuel s0 s, refScan rl mo bl mx fuel s0 = .ok s →
      (s0.pos + 1) % u32 ≤ s.pos ∧ (s.pos ≤ (s0.pos + 1) % u32 ∨ s.pos ≤ mx) := by
  intro fuel
  induction fuel with
  | zero => intro s0 s h; simp [refScan] at h
  | succ n ih =>
    intro s0 s h
    simp only [refScan] at h
    split at h
    · simp at h
    · rename_i l hl
      split at h
      · rename_i hc
        have := ih _ _ h
        rw [refAcc_pos] at this
        have h2 := hc.2
        rw [refAcc_pos] at h2
        unfold u32 at *
        omega
      · simp only [Except.ok.injEq] at h
        subst h
        rw [refAcc_pos]
        omega

/-! ## One iteration of each loop -/

/-- The three ways one pass through the inner loop can go: the condition
fails, the scan stops the run, or a job is emitted and the loop goes on. -/
theorem refLoop_succ_cases (p : Params) (F hb he hr hbs n rb re : Nat) (c : Counters) :
    (¬ refCond p he rb ∧ refLoop p F hb he hr hbs (n + 1) rb re c = ([], .ok c)) ∨
    (refCond p he rb ∧ ∃ h,
      refScan p.readLen p.minOverlapLength p.ovlRefBlockLength p.refMaxC F
        { pos := re, len := 0, reads := 0, bases := 0 } = .error h ∧
      refLoop p F hb he hr hbs (n + 1) rb re c = ([], .error h)) ∨
    (refCond p he rb ∧ ∃ s,
      refScan p.readLen p.minOverlapLength p.ovlRefBlockLength p.refMaxC F
        { pos := re, len := 0, reads := 0, bases := 0 } = .ok s ∧
      refLoop p F hb he hr hbs (n + 1) rb re c =
        ((outputJob hb he hr hbs rb (clampRef p he s.pos) s.reads s.bases c).1 ::
          (refLoop p F hb he hr hbs n ((clampRef p he s.pos + 1) % u32) (clampRef p he s.pos)
            (outputJob hb he hr hbs rb (clampRef p he s.pos) s.reads s.bases c).2).1,
         (refLoop p F hb he hr hbs n ((clampRef p he s.pos + 1) % u32) (clampRef p he s.pos)
            (outputJob hb he hr hbs rb (clampRef p he s.pos) s.reads s.bases c).2).2)) := by
  by_cases hc : refCond p he rb
  · cases hs : refScan p.readLen p.minOverlapLength p.ovlRefBlockLength p.refMaxC F
        { pos := re, len := 0, reads := 0, bases := 0 } with
    | error h =>
      refine Or.inr (Or.inl ⟨hc, h, rfl, ?_⟩)
      simp only [refLoop, hc, if_true, hs]
    | ok s =>
      refine Or.inr (Or.inr ⟨hc, s, rfl, ?_⟩)
      simp only [refLoop, hc, if_true, hs]
  · refine Or.inl ⟨hc, ?_⟩
    simp only [refLoop, hc, if_false]

theorem hashScan_ne_finished (rl : List Nat) (mo bl mx : Nat) :
    ∀ fuel s, hashScan rl mo bl mx fuel s ≠ .error .finished := by
  intro fuel
  induction fuel with
  | zero => intro s; simp [hashScan]
  | succ n ih =>
    intro s
    simp only [hashScan]
    split
    · simp
    · split
      · exact ih _
      · simp

theorem refScan_ne_finished (rl : List Nat) (mo bl mx : Nat) :
    ∀ fuel s, refScan rl mo bl mx fuel s ≠ .error .finished := by
  intro fuel
  induction fuel with
  | zero => intro s; simp [refScan]
  | succ n ih =>
    intro s
    simp only [refScan]
    split
    · simp
    · split
      · exact ih _
      · simp

theorem refLoop_ne_finished (p : Params) (F hb he hr hbs : Nat) :
    ∀ fuel rb re c, (refLoop p F hb he hr hbs fuel rb re c).2 ≠ .error .finished := by
  intro fuel
  induction fuel with
  | zero => intro rb re c; simp [refLoop]
  | succ n ih =>
    intro rb re c
    rcases refLoop_succ_cases p F hb he hr hbs n rb re c with
      ⟨_, h⟩ | ⟨_, e, hs, h⟩ | ⟨_, s, _, h⟩
    · rw [h]; simp
    · rw [h]
      intro hh
      simp only [Except.error.injEq] at hh
      subst hh
      exact refScan_ne_finished _ _ _ _ _ _ hs
    · rw [h]; exact ih _ _ _

/-- The ways one pass through the outer loop can go. -/
theorem hashLoop_succ_cases (p : Params) (F n hashBeg hashEnd : Nat) (c : Counters) :
    (¬ hashBeg < p.hashMaxC ∧ hashLoop p F (n + 1) hashBeg hashEnd c = ([], .finished)) ∨
    (hashBeg < p.hashMaxC ∧ ∃ h, h ≠ Halt.finished ∧
      hashLoop p F (n + 1) hashBeg hashEnd c = ([], h) ∧
      (hashEnd ≠ (hashBeg + u32 - 1) % u32 ∨
        hashScan p.readLen p.minOverlapLength p.ovlHashBlockLength p.hashMaxC F
          { pos := hashEnd, len := 0, reads := 0, bases := 0 } = .error h ∨
        ∃ s, hashScan p.readLen p.minOverlapLength p.ovlHashBlockLength p.hashMaxC F
          { pos := hashEnd, len := 0, reads := 0, bases := 0 } = .ok s ∧
          ¬ s.pos ≤ p.hashMaxC)) ∨
    (hashBeg < p.hashMaxC ∧ hashEnd = (hashBeg + u32 - 1) % u32 ∧ ∃ s,
      hashScan p.readLen p.minOverlapLength p.ovlHashBlockLength p.hashMaxC F
        { pos := hashEnd, len := 0, reads := 0, bases := 0 } = .ok s ∧ s.pos ≤ p.hashMaxC ∧
      ((∃ h, h ≠ Halt.finished ∧
          (refLoop p F hashBeg s.pos s.reads s.bases F p.refMin 0 c).2 = .error h ∧
          hashLoop p F (n + 1) hashBeg hashEnd c =
            ((refLoop p F hashBeg s.pos s.reads s.bases F p.refMin 0 c).1, h)) ∨
       (∃ c1, (refLoop p F hashBeg s.pos s.reads s.bases F p.refMin 0 c).2 = .ok c1 ∧
          hashLoop p F (n + 1) hashBeg hashEnd c =
            ((refLoop p F hashBeg s.pos s.reads s.bases F p.refMin 0 c).1 ++
              (hashLoop p F n ((s.pos + 1) % u32) s.pos c1).1,
             (hashLoop p F n ((s.pos + 1) % u32) s.pos c1).2)))) := by
  by_cases hlt : hashBeg < p.hashMaxC
  · refine Or.inr ?_
    by_cases hassert : hashEnd = (hashBeg + u32 - 1) % u32
    · cases hs : hashScan p.readLen p.minOverlapLength p.ovlHashBlockLength p.hashMaxC F
          { pos := hashEnd, len := 0, reads := 0, bases := 0 } with
      | error h =>
        refine Or.inl ⟨hlt, h, ?_, ?_, Or.inr (Or.inl rfl)⟩
        · intro hh
          subst hh
          exact hashScan_ne_finished _ _ _ _ _ _ hs
        · simp only [hashLoop, hlt, if_true, ne_eq, hassert, not_true_eq_false, if_false]
          rw [← hassert, hs]
      | ok s =>
        by_cases hle : s.pos ≤ p.hashMaxC
        · refine Or.inr ⟨hlt, hassert, s, rfl, hle, ?_⟩
          cases hin : (refLoop p F hashBeg s.pos s.reads s.bases F p.refMin 0 c).2 with
          | error h =>
            refine Or.inl ⟨h, ?_, rfl, ?_⟩
            · intro hh
              subst hh
              exact refLoop_ne_finished _ _ _ _ _ _ _ _ _ _ hin
            · simp only [hashLoop, hlt, if_true, ne_eq, hassert, not_true_eq_false, if_false]
              rw [← hassert, hs]
              simp only [hle, not_true_eq_false, if_false, hin]
          | ok c1 =>
            refine Or.inr ⟨c1, rfl, ?_⟩
            simp only [hashLoop, hlt, if_true, ne_eq, hassert, not_true_eq_false, if_false]
            rw [← hassert, hs]
            simp only [hle, not_true_eq_false, if_false, hin]
        · refine Or.inl ⟨hlt, .assertFailed, by simp, ?_, Or.inr (Or.inr ⟨s, rfl, hle⟩)⟩
          simp only [hashLoop, hlt, if_true, ne_eq, hassert, not_true_eq_false, if_false]
          rw [← hassert, hs]
          simp only [hle, not_false_eq_true, if_true]
    · refine Or.inl ⟨hlt, .assertFailed, by simp, ?_, Or.inl hassert⟩
      simp only [hashLoop, hlt, if_true, ne_eq, hassert, not_false_eq_true]
  · refine Or.inl ⟨hlt, ?_⟩
    simp only [hashLoop, hlt, if_false]

/-! ## Properties of every emitted job -/

/-- Every job of the inner loop satisfies `P` when each single emission does. -/
theorem refLoop_forall (p : Params) (F hb he hr hbs : Nat) (P : Job → Prop)
    (h : ∀ refBeg refEnd c s, refCond p he refBeg →
      refScan p.readLen p.minOverlapLength p.ovlRefBlockLength p.refMaxC F
        { pos := refEnd, len := 0, reads := 0, bases := 0 } = .ok s →
      P (outputJob hb he hr hbs refBeg (clampRef p he s.pos) s.reads s.bases c).1) :
    ∀ fuel refBeg refEnd c, ∀ j ∈ (refLoop p F hb he hr hbs fuel refBeg refEnd c).1, P j := by
  intro fuel
  induction fuel with
  | zero => intro refBeg refEnd c j hj; simp [refLoop] at hj
  | succ n ih =>
    intro refBeg refEnd c j hj
    rcases refLoop_succ_cases p F hb he hr hbs n refBeg refEnd c with
      ⟨_, e⟩ | ⟨_, _, _, e⟩ | ⟨hc, s, hs, e⟩
    · rw [e] at hj; simp at hj
    · rw [e] at hj; simp at hj
    · rw [e] at hj
      simp only [List.mem_cons] at hj
      rcases hj with rfl | hj
      · exact h refBeg refEnd c s hc hs
      · exact ih _ _ _ j hj

/-- Every job of the outer loop satisfies `P` when each single emission does. -/
theorem hashLoop_forall (p : Params) (F : Nat) (P : Job → Prop)
    (h : ∀ hashBeg hashEnd hs refBeg refEnd c s, hashBeg < p.hashMaxC →
      hashEnd = (hashBeg + u32 - 1) % u32 →
      hashScan p.readLen p.minOverlapLength p.ovlHashBlockLength p.hashMaxC F
        { pos := hashEnd, len := 0, reads := 0, bases := 0 } = .ok hs →
      hs.pos ≤ p.hashMaxC → refCond p hs.pos refBeg →
      refScan p.readLen p.minOverlapLength p.ovlRefBlockLength p.refMaxC F
        { pos := refEnd, len := 0, reads := 0, bases := 0 } = .ok s →
      P (outputJob hashBeg hs.pos hs.reads hs.bases refBeg (clampRef p hs.pos s.pos)
        s.reads s.bases c).1) :
    ∀ fuel hashBeg hashEnd c, ∀ j ∈ (hashLoop p F fuel hashBeg hashEnd c).1, P j := by
  intro fuel
  induction fuel with
  | zero => intro hashBeg hashEnd c j hj; simp [hashLoop] at hj
  | succ n ih =>
    intro hashBeg hashEnd c j hj
    have inner : ∀ hs, hashEnd = (hashBeg + u32 - 1) % u32 → hashBeg < p.hashMaxC →
        hashScan p.readLen p.minOverlapLength p.ovlHashBlockLength p.hashMaxC F
          { pos := hashEnd, len := 0, reads := 0, bases := 0 } = .ok hs →
        hs.pos ≤ p.hashMaxC →
        ∀ j ∈ (refLoop p F hashBeg hs.pos hs.reads hs.bases F p.refMin 0 c).1, P j :=
      fun hs ha hlt hscan hle => refLoop_forall p F hashBeg hs.pos hs.reads hs.bases P
        (fun rb re c s h1 h2 => h hashBeg hashEnd hs rb re c s hlt ha hscan hle h1 h2) _ _ _ _
    rcases hashLoop_succ_cases p F n hashBeg hashEnd c with
      ⟨_, e⟩ | ⟨_, _, _, e, _⟩ | ⟨hlt, ha, hs, hscan, hle, ⟨_, _, _, e⟩ | ⟨c1, _, e⟩⟩
    · rw [e] at hj; simp at hj
    · rw [e] at hj; simp at hj
    · rw [e] at hj
      exact inner hs ha hlt hscan hle j hj
    · rw [e] at hj
      simp only [List.mem_append] at hj
      rcases hj with hj | hj
      · exact inner hs ha hlt hscan hle j hj
      · exact ih _ _ _ j hj

/-! ## The text of the options line -/

theorem digitChar_ne_s (n : Nat) (h : n < 10) : Nat.digitChar n ≠ 's' := by
  interval_cases n <;> decide

theorem toDigitsCore_no_s : ∀ (fuel n : Nat) (ds : List Char), 's' ∉ ds →
    's' ∉ Nat.toDigitsCore 10 fuel n ds := by
  intro fuel
  induction fuel with
  | zero => intro n ds h; simpa [Nat.toDigitsCore] using h
  | succ k ih =>
    intro n ds h
    have hd : 's' ∉ Nat.digitChar (n % 10) :: ds := by
      intro hm
      rcases List.mem_cons.1 hm with hm | hm
      · exact digitChar_ne_s (n % 10) (Nat.mod_lt _ (by decide)) hm.symm
      · exact h hm
    simp only [Nat.toDigitsCore]
    split
    · exact hd
    · exact ih _ _ hd

/-- The decimal numeral of a number has no letter `s`. -/
theorem toString_no_s (n : Nat) : 's' ∉ (toString n).data := by
  show 's' ∉ (Nat.repr n).data
  simp only [Nat.repr, Nat.toDigits, List.asString]
  exact toDigitsCore_no_s _ _ _ (by simp)

/-- The short form of the options line has no letter `s`. -/
theorem optLine_short_no_s (hb he hbs rb re : Nat) :
    's' ∉ (optLine hb he 0 hbs rb re).data := by
  have h1 := toString_no_s hb
  have h2 := toString_no_s he
  have h3 := toString_no_s rb
  have h4 := toString_no_s re
  simp only [optLine, if_true, String.data_append, List.mem_append, not_or]
  refine ⟨⟨⟨⟨⟨⟨⟨⟨?_, h1⟩, ?_⟩, h2⟩, ?_⟩, h3⟩, ?_⟩, h4⟩, ?_⟩ <;> decide

theorem optLine_infix_iff (w : String) (hw : 's' ∈ w.data) (hb he hr hbs rb re : Nat)
    (hlong : hr ≠ 0 → w.data <:+: (optLine hb he hr hbs rb re).data) :
    w.data <:+: (optLine hb he hr hbs rb re).data ↔ hr ≠ 0 := by
  constructor
  · intro h h0
    subst h0
    exact optLine_short_no_s hb he hbs rb re (h.subset hw)
  · exact hlong

theorem optLine_ranges (hb he hr hbs rb re : Nat) :
    ("-h " ++ toString hb ++ "-" ++ toString he ++ " -r " ++ toString rb ++ "-"
      ++ toString re).data <+: (optLine hb he hr hbs rb re).data := by
  simp only [optLine]
  split
  · exact ⟨"\n".data, by simp only [String.data_append, List.append_assoc]⟩
  · exact ⟨(" --hashstrings " ++ toString hr ++ " --hashdatalen " ++ toString hbs ++ "\n").data,
      by simp only [String.data_append, List.append_assoc]⟩

/-! ## Batch and job names -/

theorem outputJob_snd_countersAfter (hb he hr hbs rb re rr rbs k : Nat) :
    (outputJob hb he hr hbs rb re rr rbs (countersAfter k)).2 = countersAfter (k + 1) := by
  simp only [outputJob, countersAfter, batchMax, u32]
  split
  · rename_i h
    simp only [Counters.mk.injEq]
    omega
  · rename_i h
    simp only [Counters.mk.injEq]
    omega

theorem refLoop_names (p : Params) (F hb he hr hbs : Nat) :
    ∀ fuel rb re k,
      (∀ i j, (refLoop p F hb he hr hbs fuel rb re (countersAfter k)).1[i]? = some j →
        j.batchName = (countersAfter (k + i)).batchName ∧
        j.jobName = (countersAfter (k + i)).jobName) ∧
      (∀ c1, (refLoop p F hb he hr hbs fuel rb re (countersAfter k)).2 = .ok c1 →
        c1 = countersAfter
          (k + (refLoop p F hb he hr hbs fuel rb re (countersAfter k)).1.length)) := by
  intro fuel
  induction fuel with
  | zero => intro rb re k; simp [refLoop]
  | succ n ih =>
    intro rb re k
    rcases refLoop_succ_cases p F hb he hr hbs n rb re (countersAfter k) with
      ⟨_, e⟩ | ⟨_, _, _, e⟩ | ⟨_, s, _, e⟩
    · rw [e]; simp
    · rw [e]; simp
    · rw [e, outputJob_snd_countersAfter]
      have ih1 := ih ((clampRef p he s.pos + 1) % u32) (clampRef p he s.pos) (k + 1)
      constructor
      · intro i j hij
        cases i with
        | zero =>
          simp only [List.getElem?_cons_zero, Option.some.injEq] at hij
          subst hij
          simp
        | succ i =>
          simp only [List.getElem?_cons_succ] at hij
          have := ih1.1 i j hij
          rw [show k + 1 + i = k + (i + 1) by omega] at this
          exact this
      · intro c1 hc1
        have := ih1.2 c1 hc1
        rw [this, List.length_cons]
        congr 1
        omega

theorem hashLoop_names (p : Params) (F : Nat) :
    ∀ fuel hashBeg hashEnd k i j,
      (hashLoop p F fuel hashBeg hashEnd (countersAfter k)).1[i]? = some j →
        j.batchName = (countersAfter (k + i)).batchName ∧
        j.jobName = (countersAfter (k + i)).jobName := by
  intro fuel
  induction fuel with
  | zero => intro hashBeg hashEnd k i j h; simp [hashLoop] at h
  | succ n ih =>
    intro hashBeg hashEnd k i j h
    rcases hashLoop_succ_cases p F n hashBeg hashEnd (countersAfter k) with
      ⟨_, e⟩ | ⟨_, _, _, e, _⟩ | ⟨_, _, hs, _, _, ⟨_, _, _, e⟩ | ⟨c1, hc1, e⟩⟩
    · rw [e] at h; simp at h
    · rw [e] at h; simp at h
    · rw [e] at h
      exact (refLoop_names p F hashBeg hs.pos hs.reads hs.bases F p.refMin 0 k).1 i j h
    · rw [e] at h
      have hin := refLoop_names p F hashBeg hs.pos hs.reads hs.bases F p.refMin 0 k
      simp only at h
      by_cases hi : i < (refLoop p F hashBeg hs.pos hs.reads hs.bases F p.refMin 0
          (countersAfter k)).1.length
      · rw [List.getElem?_append_left hi] at h
        exact hin.1 i j h
      · rw [List.getElem?_append_right (by omega)] at h
        rw [hin.2 c1 hc1] at h
        have := ih _ _ _ _ j h
        rw [show k + (refLoop p F hashBeg hs.pos hs.reads hs.bases F p.refMin 0
          (countersAfter k)).1.length + (i - (refLoop p F hashBeg hs.pos hs.reads hs.bases F
          p.refMin 0 (countersAfter k)).1.length) = k + i by omega] at this
        exact this

theorem partitionLength_names (p : Params) (fuel i : Nat) (j : Job)
    (h : (partitionLength p fuel).1[i]? = some j) :
    j.batchName = (1 + i / batchMax) % u32 ∧ j.jobName = (1 + i) % u32 := by
  have := hashLoop_names p fuel fuel p.hashMin ((p.hashMin + u32 - 1) % u32) 0 i j
    (by simpa [partitionLength, countersAfter, batchMax, u32] using h)
  simpa [countersAfter] using this

/-! ## The order of the emitted jobs -/

theorem hashMaxC_le_numReads (p : Params) : p.hashMaxC ≤ p.numReads := by
  unfold Params.hashMaxC; split <;> omega

theorem refMaxC_le_numReads (p : Params) : p.refMaxC ≤ p.numReads := by
  unfold Params.refMaxC; split <;> omega

theorem capAtHash_eq_not_sameSets (p : Params) : p.capAtHash = !p.sameSets := by
  unfold Params.capAtHash Params.sameSets
  by_cases h1 : p.libToHash.card = 0 <;> by_cases h2 : p.libToHash = p.libToRef <;> simp [h1, h2]

theorem refCond_mono (p : Params) (e e1 rb : Nat) (h : refCond p e rb) (hle : e ≤ e1) :
    refCond p e1 rb := by
  unfold refCond at *
  rcases h with ⟨h1, h2 | h2⟩
  · exact ⟨h1, Or.inl (by omega)⟩
  · exact ⟨h1, Or.inr h2⟩

/-- The inner loop condition fails at `refBeg` exactly when the reference
pointer has reached `refMax` or, unless the role sets are the same non-empty
set, the hash range end. -/
theorem not_refCond_iff (p : Params) (he rb : Nat) :
    ¬ refCond p he rb ↔ p.refMaxC ≤ rb ∨ (p.sameSets = false ∧ he ≤ rb) := by
  unfold refCond
  cases hs : p.sameSets
  · simp only [Bool.false_eq_true, or_false, true_and]
    omega
  · simp only [or_true, and_true, Bool.true_eq_false, false_and, or_false]
    omega

/-- The jobs of one inner loop: each reference range starts right after the
previous one, the first starts at the entry value of `refBeg`, and when the
loop exits normally its condition fails at the next reference pointer. -/
theorem refLoop_structure (p : Params) (hwf : p.numReads + 1 < u32) (F hb he hr hbs : Nat) :
    ∀ fuel rb re c,
      List.Chain' (fun a b : Job => b.refBeg = a.refEnd + 1)
        (refLoop p F hb he hr hbs fuel rb re c).1 ∧
      ((refLoop p F hb he hr hbs fuel rb re c).1 ≠ [] → refCond p he rb) ∧
      (∀ j ∈ (refLoop p F hb he hr hbs fuel rb re c).1.head?, j.refBeg = rb) ∧
      (∀ c1, (refLoop p F hb he hr hbs fuel rb re c).2 = .ok c1 →
        ((refLoop p F hb he hr hbs fuel rb re c).1 = [] → ¬ refCond p he rb) ∧
        ∀ j ∈ (refLoop p F hb he hr hbs fuel rb re c).1.getLast?,
          ¬ refCond p he (j.refEnd + 1)) := by
  intro fuel
  induction fuel with
  | zero => intro rb re c; simp [refLoop]
  | succ n ih =>
    intro rb re c
    rcases refLoop_succ_cases p F hb he hr hbs n rb re c with
      ⟨hc, e⟩ | ⟨_, _, _, e⟩ | ⟨hcond, s, _, e⟩
    · rw [e]; simp [hc]
    · rw [e]; simp
    · rw [e]
      have hle : clampRef p he s.pos ≤ p.refMaxC := clampRef_le_refMaxC p he s.pos
      have hM := refMaxC_le_numReads p
      have hmod : (clampRef p he s.pos + 1) % u32 = clampRef p he s.pos + 1 := by
        unfold u32 at *; omega
      rw [hmod]
      obtain ⟨ih1, _, ih2, ih3⟩ := ih (clampRef p he s.pos + 1) (clampRef p he s.pos)
        (outputJob hb he hr hbs rb (clampRef p he s.pos) s.reads s.bases c).2
      refine ⟨?_, fun _ => hcond, ?_, ?_⟩
      · rw [List.chain'_cons']
        refine ⟨?_, ih1⟩
        intro y hy
        simpa using ih2 y hy
      · simp
      · intro c1 hc1
        obtain ⟨ih3a, ih3b⟩ := ih3 c1 hc1
        refine ⟨by simp, ?_⟩
        intro j hj
        rw [List.getLast?_cons] at hj
        cases hl : (refLoop p F hb he hr hbs n (clampRef p he s.pos + 1) (clampRef p he s.pos)
            (outputJob hb he hr hbs rb (clampRef p he s.pos) s.reads s.bases c).2).1.getLast? with
        | none =>
          rw [hl] at hj
          simp only [Option.getD_none, Option.mem_def, Option.some.injEq] at hj
          subst hj
          simp only [outputJob_fst]
          exact ih3a (List.getLast?_eq_none_iff.1 hl)
        | some x =>
          rw [hl] at hj
          simp only [Option.getD_some, Option.mem_def, Option.some.injEq] at hj
          subst hj
          exact ih3b _ hl

theorem refLoop_fields (p : Params) (F hb he hr hbs fuel rb re : Nat) (c : Counters) :
    ∀ j ∈ (refLoop p F hb he hr hbs fuel rb re c).1,
      j.hashBeg = hb ∧ j.hashEnd = he ∧ j.numHashReads = hr ∧ j.numHashBases = hbs := by
  apply refLoop_forall p F hb he hr hbs
    (fun j => j.hashBeg = hb ∧ j.hashEnd = he ∧ j.numHashReads = hr ∧ j.numHashBases = hbs)
  intro refBeg refEnd c s _ _
  simp

theorem refLoop_jobStep (p : Params) (hwf : p.numReads + 1 < u32)
    (F hb he hr hbs fuel rb re : Nat) (c : Counters) :
    List.Chain' (JobStep p) (refLoop p F hb he hr hbs fuel rb re c).1 := by
  have hch := (refLoop_structure p hwf F hb he hr hbs fuel rb re c).1
  have hf := refLoop_fields p F hb he hr hbs fuel rb re c
  rw [List.chain'_iff_get] at hch ⊢
  intro i hi
  have h1 := hf _ (List.get_mem _ i (by omega))
  have h2 := hf _ (List.get_mem _ (i + 1) (by omega))
  exact Or.inl ⟨by rw [h2.1, h1.1], by rw [h2.2.1, h1.2.1], hch i hi⟩

theorem hashLoop_first_pos (p : Params) (hwf : p.numReads + 1 < u32) (F hashBeg hashEnd : Nat)
    (s : Scan) (hlt : hashBeg < p.hashMaxC) (ha : hashEnd = (hashBeg + u32 - 1) % u32)
    (hs : hashScan p.readLen p.minOverlapLength p.ovlHashBlockLength p.hashMaxC F
      { pos := hashEnd, len := 0, reads := 0, bases := 0 } = .ok s) :
    hashBeg ≤ s.pos ∧ s.pos ≤ p.hashMaxC ∧ (s.pos + 1) % u32 = s.pos + 1 := by
  have hM := hashMaxC_le_numReads p
  have hpos := hashScan_pos p.readLen p.minOverlapLength p.ovlHashBlockLength p.hashMaxC
    (by omega) F _ s hs
  simp only at hpos
  have hb : (hashEnd + 1) % u32 = hashBeg := by
    rw [ha]; unfold u32 at *; omega
  rw [hb] at hpos
  refine ⟨hpos.1, by omega, ?_⟩
  unfold u32 at *
  omega

/-- The jobs of a run of the outer loop entered at `hashBeg`. -/
theorem hashLoop_structure (p : Params) (hwf : p.numReads + 1 < u32) (F : Nat) :
    ∀ fuel hashBeg hashEnd c,
      List.Chain' (JobStep p) (hashLoop p F fuel hashBeg hashEnd c).1 ∧
      (∀ j ∈ (hashLoop p F fuel hashBeg hashEnd c).1, hashBeg ≤ j.hashBeg) ∧
      (∀ j ∈ (hashLoop p F fuel hashBeg hashEnd c).1.head?,
        j.refBeg = p.refMin ∧ (refCond p hashBeg p.refMin → j.hashBeg = hashBeg)) ∧
      ((hashLoop p F fuel hashBeg hashEnd c).2 = .finished →
        (∀ j ∈ (hashLoop p F fuel hashBeg hashEnd c).1.getLast?,
          p.hashMaxC ≤ j.hashEnd + 1 ∧ ¬ refCond p j.hashEnd (j.refEnd + 1)) ∧
        ((hashLoop p F fuel hashBeg hashEnd c).1 = [] → hashBeg < p.hashMaxC →
          ¬ refCond p (p.hashMaxC - 1) p.refMin)) := by
  intro fuel
  induction fuel with
  | zero => intro hashBeg hashEnd c; simp [hashLoop]
  | succ n ih =>
    intro hashBeg hashEnd c
    rcases hashLoop_succ_cases p F n hashBeg hashEnd c with
      ⟨hlt, e⟩ | ⟨_, h, hne, e, _⟩ | ⟨hlt, ha, s, hs, hle, ⟨h, hne, hin, e⟩ | ⟨c1, hin, e⟩⟩
    · rw [e]; simp [hlt]
    · rw [e]; simp [hne]
    · -- the inner loop stopped the run
      rw [e]
      obtain ⟨_, _, r2, _⟩ :=
        refLoop_structure p hwf F hashBeg s.pos s.reads s.bases F p.refMin 0 c
      have hf := refLoop_fields p F hashBeg s.pos s.reads s.bases F p.refMin 0 c
      refine ⟨refLoop_jobStep p hwf F hashBeg s.pos s.reads s.bases F p.refMin 0 c, ?_, ?_, ?_⟩
      · intro j hj; exact (hf j hj).1.ge
      · intro j hj
        exact ⟨r2 j hj, fun _ => (hf j (List.mem_of_mem_head? hj)).1⟩
      · intro hfin; exact absurd hfin hne
    · -- the inner loop finished and the outer loop goes on
      rw [e]
      obtain ⟨hbs, _, hmod⟩ := hashLoop_first_pos p hwf F hashBeg hashEnd s hlt ha hs
      rw [hmod]
      obtain ⟨_, r1, r2, r3⟩ :=
        refLoop_structure p hwf F hashBeg s.pos s.reads s.bases F p.refMin 0 c
      obtain ⟨r3a, r3b⟩ := r3 c1 hin
      have hf := refLoop_fields p F hashBeg s.pos s.reads s.bases F p.refMin 0 c
      have hj := refLoop_jobStep p hwf F hashBeg s.pos s.reads s.bases F p.refMin 0 c
      obtain ⟨i1, i2, i3, i4⟩ := ih (s.pos + 1) s.pos c1
      generalize hI : (refLoop p F hashBeg s.pos s.reads s.bases F p.refMin 0 c).1 = inner at *
      generalize hR : (hashLoop p F n (s.pos + 1) s.pos c1) = rest at *
      refine ⟨?_, ?_, ?_, ?_⟩
      · rw [List.chain'_append]
        refine ⟨hj, i1, ?_⟩
        intro x hx y hy
        have hxm := List.mem_of_mem_getLast? hx
        have hlive : refCond p (s.pos + 1) p.refMin :=
          refCond_mono p _ _ _ (r1 (List.ne_nil_of_mem hxm)) (by omega)
        refine Or.inr ⟨?_, (i3 y hy).1, ?_⟩
        · rw [(i3 y hy).2 hlive, (hf x hxm).2.1]
        · rw [(hf x hxm).2.1]; exact r3b x hx
      · intro j hjm
        rcases List.mem_append.1 hjm with hjm | hjm
        · exact (hf j hjm).1.ge
        · have := i2 j hjm; omega
      · intro j hjm
        cases hcs : inner with
        | nil =>
          rw [hcs, List.nil_append] at hjm
          refine ⟨(i3 j hjm).1, ?_⟩
          intro hlive
          exact absurd (refCond_mono p _ _ _ hlive hbs) (r3a hcs)
        | cons x xs =>
          rw [hcs] at hjm
          simp only [List.cons_append, List.head?_cons, Option.mem_def,
            Option.some.injEq] at hjm
          subst hjm
          have hxm : x ∈ inner := by rw [hcs]; exact List.mem_cons_self _ _
          exact ⟨r2 x (by rw [hcs]; rfl), fun _ => (hf x hxm).1⟩
      · intro hfin
        obtain ⟨i4a, i4b⟩ := i4 hfin
        constructor
        · intro j hjm
          cases hcs : rest.1 with
          | nil =>
            rw [hcs, List.append_nil] at hjm
            have hjmem := List.mem_of_mem_getLast? hjm
            have hlive : refCond p s.pos p.refMin := r1 (List.ne_nil_of_mem hjmem)
            refine ⟨?_, ?_⟩
            · rw [(hf j hjmem).2.1]
              by_contra hcon
              exact i4b hcs (by omega) (refCond_mono p _ _ _ hlive (by omega))
            · rw [(hf j hjmem).2.1]; exact r3b j hjm
          | cons y ys =>
            rw [List.getLast?_append_of_ne_nil _ (by rw [hcs]; simp)] at hjm
            exact i4a j hjm
        · intro hnil _ hc
          have hn := List.append_eq_nil.1 hnil
          by_cases hnext : s.pos + 1 < p.hashMaxC
          · exact i4b hn.2 hnext hc
          · exact r3a hn.1 (refCond_mono p _ _ _ hc (by omega))

/-! ## Termination -/

theorem hashScan_total (rl : List Nat) (mo bl mx N : Nat) (hlen : rl.length = N + 1)
    (hmx : mx ≤ N) (hN : N + 1 < u32) :
    ∀ fuel s0, (s0.pos + 1) % u32 ≤ N → 0 < fuel → mx < fuel + (s0.pos + 1) % u32 →
      ∃ s, hashScan rl mo bl mx fuel s0 = .ok s := by
  intro fuel
  induction fuel with
  | zero => intro s0 _ h; omega
  | succ n ih =>
    intro s0 hb _ hf
    simp only [hashScan]
    have hidx : (s0.pos + 1) % u32 < rl.length := by omega
    rw [List.getElem?_eq_getElem hidx]
    simp only [hashAcc_pos]
    split
    · rename_i hc
      have h2 := hc.2
      apply ih
      · rw [hashAcc_pos]; unfold u32 at *; omega
      · omega
      · rw [hashAcc_pos]; unfold u32 at *; omega
    · exact ⟨_, rfl⟩

theorem refScan_total (rl : List Nat) (mo bl mx N : Nat) (hlen : rl.length = N + 1)
    (hmx : mx ≤ N) (hN : N + 1 < u32) :
    ∀ fuel s0, (s0.pos + 1) % u32 ≤ N → 0 < fuel → mx < fuel + (s0.pos + 1) % u32 →
      ∃ s, refScan rl mo bl mx fuel s0 = .ok s := by
  intro fuel
  induction fuel with
  | zero => intro s0 _ h; omega
  | succ n ih =>
    intro s0 hb _ hf
    simp only [refScan]
    have hidx : (s0.pos + 1) % u32 < rl.length := by omega
    rw [List.getElem?_eq_getElem hidx]
    simp only [refAcc_pos]
    split
    · rename_i hc
      have h2 := hc.2
      apply ih
      · rw [refAcc_pos]; unfold u32 at *; omega
      · omega
      · rw [refAcc_pos]; unfold u32 at *; omega
    · exact ⟨_, rfl⟩

/-- Each pass through the inner loop moves the reference end forward. -/
theorem clampRef_progress (p : Params) (he rb re pos : Nat) (hc : refCond p he rb)
    (hre : re ≤ rb) (hpos : re + 1 ≤ pos) : re + 1 ≤ clampRef p he pos := by
  have hcap := capAtHash_eq_not_sameSets p
  unfold refCond at hc
  rcases hc.2 with h | h
  · simp only [clampRef]
    split_ifs <;> omega
  · rw [h] at hcap
    simp only [clampRef, hcap, Bool.not_true, Bool.false_eq_true, and_false, if_false]
    have := hc.1
    split_ifs <;> omega

theorem refLoop_total (p : Params) (hwf : p.numReads + 1 < u32)
    (hlen : p.readLen.length = p.numReads + 1) (F : Nat) (hF : p.numReads < F)
    (hb he hr hbs : Nat) :
    ∀ fuel rb re c, re ≤ rb → 0 < fuel → p.refMaxC < fuel + re →
      ∃ c1, (refLoop p F hb he hr hbs fuel rb re c).2 = .ok c1 := by
  have hM := refMaxC_le_numReads p
  intro fuel
  induction fuel with
  | zero => intro rb re c _ h; omega
  | succ n ih =>
    intro rb re c hre _ hf
    rcases refLoop_succ_cases p F hb he hr hbs n rb re c with
      ⟨_, e⟩ | ⟨hc, h, hs, e⟩ | ⟨hc, s, hs, e⟩
    · rw [e]; exact ⟨c, rfl⟩
    · exfalso
      have hlt := hc.1
      have hmod : (re + 1) % u32 = re + 1 := by unfold u32 at *; omega
      obtain ⟨s, hs1⟩ := refScan_total p.readLen p.minOverlapLength p.ovlRefBlockLength
        p.refMaxC p.numReads hlen hM hwf F { pos := re, len := 0, reads := 0, bases := 0 }
        (by simp only; omega) (by omega) (by simp only; omega)
      rw [hs1] at hs
      simp at hs
    · rw [e]
      have hlt := hc.1
      have hmod : (re + 1) % u32 = re + 1 := by unfold u32 at *; omega
      have hpos := refScan_pos p.readLen p.minOverlapLength p.ovlRefBlockLength p.refMaxC
        (by omega) F _ s hs
      simp only [hmod] at hpos
      have hprog := clampRef_progress p he rb re s.pos hc hre hpos.1
      have hle := clampRef_le_refMaxC p he s.pos
      have hmod2 : (clampRef p he s.pos + 1) % u32 = clampRef p he s.pos + 1 := by
        unfold u32 at *; omega
      rw [hmod2]
      exact ih _ _ _ (by omega) (by omega) (by omega)

theorem hashLoop_total (p : Params) (hwf : p.numReads + 1 < u32)
    (hlen : p.readLen.length = p.numReads + 1) (F : Nat) (hF : p.numReads < F) :
    ∀ fuel hashBeg hashEnd c, hashEnd = (hashBeg + u32 - 1) % u32 → 0 < fuel →
      p.hashMaxC < fuel + hashBeg → (hashLoop p F fuel hashBeg hashEnd c).2 = .finished := by
  have hM := hashMaxC_le_numReads p
  intro fuel
  induction fuel with
  | zero => intro hashBeg hashEnd c _ h; omega
  | succ n ih =>
    intro hashBeg hashEnd c ha _ hf
    have hscan : hashBeg < p.hashMaxC → ∃ s,
        hashScan p.readLen p.minOverlapLength p.ovlHashBlockLength p.hashMaxC F
          { pos := hashEnd, len := 0, reads := 0, bases := 0 } = .ok s := by
      intro hlt
      have hbeg : (hashEnd + 1) % u32 = hashBeg := by
        rw [ha]; unfold u32 at *; omega
      exact hashScan_total p.readLen p.minOverlapLength p.ovlHashBlockLength
        p.hashMaxC p.numReads hlen hM hwf F _
        (by simp only; omega) (by omega) (by simp only; omega)
    rcases hashLoop_succ_cases p F n hashBeg hashEnd c with
      ⟨_, e⟩ | ⟨hlt, h, _, _, hbad | hbad | ⟨s, hs, hbad⟩⟩ |
      ⟨hlt, _, s, hs, hle, ⟨h, _, hin, e⟩ | ⟨c1, hin, e⟩⟩
    · rw [e]
    · exact absurd ha hbad
    · obtain ⟨s, hs⟩ := hscan hlt
      rw [hs] at hbad; simp at hbad
    · exact absurd (hashLoop_first_pos p hwf F hashBeg hashEnd s hlt ha hs).2.1 hbad
    · exfalso
      obtain ⟨c1, hc1⟩ := refLoop_total p hwf hlen F hF hashBeg s.pos s.reads s.bases F
        p.refMin 0 c (Nat.zero_le _) (by omega) (by have := refMaxC_le_numReads p; omega)
      rw [hc1] at hin
      simp at hin
    · rw [e]
      obtain ⟨hbs, _, hmod⟩ := hashLoop_first_pos p hwf F hashBeg hashEnd s hlt ha hs
      rw [hmod]
      apply ih
      · unfold u32 at *; omega
      · omega
      · omega

/-- With at least `numReads + 1` units of fuel the run finishes: no loop runs
out of fuel, no assertion fails and `readLen` is never indexed out of range. -/
theorem partitionLength_finished (p : Params) (hwf : p.numReads + 1 < u32)
    (hlen : p.readLen.length = p.numReads + 1) (fuel : Nat) (hfuel : p.numReads < fuel) :
    (partitionLength p fuel).2 = .finished := by
  have hM := hashMaxC_le_numReads p
  exact hashLoop_total p hwf hlen fuel hfuel fuel p.hashMin _ _ rfl (by omega) (by omega)

/-! ## More fuel does not change the result -/

theorem hashScan_fuel_mono (rl : List Nat) (mo bl mx : Nat) :
    ∀ n s r, hashScan rl mo bl mx n s = .ok r → ∀ m, n ≤ m → hashScan rl mo bl mx m s = .ok r := by
  intro n
  induction n with
  | zero => intro s r h; simp [hashScan] at h
  | succ n ih =>
    intro s r h m hm
    obtain ⟨m, rfl⟩ : ∃ k, m = k + 1 := ⟨m - 1, by omega⟩
    simp only [hashScan] at h ⊢
    split
    · rename_i hx; rw [hx] at h; exact h
    · rename_i l hx
      rw [hx] at h
      simp only at h
      split
      · rename_i hc
        rw [if_pos hc] at h
        exact ih _ _ h m (by omega)
      · rename_i hc
        rw [if_neg hc] at h
        exact h

theorem refScan_fuel_mono (rl : List Nat) (mo bl mx : Nat) :
    ∀ n s r, refScan rl mo bl mx n s = .ok r → ∀ m, n ≤ m → refScan rl mo bl mx m s = .ok r := by
  intro n
  induction n with
  | zero => intro s r h; simp [refScan] at h
  | succ n ih =>
    intro s r h m hm
    obtain ⟨m, rfl⟩ : ∃ k, m = k + 1 := ⟨m - 1, by omega⟩
    simp only [refScan] at h ⊢
    split
    · rename_i hx; rw [hx] at h; exact h
    · rename_i l hx
      rw [hx] at h
      simp only at h
      split
      · rename_i hc
        rw [if_pos hc] at h
        exact ih _ _ h m (by omega)
      · rename_i hc
        rw [if_neg hc] at h
        exact h

theorem refLoop_fuel_mono (p : Params) (F G : Nat) (hFG : F ≤ G) (hb he hr hbs : Nat) :
    ∀ n rb re c c1, (refLoop p F hb he hr hbs n rb re c).2 = .ok c1 → ∀ m, n ≤ m →
      refLoop p G hb he hr hbs m rb re c = refLoop p F hb he hr hbs n rb re c := by
  intro n
  induction n with
  | zero => intro rb re c c1 h; simp [refLoop] at h
  | succ n ih =>
    intro rb re c c1 h m hm
    obtain ⟨m, rfl⟩ : ∃ k, m = k + 1 := ⟨m - 1, by omega⟩
    rcases refLoop_succ_cases p F hb he hr hbs n rb re c with
      ⟨hc, e⟩ | ⟨_, _, _, e⟩ | ⟨hc, s, hs, e⟩
    · rw [e]
      simp only [refLoop, hc, if_false]
    · rw [e] at h; simp at h
    · rw [e] at h ⊢
      have hs2 := refScan_fuel_mono _ _ _ _ F _ s hs G hFG
      simp only [refLoop, hc, if_true, hs2]
      rw [ih _ _ _ c1 h m (by omega)]

theorem hashLoop_fuel_mono (p : Params) (F G : Nat) (hFG : F ≤ G) :
    ∀ n hashBeg hashEnd c, (hashLoop p F n hashBeg hashEnd c).2 = .finished → ∀ m, n ≤ m →
      hashLoop p G m hashBeg hashEnd c = hashLoop p F n hashBeg hashEnd c := by
  intro n
  induction n with
  | zero => intro hashBeg hashEnd c h; simp [hashLoop] at h
  | succ n ih =>
    intro hashBeg hashEnd c h m hm
    obtain ⟨m, rfl⟩ : ∃ k, m = k + 1 := ⟨m - 1, by omega⟩
    rcases hashLoop_succ_cases p F n hashBeg hashEnd c with
      ⟨hlt, e⟩ | ⟨_, _, hne, e, _⟩ | ⟨hlt, ha, s, hs, hle, ⟨_, hne, _, e⟩ | ⟨c1, hin, e⟩⟩
    · rw [e]
      simp only [hashLoop, hlt, if_false]
    · rw [e] at h; exact absurd h hne
    · rw [e] at h; exact absurd h hne
    · rw [e] at h ⊢
      have hs2 := hashScan_fuel_mono _ _ _ _ F _ s hs G hFG
      have hin2 := refLoop_fuel_mono p F G hFG hashBeg s.pos s.reads s.bases F p.refMin 0 c c1
        hin G hFG
      simp only [hashLoop, hlt, if_true, ne_eq, ha, not_true_eq_false, if_false]
      rw [← ha, hs2]
      simp only [hle, not_true_eq_false, if_false, hin2, hin]
      rw [ih _ _ _ h m (by omega)]

/-- Every amount of fuel above `numReads` gives the same jobs. -/
theorem partitionLength_fuel (p : Params) (hwf : p.numReads + 1 < u32)
    (hlen : p.readLen.length = p.numReads + 1) (fuel : Nat) (hfuel : p.numReads < fuel) :
    partitionLength p fuel = partitionLength p (p.numReads + 1) := by
  have h := partitionLength_finished p hwf hlen (p.numReads + 1) (by omega)
  exact hashLoop_fuel_mono p (p.numReads + 1) fuel (by omega) (p.numReads + 1) _ _ _ h fuel
    (by omega)

/-! ## What the hash scan accumulates -/

theorem sizeFrom_le (rl : List Nat) (mo a : Nat) (hrl : ∀ l ∈ rl, l + 1 < u32) :
    ∀ n, sizeFrom rl mo a n ≤ n * (u32 - 1) := by
  intro n
  induction n with
  | zero => simp [sizeFrom]
  | succ n ih =>
    simp only [sizeFrom]
    have hterm : rl.getD (a + n) 0 + 1 ≤ u32 - 1 := by
      by_cases hi : a + n < rl.length
      · have := hrl (rl[a + n]) (List.getElem_mem _)
        rw [List.getD_eq_getElem _ _ hi]
        omega
      · rw [List.getD_eq_default _ _ (by omega)]
        unfold u32; omega
    split
    · rw [Nat.add_mul]; omega
    · rw [Nat.add_mul]; omega

theorem countFrom_le (rl : List Nat) (mo a : Nat) : ∀ n, countFrom rl mo a n ≤ n := by
  intro n
  induction n with
  | zero => simp [countFrom]
  | succ n ih => simp only [countFrom]; split <;> omega

/-- The accumulators of a hash scan that started at read `a`: when the scan
stops at `s.pos` they hold the size and the number of the included reads
`a .. s.pos`, and the size of every shorter range `a .. e` is below the block
length. -/
theorem hashScan_sum (rl : List Nat) (mo bl mx a : Nat) (hrl : ∀ l ∈ rl, l + 1 < u32)
    (hmx : mx + 1 < u32) :
    ∀ fuel s0 s, hashScan rl mo bl mx fuel s0 = .ok s →
      a ≤ (s0.pos + 1) % u32 → (s0.pos + 1) % u32 ≤ mx →
      s0.len = sizeFrom rl mo a ((s0.pos + 1) % u32 - a) →
      s0.bases = sizeFrom rl mo a ((s0.pos + 1) % u32 - a) →
      s0.reads = countFrom rl mo a ((s0.pos + 1) % u32 - a) →
      s.len = sizeFrom rl mo a (s.pos + 1 - a) ∧
      s.bases = sizeFrom rl mo a (s.pos + 1 - a) ∧
      s.reads = countFrom rl mo a (s.pos + 1 - a) ∧
      ∀ e, (s0.pos + 1) % u32 ≤ e → e < s.pos → sizeFrom rl mo a (e + 1 - a) < bl := by
  intro fuel
  induction fuel with
  | zero => intro s0 s h; simp [hashScan] at h
  | succ n ih =>
    intro s0 s h ha hbmx hlen hbases hreads
    simp only [hashScan] at h
    generalize hb : (s0.pos + 1) % u32 = b at *
    split at h
    · simp at h
    · rename_i l hl
      have hget : rl.getD b 0 = l := by
        rw [List.getD_eq_getElem?_getD, hl]; rfl
      have hlmem : l ∈ rl := List.getElem?_mem hl
      have hl32 := hrl l hlmem
      have hsz := sizeFrom_le rl mo a hrl (b - a)
      have hct := countFrom_le rl mo a (b - a)
      have hstep : b + 1 - a = (b - a) + 1 := by omega
      have hab : a + (b - a) = b := by omega
      have hbound : (b - a) * (u32 - 1) + u32 ≤ u64 := by
        have : (b - a) * (u32 - 1) ≤ (u32 - 1) * (u32 - 1) :=
          Nat.mul_le_mul_right _ (by omega)
        have h2 : (u32 - 1) * (u32 - 1) + u32 ≤ u64 := by unfold u32 u64; norm_num
        omega
      have hacc : (hashAcc mo s0 b l).pos = b ∧
          (hashAcc mo s0 b l).len = sizeFrom rl mo a (b + 1 - a) ∧
          (hashAcc mo s0 b l).bases = sizeFrom rl mo a (b + 1 - a) ∧
          (hashAcc mo s0 b l).reads = countFrom rl mo a (b + 1 - a) := by
        rw [hstep]
        simp only [sizeFrom, countFrom, hab, hget]
        unfold hashAcc
        by_cases hlt : l < mo
        · simp only [hlt, if_true, Nat.add_zero]
          exact ⟨trivial, hlen, hbases, hreads⟩
        · simp only [hlt, if_false]
          have e1 : (l + 1) % u32 = l + 1 := Nat.mod_eq_of_lt hl32
          rw [e1, hlen, hbases, hreads]
          refine ⟨trivial, ?_, ?_, ?_⟩
          · exact Nat.mod_eq_of_lt (by omega)
          · exact Nat.mod_eq_of_lt (by omega)
          · exact Nat.mod_eq_of_lt (by omega)
      obtain ⟨hp, hl1, hb1, hr1⟩ := hacc
      split at h
      · rename_i hc
        rw [hp] at hc
        have hnext : ((hashAcc mo s0 b l).pos + 1) % u32 = b + 1 := by
          rw [hp]; exact Nat.mod_eq_of_lt (by omega)
        have := ih _ s h (by rw [hnext]; omega) (by rw [hnext]; omega)
          (by rw [hnext]; exact hl1)
          (by rw [hnext]; exact hb1) (by rw [hnext]; exact hr1)
        obtain ⟨r1, r2, r3, r4⟩ := this
        refine ⟨r1, r2, r3, ?_⟩
        intro e he1 he2
        by_cases heb : e = b
        · subst heb
          rw [← hl1]; exact hc.1
        · exact r4 e (by rw [hnext]; omega) he2
      · simp only [Except.ok.injEq] at h
        subst h
        rw [hp]
        refine ⟨hl1, hb1, hr1, ?_⟩
        intro e he1 he2
        omega

/-! ## Jobs and the scans that produced them -/

/-- Every job of the outer loop satisfies `P` when the jobs of each inner loop do. -/
theorem hashLoop_forall_inner (p : Params) (F : Nat) (P : Job → Prop)
    (h : ∀ hashBeg hashEnd hs c, hashBeg < p.hashMaxC →
      hashEnd = (hashBeg + u32 - 1) % u32 →
      hashScan p.readLen p.minOverlapLength p.ovlHashBlockLength p.hashMaxC F
        { pos := hashEnd, len := 0, reads := 0, bases := 0 } = .ok hs →
      hs.pos ≤ p.hashMaxC →
      ∀ j ∈ (refLoop p F hashBeg hs.pos hs.reads hs.bases F p.refMin 0 c).1, P j) :
    ∀ fuel hashBeg hashEnd c, ∀ j ∈ (hashLoop p F fuel hashBeg hashEnd c).1, P j := by
  intro fuel
  induction fuel with
  | zero => intro hashBeg hashEnd c j hj; simp [hashLoop] at hj
  | succ n ih =>
    intro hashBeg hashEnd c j hj
    rcases hashLoop_succ_cases p F n hashBeg hashEnd c with
      ⟨_, e⟩ | ⟨_, _, _, e, _⟩ | ⟨hlt, ha, hs, hscan, hle, ⟨_, _, _, e⟩ | ⟨c1, _, e⟩⟩
    · rw [e] at hj; simp at hj
    · rw [e] at hj; simp at hj
    · rw [e] at hj
      exact h hashBeg hashEnd hs c hlt ha hscan hle j hj
    · rw [e] at hj
      simp only [List.mem_append] at hj
      rcases hj with hj | hj
      · exact h hashBeg hashEnd hs c hlt ha hscan hle j hj
      · exact ih _ _ _ j hj

/-- Every job of an inner loop comes from a reference scan: the scan started
either at the entry value of `refEnd` (for the job that begins at the entry
value of `refBeg`) or right before the job's `refBeg`, and the job reports the
clamped end of that scan together with its counts. -/
theorem refLoop_scanned (p : Params) (hwf : p.numReads + 1 < u32) (F hb he hr hbs : Nat) :
    ∀ fuel rb re c, ∀ j ∈ (refLoop p F hb he hr hbs fuel rb re c).1,
      ∃ re1 s, ((re1 = re ∧ j.refBeg = rb) ∨ j.refBeg = re1 + 1) ∧
        refCond p he j.refBeg ∧
        refScan p.readLen p.minOverlapLength p.ovlRefBlockLength p.refMaxC F
          { pos := re1, len := 0, reads := 0, bases := 0 } = .ok s ∧
        j.refEnd = clampRef p he s.pos ∧ j.numRefReads = s.reads ∧
        j.numRefBases = s.bases := by
  intro fuel
  induction fuel with
  | zero => intro rb re c j hj; simp [refLoop] at hj
  | succ n ih =>
    intro rb re c j hj
    rcases refLoop_succ_cases p F hb he hr hbs n rb re c with
      ⟨_, e⟩ | ⟨_, _, _, e⟩ | ⟨hc, s, hs, e⟩
    · rw [e] at hj; simp at hj
    · rw [e] at hj; simp at hj
    · rw [e] at hj
      simp only [List.mem_cons] at hj
      rcases hj with rfl | hj
      · exact ⟨re, s, Or.inl ⟨rfl, by simp⟩, by simpa using hc, hs, by simp, by simp, by simp⟩
      · have hle := clampRef_le_refMaxC p he s.pos
        have hM := refMaxC_le_numReads p
        have hmod : (clampRef p he s.pos + 1) % u32 = clampRef p he s.pos + 1 := by
          unfold u32 at *; omega
        rw [hmod] at hj
        obtain ⟨re1, s1, hlink, hrest⟩ := ih _ _ _ j hj
        refine ⟨re1, s1, ?_, hrest⟩
        rcases hlink with ⟨h1, h2⟩ | h2
        · exact Or.inr (by rw [h2, h1])
        · exact Or.inr h2

/-! ## Bounds of the ranges of a job -/

theorem job_hash_bounds (p : Params) (fuel : Nat) (hwf : p.numReads + 1 < u32) :
    ∀ j ∈ (partitionLength p fuel).1,
      p.hashMin ≤ j.hashBeg ∧ j.hashBeg ≤ j.hashEnd ∧ j.hashEnd ≤ p.hashMaxC := by
  intro j hj
  refine ⟨(hashLoop_structure p hwf fuel fuel p.hashMin ((p.hashMin + u32 - 1) % u32)
    { batchSize := 0, batchName := 1, jobName := 1 }).2.1 j hj, ?_⟩
  revert j
  apply hashLoop_forall p fuel (fun j => j.hashBeg ≤ j.hashEnd ∧ j.hashEnd ≤ p.hashMaxC)
  intro hashBeg hashEnd hs refBeg refEnd c s hlt ha hscan hle _ _
  simp only [outputJob_fst]
  exact ⟨(hashLoop_first_pos p hwf fuel hashBeg hashEnd hs hlt ha hscan).1, hle⟩

theorem job_ref_bounds (p : Params) (fuel : Nat) :
    ∀ j ∈ (partitionLength p fuel).1,
      j.refBeg < p.refMaxC ∧ j.refEnd ≤ p.refMaxC ∧
      (p.capAtHash = true → j.refBeg < j.hashEnd ∧ j.refEnd ≤ j.hashEnd) := by
  apply hashLoop_forall p fuel (fun j => j.refBeg < p.refMaxC ∧ j.refEnd ≤ p.refMaxC ∧
    (p.capAtHash = true → j.refBeg < j.hashEnd ∧ j.refEnd ≤ j.hashEnd))
  intro hashBeg hashEnd hs refBeg refEnd c s _ _ _ _ hc _
  simp only [outputJob_fst]
  refine ⟨hc.1, clampRef_le_refMaxC p hs.pos s.pos, ?_⟩
  intro hcap
  refine ⟨?_, clampRef_le_hashEnd p hs.pos s.pos hcap⟩
  rcases hc.2 with h | h
  · exact h
  · rw [capAtHash_eq_not_sameSets, h] at hcap
    simp at hcap

/-! ## The hash side of a job -/

/-- The hash counts of every job are the number and the size of the included
reads of its hash range, and every shorter range from the same start is below
the block length. -/
theorem job_hash_sums (p : Params) (fuel : Nat) (hwf : p.numReads + 1 < u32)
    (hrl : ∀ l ∈ p.readLen, l + 1 < u32) :
    ∀ j ∈ (partitionLength p fuel).1,
      j.numHashBases = sizeFrom p.readLen p.minOverlapLength j.hashBeg
        (j.hashEnd + 1 - j.hashBeg) ∧
      j.numHashReads = countFrom p.readLen p.minOverlapLength j.hashBeg
        (j.hashEnd + 1 - j.hashBeg) ∧
      ∀ e, j.hashBeg ≤ e → e < j.hashEnd →
        sizeFrom p.readLen p.minOverlapLength j.hashBeg (e + 1 - j.hashBeg) <
          p.ovlHashBlockLength := by
  apply hashLoop_forall p fuel (fun j =>
    j.numHashBases = sizeFrom p.readLen p.minOverlapLength j.hashBeg
      (j.hashEnd + 1 - j.hashBeg) ∧
    j.numHashReads = countFrom p.readLen p.minOverlapLength j.hashBeg
      (j.hashEnd + 1 - j.hashBeg) ∧
    ∀ e, j.hashBeg ≤ e → e < j.hashEnd →
      sizeFrom p.readLen p.minOverlapLength j.hashBeg (e + 1 - j.hashBeg) <
        p.ovlHashBlockLength)
  intro hashBeg hashEnd hs refBeg refEnd c s hlt ha hscan hle _ _
  simp only [outputJob_fst]
  have hM := hashMaxC_le_numReads p
  have hb : (hashEnd + 1) % u32 = hashBeg := by
    rw [ha]; unfold u32 at *; omega
  have := hashScan_sum p.readLen p.minOverlapLength p.ovlHashBlockLength p.hashMaxC hashBeg
    hrl (by omega) fuel _ hs hscan (by simp only [hb]; exact le_rfl)
    (by simp only [hb]; omega) (by simp [hb, sizeFrom]) (by simp [hb, sizeFrom])
    (by simp [hb, countFrom])
  obtain ⟨_, r2, r3, r4⟩ := this
  simp only [hb] at r4
  exact ⟨r2, r3, r4⟩

theorem job_opt (p : Params) (fuel : Nat) :
    ∀ j ∈ (partitionLength p fuel).1,
      j.opt = optLine j.hashBeg j.hashEnd j.numHashReads j.numHashBases j.refBeg j.refEnd := by
  apply hashLoop_forall p fuel (fun j =>
    j.opt = optLine j.hashBeg j.hashEnd j.numHashReads j.numHashBases j.refBeg j.refEnd)
  intro hashBeg hashEnd hs refBeg refEnd c s _ _ _ _ _ _
  simp only [outputJob_fst]

theorem optLine_tail (hb he hr hbs rb re : Nat) (h : hr ≠ 0) :
    (" --hashstrings " ++ toString hr ++ " --hashdatalen " ++ toString hbs ++ "\n").data <:+
      (optLine hb he hr hbs rb re).data := by
  simp only [optLine, h, if_false]
  exact ⟨("-h " ++ toString hb ++ "-" ++ toString he ++ " -r " ++ toString rb ++ "-"
    ++ toString re).data, by simp only [String.data_append, List.append_assoc]⟩

/-! ## The number of jobs of `unitScenario` -/

theorem uniformReads_getElem (n len i : Nat) (h1 : 1 ≤ i) (h2 : i ≤ n) :
    (uniformReads n len)[i]? = some len := by
  obtain ⟨k, rfl⟩ : ∃ k, i = k + 1 := ⟨i - 1, by omega⟩
  unfold uniformReads
  rw [List.getElem?_cons_succ, List.getElem?_replicate]
  simp only [ite_eq_left_iff, not_lt, reduceCtorEq, imp_false, not_le]
  omega

theorem unitScenario_sameSets (n : Nat) : (unitScenario n).sameSets = true := by
  simp [unitScenario, uniformParams, Params.sameSets]

theorem unitScenario_refMaxC (n : Nat) : (unitScenario n).refMaxC = n := by
  simp [unitScenario, uniformParams, Params.refMaxC]

theorem unitScenario_hashMaxC (n : Nat) : (unitScenario n).hashMaxC = n := by
  simp [unitScenario, uniformParams, Params.hashMaxC]

theorem unitScenario_refScan (n F e : Nat) (hn : n + 1 < u32) (he : e < n) :
    refScan (unitScenario n).readLen (unitScenario n).minOverlapLength
      (unitScenario n).ovlRefBlockLength (unitScenario n).refMaxC (F + 1)
      { pos := e, len := 0, reads := 0, bases := 0 } =
        .ok { pos := e + 1, len := 1, reads := 1, bases := 2 } := by
  have hmod : (e + 1) % u32 = e + 1 := by unfold u32 at *; omega
  have hget : (unitScenario n).readLen[e + 1]? = some 1 :=
    uniformReads_getElem n 1 (e + 1) (by omega) (by omega)
  simp only [refScan, hmod, hget]
  simp [unitScenario, uniformParams, refAcc, u32, u64]

theorem unitScenario_hashScan (n F e : Nat) (hn : n + 1 < u32) (he : e < n) :
    hashScan (unitScenario n).readLen (unitScenario n).minOverlapLength
      (unitScenario n).ovlHashBlockLength (unitScenario n).hashMaxC (F + 1)
      { pos := e, len := 0, reads := 0, bases := 0 } =
        .ok { pos := e + 1, len := 2, reads := 1, bases := 2 } := by
  have hmod : (e + 1) % u32 = e + 1 := by unfold u32 at *; omega
  have hget : (unitScenario n).readLen[e + 1]? = some 1 :=
    uniformReads_getElem n 1 (e + 1) (by omega) (by omega)
  simp only [hashScan, hmod, hget]
  simp [unitScenario, uniformParams, hashAcc, u32, u64]

/-- In `unitScenario` the inner loop entered at `refBeg = rb` emits one job for
each of the reads `rb .. n - 1`. -/
theorem unitScenario_refLoop (n F : Nat) (hn : n + 1 < u32) (hb he hr hbs : Nat) :
    ∀ d rb c fuel, rb + d = n → 1 ≤ rb → d < fuel →
      (refLoop (unitScenario n) (F + 1) hb he hr hbs fuel rb (rb - 1) c).1.length = d ∧
      ∃ c1, (refLoop (unitScenario n) (F + 1) hb he hr hbs fuel rb (rb - 1) c).2 = .ok c1 := by
  intro d
  induction d with
  | zero =>
    intro rb c fuel h1 _ h3
    obtain ⟨f, rfl⟩ : ∃ f, fuel = f + 1 := ⟨fuel - 1, by omega⟩
    have hc : ¬ refCond (unitScenario n) he rb := by
      unfold refCond; rw [unitScenario_refMaxC]; omega
    simp only [refLoop, hc, if_false]
    exact ⟨rfl, c, rfl⟩
  | succ d ih =>
    intro rb c fuel h1 h2 h3
    obtain ⟨f, rfl⟩ : ∃ f, fuel = f + 1 := ⟨fuel - 1, by omega⟩
    have hc : refCond (unitScenario n) he rb := by
      unfold refCond; rw [unitScenario_refMaxC]
      exact ⟨by omega, Or.inr (unitScenario_sameSets n)⟩
    have hscan := unitScenario_refScan n F (rb - 1) hn (by omega)
    rw [show rb - 1 + 1 = rb by omega] at hscan
    have hcap : (unitScenario n).capAtHash = false := by
      rw [capAtHash_eq_not_sameSets, unitScenario_sameSets]; rfl
    have hclamp : clampRef (unitScenario n) he rb = rb :=
      clampRef_eq_pos _ _ _ (by rw [unitScenario_refMaxC]; omega) hcap
    have hmod : (rb + 1) % u32 = rb + 1 := by unfold u32 at *; omega
    simp only [refLoop, hc, if_true, hscan, hclamp, hmod, List.length_cons]
    have := ih (rb + 1) (outputJob hb he hr hbs rb rb 1 2 c).2 f (by omega) (by omega) (by omega)
    rw [show rb + 1 - 1 = rb by omega] at this
    exact ⟨by rw [this.1], this.2⟩

/-- In `unitScenario` the outer loop entered at `hashBeg` emits `n - 1` jobs for
each of the reads `hashBeg .. n - 1`. -/
theorem unitScenario_hashLoop (n F : Nat) (hn : n + 1 < u32) (hF : n ≤ F + 1) :
    ∀ d hashBeg c fuel, hashBeg + d = n → 1 ≤ hashBeg → d < fuel →
      (hashLoop (unitScenario n) (F + 1) fuel hashBeg (hashBeg - 1) c).1.length =
        d * (n - 1) := by
  intro d
  induction d with
  | zero =>
    intro hashBeg c fuel h1 _ h3
    obtain ⟨f, rfl⟩ : ∃ f, fuel = f + 1 := ⟨fuel - 1, by omega⟩
    have hc : ¬ hashBeg < (unitScenario n).hashMaxC := by
      rw [unitScenario_hashMaxC]; omega
    simp only [hashLoop, hc, if_false, List.length_nil, Nat.zero_mul]
  | succ d ih =>
    intro hashBeg c fuel h1 h2 h3
    obtain ⟨f, rfl⟩ : ∃ f, fuel = f + 1 := ⟨fuel - 1, by omega⟩
    have hc : hashBeg < (unitScenario n).hashMaxC := by
      rw [unitScenario_hashMaxC]; omega
    have ha : hashBeg - 1 = (hashBeg + u32 - 1) % u32 := by unfold u32 at *; omega
    have hscan := unitScenario_hashScan n F (hashBeg - 1) hn (by omega)
    rw [show hashBeg - 1 + 1 = hashBeg by omega] at hscan
    have hle : hashBeg ≤ (unitScenario n).hashMaxC := by omega
    have hmod : (hashBeg + 1) % u32 = hashBeg + 1 := by unfold u32 at *; omega
    have hmin : (unitScenario n).refMin = 1 := rfl
    obtain ⟨hin1, c1, hin2⟩ := unitScenario_refLoop n F hn hashBeg hashBeg 1 2 (n - 1) 1 c
      (F + 1) (by omega) (by omega) (by omega)
    simp only [Nat.sub_self] at hin1 hin2
    have hrest := ih (hashBeg + 1) c1 f (by omega) (by omega) (by omega)
    rw [show hashBeg + 1 - 1 = hashBeg by omega] at hrest
    simp only [hashLoop, hc, if_true, ne_eq, ← ha, not_true_eq_false, if_false, hscan, hle,
      hmin, hin2, hmod, List.length_append, hin1, hrest]
    rw [Nat.succ_mul]
    omega

/-- The run of `unitScenario n` emits `(n - 1) * (n - 1)` jobs. -/
theorem unitScenario_length (n : Nat) (hn : n + 1 < u32) (h1 : 1 ≤ n) :
    (partitionLength (unitScenario n) (n + 1)).1.length = (n - 1) * (n - 1) := by
  have ha : (1 + u32 - 1) % u32 = 1 - 1 := by unfold u32; rfl
  have hmin : (unitScenario n).hashMin = 1 := rfl
  unfold partitionLength
  rw [hmin, ha]
  exact unitScenario_hashLoop n n hn (by omega) (n - 1) 1 _ (n + 1) (by omega) (by omega)
    (by omega)

/-- The job at a position below the number of jobs of `unitScenario n`. -/
theorem unitScenario_getElem (n i : Nat) (hn : n + 1 < u32) (h1 : 1 ≤ n)
    (hi : i < (n - 1) * (n - 1)) :
    ∃ j, (partitionLength (unitScenario n) (n + 1)).1[i]? = some j := by
  have hlt : i < (partitionLength (unitScenario n) (n + 1)).1.length := by
    rw [unitScenario_length n hn h1]; exact hi
  exact ⟨_, List.getElem?_eq_getElem hlt⟩

/-! ## Counts and sizes as sums over ID ranges -/

theorem includedReads_Ico_succ (rl : List Nat) (mo a n : Nat) :
    includedReads rl mo (Finset.Ico a (a + (n + 1))) =
      if rl.getD (a + n) 0 < mo then includedReads rl mo (Finset.Ico a (a + n))
      else insert (a + n) (includedReads rl mo (Finset.Ico a (a + n))) := by
  unfold includedReads
  have h : Finset.Ico a (a + (n + 1)) = insert (a + n) (Finset.Ico a (a + n)) := by
    ext x
    simp only [Finset.mem_Ico, Finset.mem_insert]
    omega
  rw [h, Finset.filter_insert]
  split_ifs with h1 h2 h2
  · omega
  · rfl
  · rfl
  · omega

theorem not_mem_includedReads_Ico (rl : List Nat) (mo a n : Nat) :
    a + n ∉ includedReads rl mo (Finset.Ico a (a + n)) := by
  unfold includedReads
  simp

theorem countFrom_eq_readCount (rl : List Nat) (mo a : Nat) :
    ∀ n, countFrom rl mo a n = readCount rl mo (Finset.Ico a (a + n)) := by
  intro n
  induction n with
  | zero => simp [countFrom, readCount, includedReads]
  | succ n ih =>
    unfold readCount at *
    rw [countFrom, ih, includedReads_Ico_succ]
    split
    · rfl
    · rw [Finset.card_insert_of_not_mem (not_mem_includedReads_Ico rl mo a n)]

theorem sizeFrom_eq_readBytes (rl : List Nat) (mo a : Nat) :
    ∀ n, sizeFrom rl mo a n = readBytes rl mo (Finset.Ico a (a + n)) := by
  intro n
  induction n with
  | zero => simp [sizeFrom, readBytes, includedReads]
  | succ n ih =>
    unfold readBytes at *
    rw [sizeFrom, ih, includedReads_Ico_succ]
    split
    · rfl
    · rw [Finset.sum_insert (not_mem_includedReads_Ico rl mo a n)]
      omega

theorem Ico_eq_Icc (a b : Nat) (h : a ≤ b) :
    Finset.Ico a (a + (b + 1 - a)) = Finset.Icc a b := by
  ext x
  simp only [Finset.mem_Ico, Finset.mem_Icc]
  omega

/-! ## Where the scans stop -/

theorem hashScan_stop (rl : List Nat) (mo bl mx : Nat) :
    ∀ fuel s0 s, hashScan rl mo bl mx fuel s0 = .ok s → ¬ (s.len < bl ∧ s.pos < mx) := by
  intro fuel
  induction fuel with
  | zero => intro s0 s h; simp [hashScan] at h
  | succ n ih =>
    intro s0 s h
    simp only [hashScan] at h
    split at h
    · simp at h
    · split at h
      · exact ih _ _ h
      · rename_i hc
        simp only [Except.ok.injEq] at h
        subst h
        exact hc

theorem refScan_stop (rl : List Nat) (mo bl mx : Nat) :
    ∀ fuel s0 s, refScan rl mo bl mx fuel s0 = .ok s → ¬ (s.len < bl ∧ s.pos < mx) := by
  intro fuel
  induction fuel with
  | zero => intro s0 s h; simp [refScan] at h
  | succ n ih =>
    intro s0 s h
    simp only [refScan] at h
    split at h
    · simp at h
    · split at h
      · exact ih _ _ h
      · rename_i hc
        simp only [Except.ok.injEq] at h
        subst h
        exact hc

/-- A hash range that ends below `hashMax` has reached the block length. -/
theorem job_hash_stop (p : Params) (fuel : Nat) (hwf : p.numReads + 1 < u32)
    (hrl : ∀ l ∈ p.readLen, l + 1 < u32) :
    ∀ j ∈ (partitionLength p fuel).1,
      j.hashEnd < p.hashMaxC → p.ovlHashBlockLength ≤ j.numHashBases := by
  apply hashLoop_forall p fuel (fun j =>
    j.hashEnd < p.hashMaxC → p.ovlHashBlockLength ≤ j.numHashBases)
  intro hashBeg hashEnd hs refBeg refEnd c s hlt ha hscan hle _ _
  simp only [outputJob_fst]
  intro hend
  have hM := hashMaxC_le_numReads p
  have hb : (hashEnd + 1) % u32 = hashBeg := by
    rw [ha]; unfold u32 at *; omega
  obtain ⟨r1, r2, _, _⟩ := hashScan_sum p.readLen p.minOverlapLength p.ovlHashBlockLength
    p.hashMaxC hashBeg hrl (by omega) fuel _ hs hscan (by simp only [hb]; exact le_rfl)
    (by simp only [hb]; omega) (by simp [hb, sizeFrom]) (by simp [hb, sizeFrom])
    (by simp [hb, countFrom])
  have hstop := hashScan_stop _ _ _ _ _ _ _ hscan
  rw [r2, ← r1]
  by_contra hcon
  exact hstop ⟨by omega, hend⟩

/-- The hash counts of a job as a count and a sum over its hash ID range. -/
theorem job_hash_counts (p : Params) (fuel : Nat) (hwf : p.numReads + 1 < u32)
    (hrl : ∀ l ∈ p.readLen, l + 1 < u32) :
    ∀ j ∈ (partitionLength p fuel).1,
      j.numHashReads = readCount p.readLen p.minOverlapLength
        (Finset.Icc j.hashBeg j.hashEnd) ∧
      j.numHashBases = readBytes p.readLen p.minOverlapLength
        (Finset.Icc j.hashBeg j.hashEnd) := by
  intro j hj
  obtain ⟨h1, h2, _⟩ := job_hash_sums p fuel hwf hrl j hj
  obtain ⟨_, hle, _⟩ := job_hash_bounds p fuel hwf j hj
  rw [h1, h2, countFrom_eq_readCount, sizeFrom_eq_readBytes, Ico_eq_Icc _ _ hle]
  exact ⟨rfl, rfl⟩

/-- The greedy stopping rule of the hash scan, for a positive block length:
the bytes of the reads before the last one of the range are below the block
length, and when the range reaches the block length its last read is an
included read. -/
theorem job_hash_greedy (p : Params) (fuel : Nat) (hwf : p.numReads + 1 < u32)
    (hrl : ∀ l ∈ p.readLen, l + 1 < u32) (hH : 0 < p.ovlHashBlockLength) :
    ∀ j ∈ (partitionLength p fuel).1,
      readBytes p.readLen p.minOverlapLength (Finset.Ico j.hashBeg j.hashEnd) <
        p.ovlHashBlockLength ∧
      (p.ovlHashBlockLength ≤ j.numHashBases →
        p.minOverlapLength ≤ p.readLen.getD j.hashEnd 0) := by
  intro j hj
  obtain ⟨h1, _, h3⟩ := job_hash_sums p fuel hwf hrl j hj
  obtain ⟨_, hle, _⟩ := job_hash_bounds p fuel hwf j hj
  obtain ⟨d, hd⟩ : ∃ d, j.hashEnd = j.hashBeg + d := ⟨j.hashEnd - j.hashBeg, by omega⟩
  have hpre : sizeFrom p.readLen p.minOverlapLength j.hashBeg d < p.ovlHashBlockLength := by
    cases d with
    | zero => simpa [sizeFrom] using hH
    | succ k =>
      have := h3 (j.hashBeg + k) (by omega) (by omega)
      rwa [show j.hashBeg + k + 1 - j.hashBeg = k + 1 by omega] at this
  constructor
  · rw [hd, ← sizeFrom_eq_readBytes]
    exact hpre
  · intro hge
    rw [h1, show j.hashEnd + 1 - j.hashBeg = d + 1 by omega] at hge
    simp only [sizeFrom] at hge
    rw [← hd] at hge
    by_contra hcon
    rw [if_pos (by omega)] at hge
    omega

/-! ## The reference scan behind a job -/

/-- Every job comes from a reference scan: the scan started at read 1 for a job
that begins at `refMin` right after a hash range was opened, and at the job's
`refBeg` otherwise; the job reports the clamped end of that scan and its
counts. -/
theorem job_ref_scan (p : Params) (fuel : Nat) (hwf : p.numReads + 1 < u32) :
    ∀ j ∈ (partitionLength p fuel).1, ∃ re s,
      ((re = 0 ∧ j.refBeg = p.refMin) ∨ j.refBeg = re + 1) ∧
      refCond p j.hashEnd j.refBeg ∧
      refScan p.readLen p.minOverlapLength p.ovlRefBlockLength p.refMaxC fuel
        { pos := re, len := 0, reads := 0, bases := 0 } = .ok s ∧
      j.refEnd = clampRef p j.hashEnd s.pos ∧ j.numRefReads = s.reads ∧
      j.numRefBases = s.bases := by
  apply hashLoop_forall_inner p fuel
  intro hashBeg hashEnd hs1 c _ _ _ _ j hj
  obtain ⟨re, s, hlink, hc, hscan, hend, hr, hb⟩ :=
    refLoop_scanned p hwf fuel hashBeg hs1.pos hs1.reads hs1.bases fuel p.refMin 0 c j hj
  have hf := (refLoop_fields p fuel hashBeg hs1.pos hs1.reads hs1.bases fuel p.refMin 0 c
    j hj).2.1
  rw [hf]
  exact ⟨re, s, hlink, hc, hscan, hend, hr, hb⟩

/-- The position where the reference scan of a job stopped. -/
theorem job_ref_scan_pos (p : Params) (re rb he : Nat) (s : Scan) (F : Nat)
    (hwf : p.numReads + 1 < u32)
    (hlink : (re = 0 ∧ rb = p.refMin) ∨ rb = re + 1) (hc : refCond p he rb)
    (hscan : refScan p.readLen p.minOverlapLength p.ovlRefBlockLength p.refMaxC F
      { pos := re, len := 0, reads := 0, bases := 0 } = .ok s) :
    (re + 1) % u32 = re + 1 ∧ re + 1 ≤ s.pos ∧ s.pos ≤ p.refMaxC := by
  have hM := refMaxC_le_numReads p
  have hlt := hc.1
  have hmod : (re + 1) % u32 = re + 1 := by
    rcases hlink with ⟨h, _⟩ | h
    · rw [h]; rfl
    · unfold u32 at *; omega
  have hpos := refScan_pos p.readLen p.minOverlapLength p.ovlRefBlockLength p.refMaxC
    (by omega) F _ s hscan
  simp only [hmod] at hpos
  refine ⟨hmod, hpos.1, ?_⟩
  rcases hlink with ⟨h, _⟩ | h
  · rcases hpos.2 with h2 | h2
    · omega
    · exact h2
  · rcases hpos.2 with h2 | h2
    · omega
    · exact h2

/-! ## What the reference scan accumulates -/

theorem lenFrom_le (rl : List Nat) (mo a : Nat) (hrl : ∀ l ∈ rl, l + 1 < u32) :
    ∀ n, lenFrom rl mo a n ≤ n * (u32 - 1) := by
  intro n
  induction n with
  | zero => simp [lenFrom]
  | succ n ih =>
    simp only [lenFrom]
    have hterm : rl.getD (a + n) 0 ≤ u32 - 1 := by
      by_cases hi : a + n < rl.length
      · have := hrl (rl[a + n]) (List.getElem_mem _)
        rw [List.getD_eq_getElem _ _ hi]
        omega
      · rw [List.getD_eq_default _ _ (by omega)]
        unfold u32; omega
    split
    · rw [Nat.add_mul]; omega
    · rw [Nat.add_mul]; omega

theorem sizeFrom_eq_lenFrom_add (rl : List Nat) (mo a : Nat) :
    ∀ n, sizeFrom rl mo a n = lenFrom rl mo a n + countFrom rl mo a n := by
  intro n
  induction n with
  | zero => simp [sizeFrom, lenFrom, countFrom]
  | succ n ih =>
    simp only [sizeFrom, lenFrom, countFrom, ih]
    split <;> omega

theorem lenFrom_eq_readBases (rl : List Nat) (mo a : Nat) :
    ∀ n, lenFrom rl mo a n = readBases rl mo (Finset.Ico a (a + n)) := by
  intro n
  induction n with
  | zero => simp [lenFrom, readBases, includedReads]
  | succ n ih =>
    unfold readBases at *
    rw [lenFrom, ih, includedReads_Ico_succ]
    split
    · rfl
    · rw [Finset.sum_insert (not_mem_includedReads_Ico rl mo a n)]
      omega

/-- The accumulators of a reference scan that started at read `a`: when the
scan stops at `s.pos`, `refLen` holds the bases, `refBases` the size and
`refReads` the number of the included reads `a .. s.pos`, and the bases of
every shorter range `a .. e` are below the block length. -/
theorem refScan_sum (rl : List Nat) (mo bl mx a : Nat) (hrl : ∀ l ∈ rl, l + 1 < u32)
    (hmx : mx + 1 < u32) :
    ∀ fuel s0 s, refScan rl mo bl mx fuel s0 = .ok s →
      a ≤ (s0.pos + 1) % u32 → (s0.pos + 1) % u32 ≤ mx →
      s0.len = lenFrom rl mo a ((s0.pos + 1) % u32 - a) →
      s0.bases = sizeFrom rl mo a ((s0.pos + 1) % u32 - a) →
      s0.reads = countFrom rl mo a ((s0.pos + 1) % u32 - a) →
      s.len = lenFrom rl mo a (s.pos + 1 - a) ∧
      s.bases = sizeFrom rl mo a (s.pos + 1 - a) ∧
      s.reads = countFrom rl mo a (s.pos + 1 - a) ∧
      ∀ e, (s0.pos + 1) % u32 ≤ e → e < s.pos → lenFrom rl mo a (e + 1 - a) < bl := by
  intro fuel
  induction fuel with
  | zero => intro s0 s h; simp [refScan] at h
  | succ n ih =>
    intro s0 s h ha hbmx hlen hbases hreads
    simp only [refScan] at h
    generalize hb : (s0.pos + 1) % u32 = b at *
    split at h
    · simp at h
    · rename_i l hl
      have hget : rl.getD b 0 = l := by
        rw [List.getD_eq_getElem?_getD, hl]; rfl
      have hlmem : l ∈ rl := List.getElem?_mem hl
      have hl32 := hrl l hlmem
      have hsz := sizeFrom_le rl mo a hrl (b - a)
      have hln := lenFrom_le rl mo a hrl (b - a)
      have hct := countFrom_le rl mo a (b - a)
      have hstep : b + 1 - a = (b - a) + 1 := by omega
      have hab : a + (b - a) = b := by omega
      have hbound : (b - a) * (u32 - 1) + u32 ≤ u64 := by
        have : (b - a) * (u32 - 1) ≤ (u32 - 1) * (u32 - 1) :=
          Nat.mul_le_mul_right _ (by omega)
        have h2 : (u32 - 1) * (u32 - 1) + u32 ≤ u64 := by unfold u32 u64; norm_num
        omega
      have hacc : (refAcc mo s0 b l).pos = b ∧
          (refAcc mo s0 b l).len = lenFrom rl mo a (b + 1 - a) ∧
          (refAcc mo s0 b l).bases = sizeFrom rl mo a (b + 1 - a) ∧
          (refAcc mo s0 b l).reads = countFrom rl mo a (b + 1 - a) := by
        rw [hstep]
        simp only [sizeFrom, lenFrom, countFrom, hab, hget]
        unfold refAcc
        by_cases hlt : l < mo
        · simp only [hlt, if_true, Nat.add_zero]
          exact ⟨trivial, hlen, hbases, hreads⟩
        · simp only [hlt, if_false]
          have e1 : (l + 1) % u32 = l + 1 := Nat.mod_eq_of_lt hl32
          rw [e1, hlen, hbases, hreads]
          refine ⟨trivial, ?_, ?_, ?_⟩
          · exact Nat.mod_eq_of_lt (by omega)
          · exact Nat.mod_eq_of_lt (by omega)
          · exact Nat.mod_eq_of_lt (by omega)
      obtain ⟨hp, hl1, hb1, hr1⟩ := hacc
      split at h
      · rename_i hc
        rw [hp] at hc
        have hnext : ((refAcc mo s0 b l).pos + 1) % u32 = b + 1 := by
          rw [hp]; exact Nat.mod_eq_of_lt (by omega)
        have := ih _ s h (by rw [hnext]; omega) (by rw [hnext]; omega)
          (by rw [hnext]; exact hl1) (by rw [hnext]; exact hb1) (by rw [hnext]; exact hr1)
        obtain ⟨r1, r2, r3, r4⟩ := this
        refine ⟨r1, r2, r3, ?_⟩
        intro e he1 he2
        by_cases heb : e = b
        · subst heb
          rw [← hl1]; exact hc.1
        · exact r4 e (by rw [hnext]; omega) he2
      · simp only [Except.ok.injEq] at h
        subst h
        rw [hp]
        refine ⟨hl1, hb1, hr1, ?_⟩
        intro e he1 he2
        omega

/-- The reference side of a job, in terms of the ID range `a .. e` its scan
went through. -/
theorem job_ref_sums (p : Params) (fuel : Nat) (hwf : p.numReads + 1 < u32)
    (hrl : ∀ l ∈ p.readLen, l + 1 < u32) :
    ∀ j ∈ (partitionLength p fuel).1, ∃ a e,
      ((a = 1 ∧ j.refBeg = p.refMin) ∨ a = j.refBeg) ∧ a ≤ e ∧ e ≤ p.refMaxC ∧
      j.refEnd = clampRef p j.hashEnd e ∧
      j.numRefReads = countFrom p.readLen p.minOverlapLength a (e + 1 - a) ∧
      j.numRefBases = sizeFrom p.readLen p.minOverlapLength a (e + 1 - a) ∧
      (∀ e1, a ≤ e1 → e1 < e →
        lenFrom p.readLen p.minOverlapLength a (e1 + 1 - a) < p.ovlRefBlockLength) ∧
      (p.ovlRefBlockLength ≤ lenFrom p.readLen p.minOverlapLength a (e + 1 - a) ∨
        e = p.refMaxC) := by
  intro j hj
  obtain ⟨re, s, hlink, hc, hscan, hend, hr, hb⟩ := job_ref_scan p fuel hwf j hj
  obtain ⟨hmod, hp1, hp2⟩ := job_ref_scan_pos p re j.refBeg j.hashEnd s fuel hwf hlink hc hscan
  have hM := refMaxC_le_numReads p
  obtain ⟨r1, r2, r3, r4⟩ := refScan_sum p.readLen p.minOverlapLength p.ovlRefBlockLength
    p.refMaxC (re + 1) hrl (by omega) fuel _ s hscan (by simp only [hmod]; exact le_rfl)
    (by simp only [hmod]; omega) (by simp [hmod, lenFrom]) (by simp [hmod, sizeFrom])
    (by simp [hmod, countFrom])
  simp only [hmod] at r4
  have hstop := refScan_stop _ _ _ _ _ _ _ hscan
  refine ⟨re + 1, s.pos, ?_, hp1, hp2, hend, by rw [hr, r3], by rw [hb, r2], r4, ?_⟩
  · rcases hlink with ⟨h1, h2⟩ | h
    · exact Or.inl ⟨by rw [h1], h2⟩
    · exact Or.inr h.symm
  · rw [← r1]
    by_contra hcon
    exact hstop ⟨by omega, by omega⟩

/-! ## The loops of `loadReadLengths` -/

theorem fillRoles_spec (H R : Finset Nat) (numLibs : Nat) (hL : numLibs + 1 < u32) :
    ∀ (fuel i : Nat) (dh dr : List Bool), i ≤ numLibs + 1 → numLibs + 2 ≤ fuel + i →
      dh.length = numLibs + 1 → dr.length = numLibs + 1 →
      (∀ j, j < i → dh[j]? = some (decide (j ∈ H))) →
      (∀ j, j < i → dr[j]? = some (decide (j ∈ R))) →
      ∃ dh2 dr2, fillRoles H R numLibs fuel i (dh, dr) = .ok (dh2, dr2) ∧
        (∀ j, j ≤ numLibs → dh2[j]? = some (decide (j ∈ H))) ∧
        (∀ j, j ≤ numLibs → dr2[j]? = some (decide (j ∈ R))) := by
  have hL2 : numLibs + 1 < 4294967296 := hL
  intro fuel
  induction fuel with
  | zero => intro i dh dr hi hf; omega
  | succ n ih =>
    intro i dh dr hi hf hdh hdr h1 h2
    by_cases hc : i ≤ numLibs
    · have hm : (i + 1) % u32 = i + 1 := Nat.mod_eq_of_lt (by unfold u32; omega)
      have hb : i < dh.length ∧ i < dr.length := ⟨by omega, by omega⟩
      simp only [fillRoles, hc, if_true, hb, and_self, hm]
      apply ih (i + 1) _ _ (by omega) (by omega) (by simp [hdh]) (by simp [hdr])
      · intro j hj
        rw [List.getElem?_set]
        by_cases hji : i = j
        · subst hji
          simp [hb.1]
        · simp only [hji, if_false]
          exact h1 j (by omega)
      · intro j hj
        rw [List.getElem?_set]
        by_cases hji : i = j
        · subst hji
          simp [hb.2]
        · simp only [hji, if_false]
          exact h2 j (by omega)
    · simp only [fillRoles, hc, if_false]
      exact ⟨dh, dr, rfl, fun j hj => h1 j (by omega), fun j hj => h2 j (by omega)⟩

theorem roleTest_eq (test : Bool) (d : List Bool) (S : Finset Nat) (L lib : Nat)
    (hd : ∀ j, j ≤ L → d[j]? = some (decide (j ∈ S))) (hlib : lib ≤ L) :
    roleTest test d lib = .ok (test && decide (lib ∈ S)) := by
  unfold roleTest
  cases test
  · simp
  · simp [hd lib hlib]

theorem roleBounds_init (test : Bool) (inRole : Nat → Prop) (mn0 mx0 : Nat) :
    RoleBounds test inRole 1 mn0 mx0 (if test then u32 - 1 else mn0)
      (if test then 0 else mx0) := by
  refine ⟨?_, ?_, ?_⟩
  · intro h
    simp [h]
  · intro h _
    simp [h]
  · rintro _ ⟨i, h1, h2, _⟩
    omega

theorem roleBounds_step (test : Bool) (inRole : Nat → Prop) [DecidablePred inRole]
    (k mn0 mx0 mn mx : Nat) (hk : 1 ≤ k) (hku : k < u32 - 1)
    (h : RoleBounds test inRole k mn0 mx0 mn mx) :
    RoleBounds test inRole (k + 1) mn0 mx0
      (if (test && decide (inRole k)) then min mn k else mn)
      (if (test && decide (inRole k)) then max mx k else mx) := by
  have hku2 : k < 4294967296 - 1 := hku
  obtain ⟨h0, h1, h2⟩ := h
  cases test with
  | false =>
    refine ⟨fun _ => ?_, fun hh => ?_, fun hh => ?_⟩
    · simpa using h0 rfl
    · exact absurd hh (by decide)
    · exact absurd hh (by decide)
  | true =>
    have h1 := h1 rfl
    have h2 := h2 rfl
    refine ⟨fun hh => absurd hh (by decide), fun _ hnone => ?_, fun _ hsome => ?_⟩
    · have hk2 : ¬ inRole k := hnone k hk (by omega)
      have := h1 (fun i hi1 hi2 => hnone i hi1 (by omega))
      simpa [hk2] using this
    · by_cases hprev : ∃ i, 1 ≤ i ∧ i < k ∧ inRole i
      · obtain ⟨⟨a1, a2, a3, a4⟩, ⟨b1, b2, b3, b4⟩⟩ := h2 hprev
        by_cases hkr : inRole k
        · have e1 : min mn k = mn := Nat.min_eq_left (by omega)
          have e2 : max mx k = k := Nat.max_eq_right (by omega)
          have hd : (true && decide (inRole k)) = true := by simp [hkr]
          rw [if_pos hd, if_pos hd, e1, e2]
          refine ⟨⟨a1, by omega, a3, fun i hi1 hi2 hi3 => ?_⟩,
            ⟨hk, by omega, hkr, fun i _ hi2 _ => by omega⟩⟩
          by_cases hik : i < k
          · exact a4 i hi1 hik hi3
          · omega
        · have hd : ¬ (true && decide (inRole k)) = true := by simp [hkr]
          rw [if_neg hd, if_neg hd]
          refine ⟨⟨a1, by omega, a3, fun i hi1 hi2 hi3 => ?_⟩,
            ⟨b1, by omega, b3, fun i hi1 hi2 hi3 => ?_⟩⟩
          · by_cases hik : i < k
            · exact a4 i hi1 hik hi3
            · have : i = k := by omega
              exact absurd (this ▸ hi3) hkr
          · by_cases hik : i < k
            · exact b4 i hi1 hik hi3
            · have : i = k := by omega
              exact absurd (this ▸ hi3) hkr
      · have hnone : ∀ i, 1 ≤ i → i < k → ¬ inRole i := fun i hi1 hi2 hi3 =>
          hprev ⟨i, hi1, hi2, hi3⟩
        obtain ⟨em, ex⟩ := h1 hnone
        have hkr : inRole k := by
          obtain ⟨i, hi1, hi2, hi3⟩ := hsome
          by_cases hik : i < k
          · exact absurd hi3 (hnone i hi1 hik)
          · have : i = k := by omega
            exact this ▸ hi3
        have e1 : min mn k = k := Nat.min_eq_right (by rw [em]; unfold u32; omega)
        have e2 : max mx k = k := Nat.max_eq_right (by omega)
        have hd : (true && decide (inRole k)) = true := by simp [hkr]
        rw [if_pos hd, if_pos hd, e1, e2]
        have hall : ∀ i, 1 ≤ i → i < k + 1 → inRole i → i = k := by
          intro i hi1 hi2 hi3
          by_cases hik : i < k
          · exact absurd hi3 (hnone i hi1 hik)
          · omega
        exact ⟨⟨hk, by omega, hkr, fun i hi1 hi2 hi3 => (hall i hi1 hi2 hi3).ge⟩,
          ⟨hk, by omega, hkr, fun i hi1 hi2 hi3 => (hall i hi1 hi2 hi3).le⟩⟩

theorem loadLoop_ok (gkp : GkStore) (H R : Finset Nat) (testHash testRef : Bool)
    (doHash doRef : List Bool) (hmn0 hmx0 rmn0 rmx0 : Nat)
    (hN : gkp.numReads + 1 < u32)
    (hdh : ∀ j, j ≤ gkp.numLibraries → doHash[j]? = some (decide (j ∈ H)))
    (hdr : ∀ j, j ≤ gkp.numLibraries → doRef[j]? = some (decide (j ∈ R)))
    (hlib : ∀ ii, 1 ≤ ii → ii ≤ gkp.numReads →
      (gkp.getRead ii).libraryID ≤ gkp.numLibraries) :
    ∀ (fuel k : Nat) (st : Loaded), 1 ≤ k → k ≤ gkp.numReads + 1 →
      gkp.numReads + 2 ≤ fuel + k → st.readLen.length = gkp.numReads + 1 →
      (∀ ii, k ≤ ii → ii ≤ gkp.numReads → (gkp.getRead ii).readID = ii) →
      st.readLen[0]? = some 0 →
      (∀ i, 1 ≤ i → i < k → st.readLen[i]? = some (gkp.getRead i).sequenceLength) →
      RoleBounds testHash (fun i => (gkp.getRead i).libraryID ∈ H) k hmn0 hmx0
        st.hashMin st.hashMax →
      RoleBounds testRef (fun i => (gkp.getRead i).libraryID ∈ R) k rmn0 rmx0
        st.refMin st.refMax →
      ∃ r, loadLoop gkp testHash testRef doHash doRef fuel k st = ([], .ok r) ∧
        r.readLen.length = gkp.numReads + 1 ∧ r.readLen[0]? = some 0 ∧
        (∀ i, 1 ≤ i → i ≤ gkp.numReads →
          r.readLen[i]? = some (gkp.getRead i).sequenceLength) ∧
        RoleBounds testHash (fun i => (gkp.getRead i).libraryID ∈ H)
          (gkp.numReads + 1) hmn0 hmx0 r.hashMin r.hashMax ∧
        RoleBounds testRef (fun i => (gkp.getRead i).libraryID ∈ R)
          (gkp.numReads + 1) rmn0 rmx0 r.refMin r.refMax := by
  have hN2 : gkp.numReads + 1 < 4294967296 := hN
  intro fuel
  induction fuel with
  | zero => intro k st hk1 hk2 hf; omega
  | succ n ih =>
    intro k st hk1 hk2 hf hlen hid h0 hprev hbh hbr
    by_cases hc : k ≤ gkp.numReads
    · have hm : (k + 1) % u32 = k + 1 := Nat.mod_eq_of_lt (by unfold u32; omega)
      have hidk := hid k (le_refl k) hc
      have hnl : ¬ st.readLen.length ≤ k := by omega
      have t1 := roleTest_eq testHash doHash H gkp.numLibraries _ hdh (hlib k hk1 hc)
      have t2 := roleTest_eq testRef doRef R gkp.numLibraries _ hdr (hlib k hk1 hc)
      have hku : k < u32 - 1 := by unfold u32; omega
      unfold loadLoop
      rw [if_pos hc, if_neg (not_not.mpr hidk), if_neg hnl, t1, t2]
      simp only [hm]
      apply ih (k + 1) _ (by omega) (by omega) (by omega) (by simp [hlen])
        (fun ii hi1 hi2 => hid ii (by omega) hi2)
      · show (st.readLen.set k _)[0]? = some 0
        rw [List.getElem?_set]
        have : ¬ k = 0 := by omega
        simp only [this, if_false]
        exact h0
      · intro i hi1 hi2
        show (st.readLen.set k _)[i]? = _
        rw [List.getElem?_set]
        by_cases hki : k = i
        · subst hki
          have : k < st.readLen.length := by omega
          simp [this]
        · simp only [hki, if_false]
          exact hprev i hi1 (by omega)
      · exact roleBounds_step testHash _ k hmn0 hmx0 _ _ hk1 hku hbh
      · exact roleBounds_step testRef _ k rmn0 rmx0 _ _ hk1 hku hbr
    · have hkN : k = gkp.numReads + 1 := by omega
      unfold loadLoop
      rw [if_neg hc]
      refine ⟨st, rfl, hlen, h0, fun i hi1 hi2 => hprev i hi1 (by omega), ?_, ?_⟩
      · rw [← hkN]; exact hbh
      · rw [← hkN]; exact hbr

theorem loadLoop_abort (gkp : GkStore) (H R : Finset Nat) (testHash testRef : Bool)
    (doHash doRef : List Bool) (m : Nat)
    (hN : gkp.numReads + 1 < u32)
    (hdh : ∀ j, j ≤ gkp.numLibraries → doHash[j]? = some (decide (j ∈ H)))
    (hdr : ∀ j, j ≤ gkp.numLibraries → doRef[j]? = some (decide (j ∈ R)))
    (hlib : ∀ ii, 1 ≤ ii → ii ≤ gkp.numReads →
      (gkp.getRead ii).libraryID ≤ gkp.numLibraries)
    (hm : m ≤ gkp.numReads) (hbad : (gkp.getRead m).readID ≠ m) :
    ∀ (fuel k : Nat) (st : Loaded), 1 ≤ k → k ≤ m → m + 1 ≤ fuel + k →
      st.readLen.length = gkp.numReads + 1 →
      (∀ ii, k ≤ ii → ii < m → (gkp.getRead ii).readID = ii) →
      loadLoop gkp testHash testRef doHash doRef fuel k st =
        ([((gkp.getRead m).readID, m)], .error .assertFailed) := by
  have hN2 : gkp.numReads + 1 < 4294967296 := hN
  intro fuel
  induction fuel with
  | zero => intro k st hk1 hk2 hf; omega
  | succ n ih =>
    intro k st hk1 hk2 hf hlen hid
    have hc : k ≤ gkp.numReads := by omega
    by_cases hkm : k = m
    · subst hkm
      unfold loadLoop
      rw [if_pos hc, if_pos hbad]
    · have hmm : (k + 1) % u32 = k + 1 := Nat.mod_eq_of_lt (by unfold u32; omega)
      have hidk := hid k (le_refl k) (by omega)
      have hnl : ¬ st.readLen.length ≤ k := by omega
      have t1 := roleTest_eq testHash doHash H gkp.numLibraries _ hdh (hlib k hk1 hc)
      have t2 := roleTest_eq testRef doRef R gkp.numLibraries _ hdr (hlib k hk1 hc)
      unfold loadLoop
      rw [if_pos hc, if_neg (not_not.mpr hidk), if_neg hnl, t1, t2]
      simp only [hmm]
      exact ih (k + 1) _ (by omega) (by omega) (by omega) (by simp [hlen])
        (fun ii hi1 hi2 => hid ii (by omega) hi2)

theorem fillRoles_run (H R : Finset Nat) (numLibs fuel : Nat) (hL : numLibs + 1 < u32)
    (hf : numLibs + 2 ≤ fuel) :
    ∃ dh dr, fillRoles H R numLibs fuel 0
        (List.replicate ((numLibs + 1) % u32) false,
         List.replicate ((numLibs + 1) % u32) false) = .ok (dh, dr) ∧
      (∀ j, j ≤ numLibs → dh[j]? = some (decide (j ∈ H))) ∧
      (∀ j, j ≤ numLibs → dr[j]? = some (decide (j ∈ R))) := by
  have hm : (numLibs + 1) % u32 = numLibs + 1 := Nat.mod_eq_of_lt hL
  rw [hm]
  exact fillRoles_spec H R numLibs hL fuel 0 _ _ (by omega) (by omega) (by simp) (by simp)
    (fun j hj => by omega) (fun j hj => by omega)

/-- With dense read IDs `loadReadLengths` returns: no error line, the lengths
of all reads, and both pairs of bounds in the state `RoleBounds` describes. -/
theorem loadReadLengths_ok (gkp : GkStore) (H : Finset Nat) (hashMin hashMax : Nat)
    (R : Finset Nat) (refMin refMax fuel : Nat)
    (hN : gkp.numReads + 1 < u32) (hL : gkp.numLibraries + 1 < u32)
    (hlib : ∀ ii, 1 ≤ ii → ii ≤ gkp.numReads →
      (gkp.getRead ii).libraryID ≤ gkp.numLibraries)
    (hf1 : gkp.numLibraries + 2 ≤ fuel) (hf2 : gkp.numReads + 1 ≤ fuel)
    (hid : ∀ ii, 1 ≤ ii → ii ≤ gkp.numReads → (gkp.getRead ii).readID = ii) :
    ∃ r, loadReadLengths gkp H hashMin hashMax R refMin refMax fuel = ([], .ok r) ∧
      r.readLen.length = gkp.numReads + 1 ∧ r.readLen[0]? = some 0 ∧
      (∀ i, 1 ≤ i → i ≤ gkp.numReads →
        r.readLen[i]? = some (gkp.getRead i).sequenceLength) ∧
      RoleBounds (decide (H.card > 0)) (fun i => (gkp.getRead i).libraryID ∈ H)
        (gkp.numReads + 1) hashMin hashMax r.hashMin r.hashMax ∧
      RoleBounds (decide (R.card > 0)) (fun i => (gkp.getRead i).libraryID ∈ R)
        (gkp.numReads + 1) refMin refMax r.refMin r.refMax := by
  obtain ⟨dh, dr, e, hdh, hdr⟩ := fillRoles_run H R gkp.numLibraries fuel hL hf1
  have hm : (gkp.numReads + 1) % u32 = gkp.numReads + 1 := Nat.mod_eq_of_lt hN
  unfold loadReadLengths
  simp only [e, hm]
  exact loadLoop_ok gkp H R _ _ dh dr hashMin hashMax refMin refMax hN hdh hdr hlib fuel 1 _
    (le_refl 1) (by omega) (by omega) (by simp) (fun ii hi1 hi2 => hid ii hi1 hi2)
    (by simp) (fun i hi1 hi2 => by omega)
    (roleBounds_init _ _ _ _) (roleBounds_init _ _ _ _)

/-- At the first read whose ID differs from its index `loadReadLengths` writes
the error line and stops on the assertion. -/
theorem loadReadLengths_abort (gkp : GkStore) (H : Finset Nat) (hashMin hashMax : Nat)
    (R : Finset Nat) (refMin refMax fuel m : Nat)
    (hN : gkp.numReads + 1 < u32) (hL : gkp.numLibraries + 1 < u32)
    (hlib : ∀ ii, 1 ≤ ii → ii ≤ gkp.numReads →
      (gkp.getRead ii).libraryID ≤ gkp.numLibraries)
    (hf1 : gkp.numLibraries + 2 ≤ fuel) (hf2 : gkp.numReads + 1 ≤ fuel)
    (hm1 : 1 ≤ m) (hm2 : m ≤ gkp.numReads) (hbad : (gkp.getRead m).readID ≠ m)
    (hid : ∀ ii, 1 ≤ ii → ii < m → (gkp.getRead ii).readID = ii) :
    loadReadLengths gkp H hashMin hashMax R refMin refMax fuel =
      ([((gkp.getRead m).readID, m)], .error .assertFailed) := by
  obtain ⟨dh, dr, e, hdh, hdr⟩ := fillRoles_run H R gkp.numLibraries fuel hL hf1
  have hm : (gkp.numReads + 1) % u32 = gkp.numReads + 1 := Nat.mod_eq_of_lt hN
  unfold loadReadLengths
  simp only [e, hm]
  exact loadLoop_abort gkp H R _ _ dh dr m hN hdh hdr hlib hm2 hbad fuel 1 _
    (le_refl 1) hm1 (by omega) (by simp) (fun ii hi1 hi2 => hid ii hi1 hi2)

theorem roleBounds_extremes (test : Bool) (inRole : Nat → Prop) (N mn0 mx0 mn mx : Nat)
    (h : RoleBounds test inRole (N + 1) mn0 mx0 mn mx) (ht : test = true)
    (hex : ∃ ii, 1 ≤ ii ∧ ii ≤ N ∧ inRole ii) :
    IsLeast {ii | 1 ≤ ii ∧ ii ≤ N ∧ inRole ii} mn ∧
    IsGreatest {ii | 1 ≤ ii ∧ ii ≤ N ∧ inRole ii} mx := by
  obtain ⟨i, hi1, hi2, hi3⟩ := hex
  obtain ⟨⟨a1, a2, a3, a4⟩, ⟨b1, b2, b3, b4⟩⟩ := h.2.2 ht ⟨i, hi1, by omega, hi3⟩
  refine ⟨⟨⟨a1, by omega, a3⟩, ?_⟩, ⟨⟨b1, by omega, b3⟩, ?_⟩⟩
  · rintro j ⟨hj1, hj2, hj3⟩
    exact a4 j hj1 (by omega) hj3
  · rintro j ⟨hj1, hj2, hj3⟩
    exact b4 j hj1 (by omega) hj3

/-- When `loadReadLengths` returns, every read reported its own index as ID. -/
theorem loadReadLengths_dense (gkp : GkStore) (H : Finset Nat) (hashMin hashMax : Nat)
    (R : Finset Nat) (refMin refMax fuel : Nat)
    (hN : gkp.numReads + 1 < u32) (hL : gkp.numLibraries + 1 < u32)
    (hlib : ∀ ii, 1 ≤ ii → ii ≤ gkp.numReads →
      (gkp.getRead ii).libraryID ≤ gkp.numLibraries)
    (hf1 : gkp.numLibraries + 2 ≤ fuel) (hf2 : gkp.numReads + 1 ≤ fuel)
    (hr : ∃ r, (loadReadLengths gkp H hashMin hashMax R refMin refMax fuel).2 = .ok r) :
    ∀ ii, 1 ≤ ii → ii ≤ gkp.numReads → (gkp.getRead ii).readID = ii := by
  classical
  by_contra hne
  have hex : ∃ m, 1 ≤ m ∧ m ≤ gkp.numReads ∧ (gkp.getRead m).readID ≠ m := by
    by_contra hno
    apply hne
    intro ii h1 h2
    by_contra hb
    exact hno ⟨ii, h1, h2, hb⟩
  obtain ⟨hm1, hm2, hbad⟩ := Nat.find_spec hex
  have hmin : ∀ ii, 1 ≤ ii → ii < Nat.find hex → (gkp.getRead ii).readID = ii := by
    intro ii h1 h2
    by_contra hb
    exact Nat.find_min hex h2 ⟨h1, by omega, hb⟩
  have e := loadReadLengths_abort gkp H hashMin hashMax R refMin refMax fuel (Nat.find hex)
    hN hL hlib hf1 hf2 hm1 hm2 hbad hmin
  obtain ⟨r, hr⟩ := hr
  rw [e] at hr
  cases hr

/-! ## The library checks of `main` -/

theorem uncoveredFrom_step (H R : Finset Nat) (n k : Nat) (hk : k ≤ n) :
    uncoveredFrom H R n k =
      if k ∉ H ∧ k ∉ R then k :: uncoveredFrom H R n (k + 1)
      else uncoveredFrom H R n (k + 1) := by
  unfold uncoveredFrom
  have e : n + 1 - k = (n + 1 - (k + 1)) + 1 := by omega
  rw [e, List.range'_succ, List.filter_cons]
  by_cases h : k ∉ H ∧ k ∉ R
  · rw [if_pos (decide_eq_true h), if_pos h]
  · rw [if_neg (by simpa using h), if_neg h]

theorem uncoveredFrom_end (H R : Finset Nat) (n k : Nat) (hk : n < k) :
    uncoveredFrom H R n k = [] := by
  unfold uncoveredFrom
  have e : n + 1 - k = 0 := by omega
  rw [e]
  rfl

theorem mem_uncoveredFrom (H R : Finset Nat) (n l : Nat) :
    l ∈ uncoveredFrom H R n 1 ↔ 1 ≤ l ∧ l ≤ n ∧ l ∉ H ∧ l ∉ R := by
  unfold uncoveredFrom
  simp only [List.mem_filter, List.mem_range'_1, decide_eq_true_eq]
  constructor
  · rintro ⟨⟨h1, h2⟩, h3⟩
    exact ⟨h1, by omega, h3⟩
  · rintro ⟨h1, h2, h3⟩
    exact ⟨⟨h1, by omega⟩, h3⟩

theorem coverageLoop_spec (H R : Finset Nat) (check : Bool) (numLibs : Nat)
    (hL : numLibs + 1 < u32) :
    ∀ (fuel k : Nat) (c : LibCheck), k ≤ numLibs + 1 → numLibs + 2 ≤ fuel + k →
      c.invalidLibs < u32 →
      coverageLoop H R check numLibs fuel k c = some
        { invalidLibs :=
            if check then (c.invalidLibs + (uncoveredFrom H R numLibs k).length) % u32
            else c.invalidLibs
          errors := if check then c.errors ++ uncoveredFrom H R numLibs k else c.errors
          warnings :=
            if check then c.warnings else c.warnings ++ uncoveredFrom H R numLibs k } := by
  have hL2 : numLibs + 1 < 4294967296 := hL
  intro fuel
  induction fuel with
  | zero => intro k c hk hf; omega
  | succ n ih =>
    intro k c hk hf hc
    have hc2 : c.invalidLibs < 4294967296 := hc
    by_cases hkn : k ≤ numLibs
    · have hm : (k + 1) % u32 = k + 1 := Nat.mod_eq_of_lt (by unfold u32; omega)
      rw [uncoveredFrom_step H R numLibs k hkn]
      unfold coverageLoop
      rw [if_pos hkn, hm]
      by_cases hu : k ∉ H ∧ k ∉ R
      · simp only [if_pos hu]
        cases check with
        | false =>
          simp only [Bool.false_eq_true, if_false]
          rw [ih (k + 1) { c with warnings := c.warnings ++ [k] } (by omega) (by omega) hc]
          simp
        | true =>
          simp only [if_true]
          rw [ih (k + 1) _ (by omega) (by omega) (Nat.mod_lt _ (by decide))]
          simp only [if_true, List.length_cons, List.append_assoc, List.singleton_append,
            LibCheck.mk.injEq, Option.some.injEq, and_true]
          unfold u32
          omega
      · simp only [if_neg hu]
        exact ih (k + 1) c (by omega) (by omega) hc
    · rw [uncoveredFrom_end H R numLibs k (by omega)]
      unfold coverageLoop
      rw [if_neg hkn]
      cases check with
      | false => simp
      | true =>
        simp only [if_true, List.length_nil, Nat.add_zero, List.append_nil,
          Nat.mod_eq_of_lt hc]

theorem checkLibraries_eq (H R : Finset Nat) (check : Bool) (numLibs fuel : Nat)
    (hL : numLibs + 1 < u32) (hf : numLibs + 1 ≤ fuel) :
    checkLibraries numLibs H R check fuel = some
      { invalidLibs :=
          if 0 < H.card ∧ 0 < R.card ∧ check = true then
            (invalidCount H R numLibs + (uncoveredFrom H R numLibs 1).length) % u32
          else invalidCount H R numLibs % u32
        errors :=
          if 0 < H.card ∧ 0 < R.card ∧ check = true then uncoveredFrom H R numLibs 1 else []
        warnings :=
          if 0 < H.card ∧ 0 < R.card ∧ check = false then uncoveredFrom H R numLibs 1
          else [] } := by
  unfold checkLibraries
  by_cases hb : H.card > 0 ∧ R.card > 0
  · simp only [if_pos hb]
    rw [coverageLoop_spec H R check numLibs hL fuel 1 _ (by omega) (by omega)
      (Nat.mod_lt _ (by decide))]
    have h1 : 0 < H.card := hb.1
    have h2 : 0 < R.card := hb.2
    cases check <;> simp [h1, h2, invalidCount]
  · simp only [if_neg hb]
    have hb2 : ¬ (0 < H.card ∧ 0 < R.card) := hb
    have e1 : ∀ b : Bool, ¬ (0 < H.card ∧ 0 < R.card ∧ check = b) :=
      fun b h => hb2 ⟨h.1, h.2.1⟩
    simp only [if_neg (e1 true), if_neg (e1 false)]
    rfl

/-- A run of `main` that passes the usage checks: it ends with
`one of -H and/or -R are invalid` exactly when `invalidLibs` is non-zero after
the library checks, it has written no job then, and it has reported what the
coverage loop found. -/
theorem main_checked (gkStore_open : String → GkStore) (o : Options) (fuel : Nat)
    (name : String) (hname : o.gkpStoreName = some name) (hu : o.unknownOptions = 0)
    (hH : 0 < o.ovlHashBlockLength) (hR : 0 < o.ovlRefBlockLength) (c : LibCheck)
    (hc : checkLibraries (gkStore_open name).numLibraries o.libToHash o.libToRef
      o.checkAllLibUsed fuel = some c) :
    ((main gkStore_open o fuel).exit = .invalidLibraries ↔ c.invalidLibs ≠ 0) ∧
    ((main gkStore_open o fuel).exit = .invalidLibraries →
      (main gkStore_open o fuel).jobs = []) ∧
    (main gkStore_open o fuel).notMentioned = c.errors ∧
    (main gkStore_open o fuel).warnings = c.warnings := by
  have hfront : ¬ (o.unknownOptions ≠ 0 ∨ o.ovlHashBlockLength = 0 ∨
      o.ovlRefBlockLength = 0) := by
    rintro (h | h | h) <;> omega
  unfold main
  simp only [hname, if_neg hfront, hc]
  by_cases hz : c.invalidLibs > 0
  · have hz0 : c.invalidLibs ≠ 0 := by omega
    simp [hz, hz0]
  · have hz0 : c.invalidLibs = 0 := by omega
    have hH2 : ¬ o.ovlHashBlockLength = 0 := by omega
    rcases hl : loadReadLengths (gkStore_open name) o.libToHash 1 (u32 - 1) o.libToRef 1
      (u32 - 1) fuel with ⟨errs, e | r⟩
    · simp [hz0, hH2]
    · simp only [hz0, gt_iff_lt, lt_self_iff_false, if_false, hH, not_true_eq_false,
        ne_eq, not_true_eq_false, iff_false, and_self, and_true]
      constructor
      · split_ifs <;> simp
      · split_ifs <;> simp

/-- The error counter at the end of the library checks of a usable store. -/
theorem main_invalid_iff (gkStore_open : String → GkStore) (o : Options) (fuel : Nat)
    (name : String) (hname : o.gkpStoreName = some name) (hu : o.unknownOptions = 0)
    (hH : 0 < o.ovlHashBlockLength) (hR : 0 < o.ovlRefBlockLength)
    (hL : (gkStore_open name).numLibraries + 1 < u32)
    (hf : (gkStore_open name).numLibraries + 1 ≤ fuel) :
    ((main gkStore_open o fuel).exit = .invalidLibraries ↔
      (if 0 < o.libToHash.card ∧ 0 < o.libToRef.card ∧ o.checkAllLibUsed = true then
        (invalidCount o.libToHash o.libToRef (gkStore_open name).numLibraries +
          (uncoveredFrom o.libToHash o.libToRef (gkStore_open name).numLibraries 1).length)
          % u32
       else invalidCount o.libToHash o.libToRef (gkStore_open name).numLibraries % u32)
        ≠ 0) ∧
    ((main gkStore_open o fuel).exit = .invalidLibraries →
      (main gkStore_open o fuel).jobs = []) ∧
    (main gkStore_open o fuel).notMentioned =
      (if 0 < o.libToHash.card ∧ 0 < o.libToRef.card ∧ o.checkAllLibUsed = true then
        uncoveredFrom o.libToHash o.libToRef (gkStore_open name).numLibraries 1 else []) ∧
    (main gkStore_open o fuel).warnings =
      (if 0 < o.libToHash.card ∧ 0 < o.libToRef.card ∧ o.checkAllLibUsed = false then
        uncoveredFrom o.libToHash o.libToRef (gkStore_open name).numLibraries 1 else []) :=
  main_checked gkStore_open o fuel name hname hu hH hR _
    (checkLibraries_eq o.libToHash o.libToRef o.checkAllLibUsed _ fuel hL hf)

theorem uncoveredFrom_many (b : Nat) :
    uncoveredFrom (Finset.Icc 3 b) (Finset.Icc 3 b) 2 1 = [1, 2] := by
  have h1 : (1 : Nat) ∉ Finset.Icc 3 b := by
    rw [Finset.mem_Icc]
    omega
  have h2 : (2 : Nat) ∉ Finset.Icc 3 b := by
    rw [Finset.mem_Icc]
    omega
  rw [uncoveredFrom_step _ _ 2 1 (by omega), uncoveredFrom_step _ _ 2 2 (by omega),
    uncoveredFrom_end _ _ 2 3 (by omega), if_pos ⟨h1, h1⟩, if_pos ⟨h2, h2⟩]

theorem invalidCount_many (b : Nat) :
    invalidCount (Finset.Icc 3 b) (Finset.Icc 3 b) 2 = 2 * (b + 1 - 3) := by
  have e : (Finset.Icc 3 b).filter (fun it => 2 < it) = Finset.Icc 3 b := by
    apply Finset.filter_true_of_mem
    intro x hx
    have := (Finset.mem_Icc.mp hx).1
    omega
  unfold invalidCount
  rw [e, Nat.card_Icc]
  omega

/-- With the libraries `3 .. b` named in both roles on a store of two
libraries, `2 * (b - 2) + 2` errors are counted; when that is `2^32` the
counter is back at zero and `main` goes on. -/
theorem main_many_wraps (b : Nat) (hb : 2 * (b + 1 - 3) + 2 = u32) :
    (manyLibrariesOptions b).libToHash.Nonempty ∧
    (manyLibrariesOptions b).libToRef.Nonempty ∧
    1 ∉ (manyLibrariesOptions b).libToHash ∧ 1 ∉ (manyLibrariesOptions b).libToRef ∧
    (main (fun _ => twoLibraryStore) (manyLibrariesOptions b) 10).notMentioned = [1, 2] ∧
    (main (fun _ => twoLibraryStore) (manyLibrariesOptions b) 10).exit ≠
      .invalidLibraries := by
  have hb2 : 2 * (b + 1 - 3) + 2 = 4294967296 := hb
  have hne : (Finset.Icc 3 b : Finset Nat).Nonempty :=
    ⟨3, Finset.mem_Icc.mpr ⟨by omega, by omega⟩⟩
  have h1 : (1 : Nat) ∉ Finset.Icc 3 b := by
    rw [Finset.mem_Icc]
    omega
  have hcard : 0 < (Finset.Icc 3 b : Finset Nat).card := Finset.card_pos.mpr hne
  have hm := main_invalid_iff (fun _ => twoLibraryStore) (manyLibrariesOptions b) 10
    "reads.gkpStore" rfl rfl (by show 0 < 1000; decide) (by show 0 < 1000; decide)
    (by decide) (by decide)
  have hcond : 0 < (manyLibrariesOptions b).libToHash.card ∧
      0 < (manyLibrariesOptions b).libToRef.card ∧
      (manyLibrariesOptions b).checkAllLibUsed = true := ⟨hcard, hcard, rfl⟩
  rw [if_pos hcond, if_pos hcond] at hm
  refine ⟨hne, hne, h1, h1, ?_, ?_⟩
  · rw [hm.2.2.1]
    exact uncoveredFrom_many b
  · intro h
    apply hm.1.mp h
    show (invalidCount (Finset.Icc 3 b) (Finset.Icc 3 b) 2 +
      (uncoveredFrom (Finset.Icc 3 b) (Finset.Icc 3 b) 2 1).length) % u32 = 0
    rw [uncoveredFrom_many, invalidCount_many]
    show (2 * (b + 1 - 3) + 2) % u32 = 0
    rw [hb]
    decide

/-! ## The boundary of the outer loop -/

theorem hashMaxC_le_hashMax (p : Params) : p.hashMaxC ≤ p.hashMax := by
  unfold Params.hashMaxC
  split_ifs <;> omega

theorem job_hashBeg_lt (p : Params) (fuel : Nat) :
    ∀ j ∈ (partitionLength p fuel).1, j.hashBeg < p.hashMaxC := by
  unfold partitionLength
  apply hashLoop_forall p fuel (fun j => j.hashBeg < p.hashMaxC)
  intro hashBeg hashEnd hs refBeg refEnd c s hlt _ _ _ _ _
  rw [outputJob_fst]
  exact hlt

theorem hashLoop_stop (p : Params) (F fuel hashBeg hashEnd : Nat) (c : Counters)
    (h : ¬ hashBeg < p.hashMaxC) :
    hashLoop p F (fuel + 1) hashBeg hashEnd c = ([], .finished) := by
  unfold hashLoop
  rw [if_neg h]

theorem partitionLength_empty (p : Params) (fuel : Nat) (h : p.hashMaxC ≤ p.hashMin) :
    partitionLength p (fuel + 1) = ([], .finished) := by
  unfold partitionLength
  exact hashLoop_stop p _ fuel _ _ _ (by omega)

/-- The hash ranges of two jobs of a run are the same range or lie apart. -/
theorem job_hash_ranges_apart (p : Params) (fuel : Nat) (hwf : p.numReads + 1 < u32) :
    ∀ a ∈ (partitionLength p fuel).1, ∀ b ∈ (partitionLength p fuel).1,
      (a.hashBeg = b.hashBeg ∧ a.hashEnd = b.hashEnd) ∨ a.hashEnd < b.hashBeg ∨
        b.hashEnd < a.hashBeg := by
  have hb := job_hash_bounds p fuel hwf
  have hch : List.Chain' (JobStep p) (partitionLength p fuel).1 :=
    (hashLoop_structure p hwf fuel fuel p.hashMin _ _).1
  let R : Job → Job → Prop := fun a b =>
    (a.hashBeg ≤ a.hashEnd ∧ b.hashBeg ≤ b.hashEnd) ∧
      ((a.hashBeg = b.hashBeg ∧ a.hashEnd = b.hashEnd) ∨ a.hashEnd < b.hashBeg)
  haveI : IsTrans Job R := ⟨by
    rintro a b c ⟨⟨ha, hb1⟩, hab⟩ ⟨⟨_, hc⟩, hbc⟩
    refine ⟨⟨ha, hc⟩, ?_⟩
    rcases hab with ⟨h1, h2⟩ | h1 <;> rcases hbc with ⟨h3, h4⟩ | h3
    · exact Or.inl ⟨by omega, by omega⟩
    · exact Or.inr (by omega)
    · exact Or.inr (by omega)
    · exact Or.inr (by omega)⟩
  have hR : List.Chain' R (partitionLength p fuel).1 := by
    refine (List.Chain'.iff_mem.mp hch).imp ?_
    rintro a b ⟨ha, hb2, hs⟩
    refine ⟨⟨(hb a ha).2.1, (hb b hb2).2.1⟩, ?_⟩
    rcases hs with ⟨h1, h2, _⟩ | ⟨h1, _, _⟩
    · exact Or.inl ⟨h1.symm, h2.symm⟩
    · exact Or.inr (by omega)
  have hP : List.Pairwise R (partitionLength p fuel).1 := List.chain'_iff_pairwise.mp hR
  have hS : List.Pairwise (fun a b => R a b ∨ R b a) (partitionLength p fuel).1 :=
    hP.imp (fun h => Or.inl h)
  have hall := List.Pairwise.forall_of_forall (fun a b h => Or.symm h)
    (fun x hx => Or.inl ⟨⟨(hb x hx).2.1, (hb x hx).2.1⟩, Or.inl ⟨rfl, rfl⟩⟩) hS
  intro a ha b hb2
  rcases hall ha hb2 with ⟨_, h | h⟩ | ⟨_, h | h⟩
  · exact Or.inl h
  · exact Or.inr (Or.inl h)
  · exact Or.inl ⟨h.1.symm, h.2.symm⟩
  · exact Or.inr (Or.inr h)

/-! ## The entries of `readLen` a run reads -/

theorem hashScan_congr (rl rl2 : List Nat) (mo bl mx N : Nat) (hmx : mx ≤ N)
    (hN : N + 1 < u32) (hag : ∀ i, 1 ≤ i → i ≤ N → rl2[i]? = rl[i]?) :
    ∀ fuel s0, 1 ≤ (s0.pos + 1) % u32 → (s0.pos + 1) % u32 ≤ N →
      hashScan rl2 mo bl mx fuel s0 = hashScan rl mo bl mx fuel s0 := by
  have hN2 : N + 1 < 4294967296 := hN
  intro fuel
  induction fuel with
  | zero => intro s0 _ _; rfl
  | succ n ih =>
    intro s0 h1 h2
    unfold hashScan
    rw [hag _ h1 h2]
    cases hl : rl[(s0.pos + 1) % u32]? with
    | none => rfl
    | some l =>
      simp only
      by_cases hc : (hashAcc mo s0 ((s0.pos + 1) % u32) l).len < bl ∧
          (hashAcc mo s0 ((s0.pos + 1) % u32) l).pos < mx
      · rw [if_pos hc, if_pos hc]
        have hm : ((hashAcc mo s0 ((s0.pos + 1) % u32) l).pos + 1) % u32 =
            (hashAcc mo s0 ((s0.pos + 1) % u32) l).pos + 1 :=
          Nat.mod_eq_of_lt (by have := hc.2; show _ < 4294967296; omega)
        exact ih _ (by rw [hm]; omega) (by rw [hm]; omega)
      · rw [if_neg hc, if_neg hc]

theorem refScan_congr (rl rl2 : List Nat) (mo bl mx N : Nat) (hmx : mx ≤ N)
    (hN : N + 1 < u32) (hag : ∀ i, 1 ≤ i → i ≤ N → rl2[i]? = rl[i]?) :
    ∀ fuel s0, 1 ≤ (s0.pos + 1) % u32 → (s0.pos + 1) % u32 ≤ N →
      refScan rl2 mo bl mx fuel s0 = refScan rl mo bl mx fuel s0 := by
  have hN2 : N + 1 < 4294967296 := hN
  intro fuel
  induction fuel with
  | zero => intro s0 _ _; rfl
  | succ n ih =>
    intro s0 h1 h2
    unfold refScan
    rw [hag _ h1 h2]
    cases hl : rl[(s0.pos + 1) % u32]? with
    | none => rfl
    | some l =>
      simp only
      by_cases hc : (refAcc mo s0 ((s0.pos + 1) % u32) l).len < bl ∧
          (refAcc mo s0 ((s0.pos + 1) % u32) l).pos < mx
      · rw [if_pos hc, if_pos hc]
        have hm : ((refAcc mo s0 ((s0.pos + 1) % u32) l).pos + 1) % u32 =
            (refAcc mo s0 ((s0.pos + 1) % u32) l).pos + 1 :=
          Nat.mod_eq_of_lt (by have := hc.2; show _ < 4294967296; omega)
        exact ih _ (by rw [hm]; omega) (by rw [hm]; omega)
      · rw [if_neg hc, if_neg hc]

theorem refLoop_congr (p : Params) (rl2 : List Nat) (hwf : p.numReads + 1 < u32)
    (hag : ∀ i, 1 ≤ i → i ≤ p.numReads → rl2[i]? = p.readLen[i]?)
    (F hb he hr hbs : Nat) :
    ∀ fuel rb re c, (re = 0 ∨ re < rb) →
      refLoop { p with readLen := rl2 } F hb he hr hbs fuel rb re c =
        refLoop p F hb he hr hbs fuel rb re c := by
  have hwf2 : p.numReads + 1 < 4294967296 := hwf
  have hR := refMaxC_le_numReads p
  intro fuel
  induction fuel with
  | zero => intro rb re c _; rfl
  | succ n ih =>
    intro rb re c hre
    unfold refLoop
    by_cases hc : refCond p he rb
    · have hc2 : refCond { p with readLen := rl2 } he rb := hc
      rw [if_pos hc, if_pos hc2]
      have hlt : rb < p.refMaxC := hc.1
      have hm : (re + 1) % u32 = re + 1 := Nat.mod_eq_of_lt (by unfold u32; omega)
      have hs : refScan (Params.readLen { p with readLen := rl2 })
          (Params.minOverlapLength { p with readLen := rl2 })
          (Params.ovlRefBlockLength { p with readLen := rl2 })
          (Params.refMaxC { p with readLen := rl2 }) F
          { pos := re, len := 0, reads := 0, bases := 0 } =
          refScan p.readLen p.minOverlapLength p.ovlRefBlockLength p.refMaxC F
          { pos := re, len := 0, reads := 0, bases := 0 } :=
        refScan_congr p.readLen rl2 _ _ _ p.numReads hR hwf hag F _
          (by show 1 ≤ (re + 1) % u32; rw [hm]; omega)
          (by show (re + 1) % u32 ≤ p.numReads; rw [hm]; omega)
      rw [hs]
      cases refScan p.readLen p.minOverlapLength p.ovlRefBlockLength p.refMaxC F
          { pos := re, len := 0, reads := 0, bases := 0 } with
      | error h => rfl
      | ok s =>
        have hcl := clampRef_le_refMaxC p he s.pos
        have hm2 : (clampRef p he s.pos + 1) % u32 = clampRef p he s.pos + 1 :=
          Nat.mod_eq_of_lt (by unfold u32; omega)
        have ecl : clampRef { p with readLen := rl2 } he s.pos = clampRef p he s.pos := rfl
        simp only [ecl]
        rw [ih _ _ _ (Or.inr (by rw [hm2]; omega))]
    · have hc2 : ¬ refCond { p with readLen := rl2 } he rb := hc
      rw [if_neg hc, if_neg hc2]

theorem hashLoop_congr (p : Params) (rl2 : List Nat) (hwf : p.numReads + 1 < u32)
    (hag : ∀ i, 1 ≤ i → i ≤ p.numReads → rl2[i]? = p.readLen[i]?) (F : Nat) :
    ∀ fuel hashBeg hashEnd c, 1 ≤ hashBeg →
      hashLoop { p with readLen := rl2 } F fuel hashBeg hashEnd c =
        hashLoop p F fuel hashBeg hashEnd c := by
  have hwf2 : p.numReads + 1 < 4294967296 := hwf
  have hM := hashMaxC_le_numReads p
  intro fuel
  induction fuel with
  | zero => intro hashBeg hashEnd c _; rfl
  | succ n ih =>
    intro hashBeg hashEnd c hb1
    unfold hashLoop
    by_cases hc : hashBeg < p.hashMaxC
    · have hc2 : hashBeg < Params.hashMaxC { p with readLen := rl2 } := hc
      rw [if_pos hc, if_pos hc2]
      by_cases ha : hashEnd ≠ (hashBeg + u32 - 1) % u32
      · rw [if_pos ha, if_pos ha]
      · rw [if_neg ha, if_neg ha]
        have he : hashEnd = hashBeg - 1 := by
          have := not_not.mp ha
          rw [this]
          unfold u32
          omega
        have hm : (hashEnd + 1) % u32 = hashBeg := by
          rw [he]
          unfold u32
          omega
        have hs : hashScan (Params.readLen { p with readLen := rl2 })
            (Params.minOverlapLength { p with readLen := rl2 })
            (Params.ovlHashBlockLength { p with readLen := rl2 })
            (Params.hashMaxC { p with readLen := rl2 }) F
            { pos := hashEnd, len := 0, reads := 0, bases := 0 } =
            hashScan p.readLen p.minOverlapLength p.ovlHashBlockLength p.hashMaxC F
            { pos := hashEnd, len := 0, reads := 0, bases := 0 } :=
          hashScan_congr p.readLen rl2 _ _ _ p.numReads hM hwf hag F _
            (by show 1 ≤ (hashEnd + 1) % u32; rw [hm]; omega)
            (by show (hashEnd + 1) % u32 ≤ p.numReads; rw [hm]; omega)
        rw [hs]
        cases hashScan p.readLen p.minOverlapLength p.ovlHashBlockLength p.hashMaxC F
            { pos := hashEnd, len := 0, reads := 0, bases := 0 } with
        | error h => rfl
        | ok s =>
          have ehm : Params.hashMaxC { p with readLen := rl2 } = p.hashMaxC := rfl
          simp only [ehm]
          by_cases hp : ¬ s.pos ≤ p.hashMaxC
          · rw [if_pos hp, if_pos hp]
          · rw [if_neg hp, if_neg hp]
            rw [refLoop_congr p rl2 hwf hag F hashBeg s.pos s.reads s.bases F p.refMin 0 c
              (Or.inl rfl)]
            have hm2 : (s.pos + 1) % u32 = s.pos + 1 :=
              Nat.mod_eq_of_lt (by unfold u32; omega)
            cases (refLoop p F hashBeg s.pos s.reads s.bases F p.refMin 0 c).2 with
            | error h => rfl
            | ok c1 =>
              simp only
              rw [ih _ _ _ (by rw [hm2]; omega)]
    · have hc2 : ¬ hashBeg < Params.hashMaxC { p with readLen := rl2 } := hc
      rw [if_neg hc, if_neg hc2]

/-- A run with `hashMin ≥ 1` reads `readLen` only at indices `1 .. numReads`:
the entries at all other indices do not change it. -/
theorem partitionLength_congr (p : Params) (rl2 : List Nat) (fuel : Nat)
    (hwf : p.numReads + 1 < u32) (hmin : 1 ≤ p.hashMin)
    (hag : ∀ i, 1 ≤ i → i ≤ p.numReads → rl2[i]? = p.readLen[i]?) :
    partitionLength { p with readLen := rl2 } fuel = partitionLength p fuel := by
  unfold partitionLength
  exact hashLoop_congr p rl2 hwf hag fuel fuel p.hashMin _ _ hmin

/-! # The claims -/

/-- C1.  Triangular property: when the hash and the reference role sets are not
the same set, every job emitted by `partitionLength` has
`refEnd ≤ hashEnd`.  This holds for the jobs of every run, whatever the fuel
and however the run ends. -/
theorem triangular_refEnd_le_hashEnd (p : Params) (fuel : Nat)
    (hne : p.libToHash ≠ p.libToRef) :
    ∀ j ∈ (partitionLength p fuel).1, j.refEnd ≤ j.hashEnd := by
  have hcap : p.capAtHash = true := by simp [Params.capAtHash, hne]
  apply hashLoop_forall p fuel (fun j => j.refEnd ≤ j.hashEnd)
  intro hashBeg hashEnd hs refBeg refEnd c s _ _ _ _ _ _
  simp only [outputJob_fst]
  exact clampRef_le_hashEnd p hs.pos s.pos hcap

/-- Witness for C1: in `twoLibraryScenario` the role sets differ, the second job
is the hash range 4-6 against the reference range 5-6 (cut at the hash end),
and its reference end is at most its hash end. -/
theorem triangular_refEnd_le_hashEnd_witness :
    twoLibraryScenario.libToHash ≠ twoLibraryScenario.libToRef ∧
    twoLibraryJob ∈ (partitionLength twoLibraryScenario 11).1 ∧
    twoLibraryJob.refEnd ≤ twoLibraryJob.hashEnd :=
  ⟨by decide, by decide,
    triangular_refEnd_le_hashEnd twoLibraryScenario 11 (by decide) twoLibraryJob (by decide)⟩

/-- C2 as the claim states it fails: in `longReadScenario` (four reads, every
hash range one read, both role sets empty) the first job carries the hash
range 2-2.  The hash ranges of the jobs do not start at `hashMin = 1`: the
hash range 1-1 has no reference read below its end, so the inner loop emits
nothing for it. -/
theorem hash_tiling_counterexample :
    longReadScenario.hashMin = 1 ∧ longReadScenario.libToHash = ∅ ∧
    longReadScenario.libToRef = ∅ ∧
    (partitionLength longReadScenario 5).1.head?.map (fun j => (j.hashBeg, j.hashEnd)) =
      some (2, 2) ∧
    (∀ j ∈ (partitionLength longReadScenario 5).1, j.hashBeg ≠ longReadScenario.hashMin) := by
  decide

/-- C2 (amended).  For a store whose read count fits the `uint32` array size
(`numReads + 1 < 2^32`): every job's hash range lies inside
`[hashMin, hashMax]` (`hashMax` clamped to the read count); two consecutive
jobs either carry the same hash range or the later range begins at the earlier
range's end + 1, so the hash ranges that carry jobs have no gaps and no
overlaps; and the first job's hash range begins at `hashMin` whenever
`refMin < refMax` and either `refMin < hashMin` or the role sets are the same
non-empty set. -/
theorem hash_ranges_contiguous (p : Params) (fuel : Nat) (hwf : p.numReads + 1 < u32) :
    (∀ j ∈ (partitionLength p fuel).1,
      p.hashMin ≤ j.hashBeg ∧ j.hashBeg ≤ j.hashEnd ∧ j.hashEnd ≤ p.hashMaxC) ∧
    List.Chain' (fun a b : Job =>
      (b.hashBeg = a.hashBeg ∧ b.hashEnd = a.hashEnd) ∨ b.hashBeg = a.hashEnd + 1)
      (partitionLength p fuel).1 ∧
    (p.refMin < p.refMaxC ∧ (p.refMin < p.hashMin ∨ p.sameSets = true) →
      ∀ j ∈ (partitionLength p fuel).1.head?, j.hashBeg = p.hashMin) := by
  obtain ⟨h1, _, h3, _⟩ := hashLoop_structure p hwf fuel fuel p.hashMin
    ((p.hashMin + u32 - 1) % u32) { batchSize := 0, batchName := 1, jobName := 1 }
  refine ⟨job_hash_bounds p fuel hwf, ?_, ?_⟩
  · refine List.Chain'.imp ?_ h1
    intro a b hab
    rcases hab with ⟨e1, e2, _⟩ | ⟨e1, _, _⟩
    · exact Or.inl ⟨e1, e2⟩
    · exact Or.inr e1
  · intro hc j hj
    exact (h3 j hj).2 hc

/-- Witness for C2 (amended), on `sameSetsScenario`: the first job carries the
hash range 1-3, which begins at `hashMin`, and the hash ranges of the jobs
follow one another without a gap. -/
theorem hash_ranges_contiguous_witness :
    sameSetsScenario.numReads + 1 < u32 ∧
    ((∀ j ∈ (partitionLength sameSetsScenario 11).1,
      sameSetsScenario.hashMin ≤ j.hashBeg ∧ j.hashBeg ≤ j.hashEnd ∧
        j.hashEnd ≤ sameSetsScenario.hashMaxC) ∧
    List.Chain' (fun a b : Job =>
      (b.hashBeg = a.hashBeg ∧ b.hashEnd = a.hashEnd) ∨ b.hashBeg = a.hashEnd + 1)
      (partitionLength sameSetsScenario 11).1 ∧
    (sameSetsScenario.refMin < sameSetsScenario.refMaxC ∧
        (sameSetsScenario.refMin < sameSetsScenario.hashMin ∨
          sameSetsScenario.sameSets = true) →
      ∀ j ∈ (partitionLength sameSetsScenario 11).1.head?,
        j.hashBeg = sameSetsScenario.hashMin)) ∧
    (sameSetsScenario.refMin < sameSetsScenario.refMaxC ∧
      sameSetsScenario.sameSets = true) ∧
    (partitionLength sameSetsScenario 11).1.head?.map (fun j => (j.hashBeg, j.hashEnd)) =
      some (1, 3) :=
  ⟨by decide, hash_ranges_contiguous sameSetsScenario 11 (by decide), by decide, by decide⟩

/-- C3 as the claim states it fails: in `narrowRefScenario` (both role sets
empty, so the triangular case) the only job of the hash range 1-3 has the
reference range 1-2, which is not the whole scope `[refMin, min(refMax, 3)]`. -/
theorem ref_tiling_counterexample :
    narrowRefScenario.libToHash = ∅ ∧ narrowRefScenario.refMin = 1 ∧
    narrowRefScenario.refMaxC = 10 ∧
    (partitionLength narrowRefScenario 11).2 = .finished ∧
    ((partitionLength narrowRefScenario 11).1.filter
        (fun j => decide (j.hashBeg = 1 ∧ j.hashEnd = 3))).map
      (fun j => (j.refBeg, j.refEnd)) = [(1, 2)] := by
  decide

/-- C3 (amended).  For a store with `numReads + 1 < 2^32`: the first job
begins at `refMin`; inside one hash range each next reference range begins at
the previous end + 1; a job that opens the next hash range begins at `refMin`
again, and the inner loop had left the previous hash range because the
reference pointer (the previous end + 1) had reached `refMax` or, unless the
role sets are the same non-empty set, the hash range end; every reference
range begins below `refMax` and ends at or below `refMax` (clamped to the read
count) and, unless the role sets are the same non-empty set, begins below and
ends at or below the hash range end; and the same exit condition holds for
the last job of a finished run. -/
theorem ref_ranges_chained (p : Params) (fuel : Nat) (hwf : p.numReads + 1 < u32) :
    List.Chain' (fun a b : Job =>
      (b.hashBeg = a.hashBeg ∧ b.hashEnd = a.hashEnd ∧ b.refBeg = a.refEnd + 1) ∨
      (b.hashBeg = a.hashEnd + 1 ∧ b.refBeg = p.refMin ∧
        (p.refMaxC ≤ a.refEnd + 1 ∨ (p.sameSets = false ∧ a.hashEnd ≤ a.refEnd + 1))))
      (partitionLength p fuel).1 ∧
    (∀ j ∈ (partitionLength p fuel).1.head?, j.refBeg = p.refMin) ∧
    (∀ j ∈ (partitionLength p fuel).1,
      j.refBeg < p.refMaxC ∧ j.refEnd ≤ p.refMaxC ∧
      (p.sameSets = false → j.refBeg < j.hashEnd ∧ j.refEnd ≤ j.hashEnd)) ∧
    ((partitionLength p fuel).2 = .finished →
      ∀ j ∈ (partitionLength p fuel).1.getLast?,
        p.refMaxC ≤ j.refEnd + 1 ∨ (p.sameSets = false ∧ j.hashEnd ≤ j.refEnd + 1)) := by
  obtain ⟨h1, _, h3, h4⟩ := hashLoop_structure p hwf fuel fuel p.hashMin
    ((p.hashMin + u32 - 1) % u32) { batchSize := 0, batchName := 1, jobName := 1 }
  refine ⟨?_, fun j hj => (h3 j hj).1, ?_, ?_⟩
  · refine List.Chain'.imp ?_ h1
    intro a b hab
    rcases hab with hl | ⟨e1, e2, e3⟩
    · exact Or.inl hl
    · exact Or.inr ⟨e1, e2, (not_refCond_iff p _ _).1 e3⟩
  · intro j hj
    obtain ⟨b1, b2, b3⟩ := job_ref_bounds p fuel j hj
    refine ⟨b1, b2, fun hs => b3 ?_⟩
    rw [capAtHash_eq_not_sameSets, hs]
    rfl
  · intro hfin j hj
    exact (not_refCond_iff p _ _).1 ((h4 hfin).1 j hj).2

/-- Witness for C3 (amended), on the scenario of the specification. -/
theorem ref_ranges_chained_witness :
    specScenario.numReads + 1 < u32 ∧
    (List.Chain' (fun a b : Job =>
      (b.hashBeg = a.hashBeg ∧ b.hashEnd = a.hashEnd ∧ b.refBeg = a.refEnd + 1) ∨
      (b.hashBeg = a.hashEnd + 1 ∧ b.refBeg = specScenario.refMin ∧
        (specScenario.refMaxC ≤ a.refEnd + 1 ∨
          (specScenario.sameSets = false ∧ a.hashEnd ≤ a.refEnd + 1))))
      (partitionLength specScenario 11).1 ∧
    (∀ j ∈ (partitionLength specScenario 11).1.head?, j.refBeg = specScenario.refMin) ∧
    (∀ j ∈ (partitionLength specScenario 11).1,
      j.refBeg < specScenario.refMaxC ∧ j.refEnd ≤ specScenario.refMaxC ∧
      (specScenario.sameSets = false → j.refBeg < j.hashEnd ∧ j.refEnd ≤ j.hashEnd)) ∧
    ((partitionLength specScenario 11).2 = .finished →
      ∀ j ∈ (partitionLength specScenario 11).1.getLast?,
        specScenario.refMaxC ≤ j.refEnd + 1 ∨
          (specScenario.sameSets = false ∧ j.hashEnd ≤ j.refEnd + 1))) ∧
    (partitionLength specScenario 11).1.map (fun j => (j.hashBeg, j.refBeg, j.refEnd)) =
      [(1, 1, 3), (4, 1, 3), (4, 4, 6), (7, 1, 3), (7, 4, 6), (7, 7, 9)] :=
  ⟨by decide, ref_ranges_chained specScenario 11 (by decide), by decide⟩

/-- C4 as the claim states it fails when both role sets are empty: in
`wideRefScenario` the two sets are identical, the greedy reference scan for the
first job stops at read 4, below `refMax = 10`, but the job is emitted with the
reference range 1-3, cut at the hash end 3, and it is the only job of the hash
range 1-3 although the reference pointer 4 has not reached `refMax`. -/
theorem cap_lift_counterexample :
    wideRefScenario.libToHash = wideRefScenario.libToRef ∧
    wideRefScenario.refMaxC = 10 ∧
    refScan wideRefScenario.readLen wideRefScenario.minOverlapLength
      wideRefScenario.ovlRefBlockLength wideRefScenario.refMaxC 11
      { pos := 0, len := 0, reads := 0, bases := 0 } =
        .ok { pos := 4, len := 400, reads := 4, bases := 404 } ∧
    (partitionLength wideRefScenario 11).1.map
      (fun j => (j.hashBeg, j.hashEnd, j.refBeg, j.refEnd)) =
      [(1, 3, 1, 3), (4, 6, 1, 4), (4, 6, 5, 6), (7, 9, 1, 4), (7, 9, 5, 8)] :=
  ⟨by decide, by decide, rfl, by decide⟩

/-- C4 (amended).  When the hash and the reference role sets are the same
non-empty set (and `numReads + 1 < 2^32`), the cap at the hash boundary is
lifted.  Every job reports, as its reference end, the end of a greedy
reference scan clamped only to `refMax`; the scan started at read 1 for the
job that begins at `refMin` and at the job's `refBeg` otherwise.  Inside one
hash range each next reference range begins at the previous end + 1, and the
inner loop leaves a hash range only when the reference pointer (the previous
end + 1) has reached `refMax`, also at the end of a finished run. -/
theorem same_sets_lift_cap (p : Params) (fuel : Nat) (hwf : p.numReads + 1 < u32)
    (hsame : p.libToHash.card ≠ 0 ∧ p.libToHash = p.libToRef) :
    (∀ j ∈ (partitionLength p fuel).1, ∃ re s,
      ((re = 0 ∧ j.refBeg = p.refMin) ∨ j.refBeg = re + 1) ∧
      refScan p.readLen p.minOverlapLength p.ovlRefBlockLength p.refMaxC fuel
        { pos := re, len := 0, reads := 0, bases := 0 } = .ok s ∧
      j.refEnd = (if s.pos > p.refMaxC then p.refMaxC else s.pos)) ∧
    List.Chain' (fun a b : Job =>
      (b.hashBeg = a.hashBeg ∧ b.hashEnd = a.hashEnd ∧ b.refBeg = a.refEnd + 1) ∨
      (b.hashBeg = a.hashEnd + 1 ∧ p.refMaxC ≤ a.refEnd + 1))
      (partitionLength p fuel).1 ∧
    ((partitionLength p fuel).2 = .finished →
      ∀ j ∈ (partitionLength p fuel).1.getLast?, p.refMaxC ≤ j.refEnd + 1) := by
  have hs : p.sameSets = true := by unfold Params.sameSets; exact decide_eq_true hsame
  have hcap : p.capAtHash = false := by rw [capAtHash_eq_not_sameSets, hs]; rfl
  have hdone : ∀ he e, ¬ refCond p he (e + 1) → p.refMaxC ≤ e + 1 := by
    intro he e hn
    unfold refCond at hn
    by_contra hcon
    exact hn ⟨by omega, Or.inr hs⟩
  obtain ⟨h1, _, _, h4⟩ := hashLoop_structure p hwf fuel fuel p.hashMin
    ((p.hashMin + u32 - 1) % u32) { batchSize := 0, batchName := 1, jobName := 1 }
  refine ⟨?_, ?_, ?_⟩
  · apply hashLoop_forall_inner p fuel
    intro hashBeg hashEnd hs1 c _ _ _ _ j hj
    obtain ⟨re, s, hlink, _, hscan, hend, _, _⟩ :=
      refLoop_scanned p hwf fuel hashBeg hs1.pos hs1.reads hs1.bases fuel p.refMin 0 c j hj
    refine ⟨re, s, hlink, hscan, ?_⟩
    rw [hend]
    simp only [clampRef, hcap, Bool.false_eq_true, and_false, if_false]
  · refine List.Chain'.imp ?_ h1
    intro a b hab
    rcases hab with hl | ⟨e1, _, e3⟩
    · exact Or.inl hl
    · exact Or.inr ⟨e1, hdone _ _ e3⟩
  · intro hfin j hj
    exact hdone _ _ ((h4 hfin).1 j hj).2

/-- Witness for C4 (amended): in `sameSetsScenario` the third job has the hash
range 1-3 and the reference range 7-9, past the hash end. -/
theorem same_sets_lift_cap_witness :
    sameSetsScenario.numReads + 1 < u32 ∧
    (sameSetsScenario.libToHash.card ≠ 0 ∧
      sameSetsScenario.libToHash = sameSetsScenario.libToRef) ∧
    sameSetsJob ∈ (partitionLength sameSetsScenario 11).1 ∧
    sameSetsJob.hashEnd < sameSetsJob.refEnd ∧
    ((∀ j ∈ (partitionLength sameSetsScenario 11).1, ∃ re s,
      ((re = 0 ∧ j.refBeg = sameSetsScenario.refMin) ∨ j.refBeg = re + 1) ∧
      refScan sameSetsScenario.readLen sameSetsScenario.minOverlapLength
        sameSetsScenario.ovlRefBlockLength sameSetsScenario.refMaxC 11
        { pos := re, len := 0, reads := 0, bases := 0 } = .ok s ∧
      j.refEnd = (if s.pos > sameSetsScenario.refMaxC then sameSetsScenario.refMaxC
        else s.pos)) ∧
    List.Chain' (fun a b : Job =>
      (b.hashBeg = a.hashBeg ∧ b.hashEnd = a.hashEnd ∧ b.refBeg = a.refEnd + 1) ∨
      (b.hashBeg = a.hashEnd + 1 ∧ sameSetsScenario.refMaxC ≤ a.refEnd + 1))
      (partitionLength sameSetsScenario 11).1 ∧
    ((partitionLength sameSetsScenario 11).2 = .finished →
      ∀ j ∈ (partitionLength sameSetsScenario 11).1.getLast?,
        sameSetsScenario.refMaxC ≤ j.refEnd + 1)) :=
  ⟨by decide, by decide, by decide, by decide,
    same_sets_lift_cap sameSetsScenario 11 (by decide) (by decide)⟩

/-- C5 as the claim states it fails: in the scenario of the specification (ten
reads, both role sets empty) the run finishes, emits jobs, and the last job has
`refEnd = 9`, not 10.  With empty role sets the run is triangular: a reference
range is cut at the end of its hash range and the inner loop stops when the
next reference range would begin at that end, so read 10 ends no reference
range. -/
theorem last_job_counterexample :
    specScenario.numReads = 10 ∧ specScenario.libToHash = ∅ ∧ specScenario.libToRef = ∅ ∧
    specScenario.minOverlapLength = 0 ∧
    (partitionLength specScenario 11).2 = .finished ∧
    (partitionLength specScenario 11).1 ≠ [] ∧
    (partitionLength specScenario 11).1.getLast?.map (fun j => j.refEnd) = some 9 ∧
    (∀ j ∈ (partitionLength specScenario 11).1, j.refEnd ≠ specScenario.numReads) := by
  decide

/-- C5 (amended).  With the hash role set empty (the triangular case) and
`refMax` at least the read count `N`, for every store with `N + 1 < 2^32`,
whatever the block lengths and the minimum overlap length, a run with more
than `N` units of fuel finishes, and the last emitted job's reference range
ends at its own hash range's end or one read before it:
`hashEnd - 1 ≤ refEnd ≤ hashEnd`, with `1 ≤ refEnd ≤ N`. -/
theorem last_job_near_end (p : Params) (fuel : Nat) (hwf : p.numReads + 1 < u32)
    (hlen : p.readLen.length = p.numReads + 1) (hfuel : p.numReads < fuel)
    (hH : p.libToHash = ∅) (hrmax : p.numReads ≤ p.refMax) :
    (partitionLength p fuel).2 = .finished ∧
    ∀ j ∈ (partitionLength p fuel).1.getLast?,
      j.refEnd ≤ j.hashEnd ∧ j.hashEnd ≤ j.refEnd + 1 ∧
      1 ≤ j.refEnd ∧ j.refEnd ≤ p.numReads := by
  have hfin := partitionLength_finished p hwf hlen fuel hfuel
  have hs : p.sameSets = false := by simp [Params.sameSets, hH]
  have hcap : p.capAtHash = true := by rw [capAtHash_eq_not_sameSets, hs]; rfl
  have hrM : p.refMaxC = p.numReads := by unfold Params.refMaxC; split <;> omega
  have hhM := hashMaxC_le_numReads p
  obtain ⟨_, _, _, h4⟩ := hashLoop_structure p hwf fuel fuel p.hashMin
    ((p.hashMin + u32 - 1) % u32) { batchSize := 0, batchName := 1, jobName := 1 }
  obtain ⟨h4a, _⟩ := h4 hfin
  change (∀ j ∈ (partitionLength p fuel).1.getLast?, _) at h4a
  refine ⟨hfin, ?_⟩
  intro j hj
  obtain ⟨_, a2⟩ := h4a j hj
  have hjm : j ∈ (partitionLength p fuel).1 := List.mem_of_mem_getLast? hj
  obtain ⟨_, b2, b3⟩ := job_ref_bounds p fuel j hjm
  have b4 := b3 hcap
  obtain ⟨c1, c2, c3⟩ := job_hash_bounds p fuel hwf j hjm
  have hnear : j.hashEnd ≤ j.refEnd + 1 := by
    unfold refCond at a2
    by_contra hcon
    exact a2 ⟨by omega, Or.inl (by omega)⟩
  obtain ⟨re, s, hlink, hc, hscan, hend, _, _⟩ := job_ref_scan p fuel hwf j hjm
  obtain ⟨_, hp1, _⟩ := job_ref_scan_pos p re j.refBeg j.hashEnd s fuel hwf hlink hc hscan
  have hge : 1 ≤ clampRef p j.hashEnd s.pos := by
    simp only [clampRef]
    split_ifs <;> omega
  rw [← hend] at hge
  exact ⟨b4.2, hnear, hge, by omega⟩

/-- Witness for C5 (amended), on the scenario of the specification: the run
emits jobs and its last job has `refEnd = 9`. -/
theorem last_job_near_end_witness :
    (specScenario.numReads + 1 < u32 ∧
      specScenario.readLen.length = specScenario.numReads + 1 ∧
      specScenario.numReads < 11 ∧ specScenario.libToHash = ∅ ∧
      specScenario.numReads ≤ specScenario.refMax) ∧
    ((partitionLength specScenario 11).2 = .finished ∧
    ∀ j ∈ (partitionLength specScenario 11).1.getLast?,
      j.refEnd ≤ j.hashEnd ∧ j.hashEnd ≤ j.refEnd + 1 ∧
      1 ≤ j.refEnd ∧ j.refEnd ≤ specScenario.numReads) ∧
    (partitionLength specScenario 11).1 ≠ [] ∧
    (partitionLength specScenario 11).1.getLast?.map (fun j => j.refEnd) = some 9 :=
  ⟨by decide, last_job_near_end specScenario 11 (by decide) (by decide) (by decide)
    (by decide) (by decide), by decide, by decide⟩

/-- C6.  Termination of `partitionLength`: for every store with
`numReads + 1 < 2^32` whose length array has `numReads + 1` entries, and for
all thresholds, role sets and bounds `hashMin`, `hashMax`, `refMin`, `refMax`,
a run with more than `numReads` units of fuel finishes (no loop runs out of
fuel), and every such amount of fuel yields the same finite list of jobs. -/
theorem partitionLength_terminates (p : Params) (fuel : Nat) (hwf : p.numReads + 1 < u32)
    (hlen : p.readLen.length = p.numReads + 1) (hfuel : p.numReads < fuel) :
    (partitionLength p fuel).2 = .finished ∧
    partitionLength p fuel = partitionLength p (p.numReads + 1) :=
  ⟨partitionLength_finished p hwf hlen fuel hfuel, partitionLength_fuel p hwf hlen fuel hfuel⟩

/-- Witness for C6, on the scenario of the specification with fuel 20. -/
theorem partitionLength_terminates_witness :
    (specScenario.numReads + 1 < u32 ∧
      specScenario.readLen.length = specScenario.numReads + 1 ∧
      specScenario.numReads < 20) ∧
    ((partitionLength specScenario 20).2 = .finished ∧
    partitionLength specScenario 20 = partitionLength specScenario (specScenario.numReads + 1)) :=
  ⟨by decide, partitionLength_terminates specScenario 20 (by decide) (by decide) (by decide)⟩

/-- C9 as the claim states it fails: in the scenario of the specification the
hash block length is 250 and every job has a hash range of 3 reads and 303
bytes, above the block length. -/
theorem hash_budget_counterexample :
    specScenario.ovlHashBlockLength = 250 ∧
    (partitionLength specScenario 11).1.map (fun j => (j.numHashReads, j.numHashBases)) =
      [(3, 303), (3, 303), (3, 303), (3, 303), (3, 303), (3, 303)] := by
  decide

/-- C9 (amended).  For a store with `numReads + 1 < 2^32` and read lengths
below `UINT32_MAX`, every job's hash-side size `numHashBases` is the sum of
`length + 1` over the included reads of its hash range; the greedy scan stops
as soon as that sum reaches `ovlHashBlockLength`, so the size of every proper
prefix `hashBeg .. e` of the range is below `ovlHashBlockLength`, and with a
positive block length the size of the whole range exceeds the block length by
less than the size of its last read. -/
theorem hash_size_overshoot (p : Params) (fuel : Nat) (hwf : p.numReads + 1 < u32)
    (hrl : ∀ l ∈ p.readLen, l + 1 < u32) (j : Job) (hj : j ∈ (partitionLength p fuel).1) :
    j.numHashBases = sizeFrom p.readLen p.minOverlapLength j.hashBeg
      (j.hashEnd + 1 - j.hashBeg) ∧
    (∀ e, j.hashBeg ≤ e → e < j.hashEnd →
      sizeFrom p.readLen p.minOverlapLength j.hashBeg (e + 1 - j.hashBeg) <
        p.ovlHashBlockLength) ∧
    (0 < p.ovlHashBlockLength →
      j.numHashBases < p.ovlHashBlockLength + (p.readLen.getD j.hashEnd 0 + 1)) := by
  obtain ⟨h1, _, h3⟩ := job_hash_sums p fuel hwf hrl j hj
  obtain ⟨_, h5, _⟩ := job_hash_bounds p fuel hwf j hj
  refine ⟨h1, h3, ?_⟩
  intro hpos
  rw [h1]
  obtain ⟨d, hd⟩ : ∃ d, j.hashEnd = j.hashBeg + d := ⟨j.hashEnd - j.hashBeg, by omega⟩
  rw [show j.hashEnd + 1 - j.hashBeg = d + 1 by omega]
  simp only [sizeFrom]
  rw [← hd]
  have hpre : sizeFrom p.readLen p.minOverlapLength j.hashBeg d < p.ovlHashBlockLength := by
    cases d with
    | zero => simpa [sizeFrom] using hpos
    | succ k =>
      have := h3 (j.hashBeg + k) (by omega) (by omega)
      rwa [show j.hashBeg + k + 1 - j.hashBeg = k + 1 by omega] at this
  split <;> omega

/-- Witness for C9 (amended): the first job of the scenario of the specification. -/
theorem hash_size_overshoot_witness :
    (specScenario.numReads + 1 < u32 ∧ (∀ l ∈ specScenario.readLen, l + 1 < u32) ∧
      specFirstJob ∈ (partitionLength specScenario 11).1) ∧
    (specFirstJob.numHashBases = sizeFrom specScenario.readLen specScenario.minOverlapLength
      specFirstJob.hashBeg (specFirstJob.hashEnd + 1 - specFirstJob.hashBeg) ∧
    (∀ e, specFirstJob.hashBeg ≤ e → e < specFirstJob.hashEnd →
      sizeFrom specScenario.readLen specScenario.minOverlapLength specFirstJob.hashBeg
        (e + 1 - specFirstJob.hashBeg) < specScenario.ovlHashBlockLength) ∧
    (0 < specScenario.ovlHashBlockLength →
      specFirstJob.numHashBases <
        specScenario.ovlHashBlockLength +
          (specScenario.readLen.getD specFirstJob.hashEnd 0 + 1))) :=
  ⟨by decide, hash_size_overshoot specScenario 11 (by decide) (by decide) specFirstJob
    (by decide)⟩

/-- C10 as the claim states it fails in both directions: in the scenario of the
specification the hash role set is empty and every options line has
`--hashstrings`; in `shortReadScenario` the hash role set is not empty and the
only options line has neither `--hashstrings` nor `--hashdatalen`. -/
theorem opt_line_counterexample :
    specScenario.libToHash = ∅ ∧
    (partitionLength specScenario 11).1.map (fun j => j.opt) =
      ["-h 1-3 -r 1-3 --hashstrings 3 --hashdatalen 303\n",
       "-h 4-6 -r 1-3 --hashstrings 3 --hashdatalen 303\n",
       "-h 4-6 -r 4-6 --hashstrings 3 --hashdatalen 303\n",
       "-h 7-9 -r 1-3 --hashstrings 3 --hashdatalen 303\n",
       "-h 7-9 -r 4-6 --hashstrings 3 --hashdatalen 303\n",
       "-h 7-9 -r 7-9 --hashstrings 3 --hashdatalen 303\n"] ∧
    shortReadScenario.libToHash ≠ ∅ ∧
    (partitionLength shortReadScenario 11).1.map (fun j => j.opt) = ["-h 1-10 -r 1-10\n"] := by
  decide

/-- C10 (amended).  The options line of every job begins with the hash ID
range and the reference ID range, `-h hashBeg-hashEnd -r refBeg-refEnd`; it
contains `--hashstrings` and `--hashdatalen` if and only if the job's hash
read count `numHashReads` is not zero, and then it ends with
` --hashstrings numHashReads --hashdatalen numHashBases`. -/
theorem opt_line_content (p : Params) (fuel : Nat) (j : Job)
    (hj : j ∈ (partitionLength p fuel).1) :
    ("-h " ++ toString j.hashBeg ++ "-" ++ toString j.hashEnd ++ " -r " ++
      toString j.refBeg ++ "-" ++ toString j.refEnd).data <+: j.opt.data ∧
    ("--hashstrings".data <:+: j.opt.data ↔ j.numHashReads ≠ 0) ∧
    ("--hashdatalen".data <:+: j.opt.data ↔ j.numHashReads ≠ 0) ∧
    (j.numHashReads ≠ 0 →
      (" --hashstrings " ++ toString j.numHashReads ++ " --hashdatalen " ++
        toString j.numHashBases ++ "\n").data <:+ j.opt.data) := by
  rw [job_opt p fuel j hj]
  refine ⟨optLine_ranges _ _ _ _ _ _, ?_, ?_, optLine_tail _ _ _ _ _ _⟩
  · apply optLine_infix_iff _ (by decide)
    intro h
    refine List.IsInfix.trans ?_ (optLine_tail _ _ _ _ _ _ h).isInfix
    exact ⟨" ".data, (" " ++ toString j.numHashReads ++ " --hashdatalen " ++
      toString j.numHashBases ++ "\n").data, by
        simp only [String.data_append, List.append_assoc]; rfl⟩
  · apply optLine_infix_iff _ (by decide)
    intro h
    refine List.IsInfix.trans ?_ (optLine_tail _ _ _ _ _ _ h).isInfix
    exact ⟨(" --hashstrings " ++ toString j.numHashReads ++ " ").data,
      (" " ++ toString j.numHashBases ++ "\n").data, by
        simp only [String.data_append, List.append_assoc]; rfl⟩

/-- Witness for C10 (amended): the first job of the scenario of the specification. -/
theorem opt_line_content_witness :
    specFirstJob ∈ (partitionLength specScenario 11).1 ∧
    (("-h " ++ toString specFirstJob.hashBeg ++ "-" ++ toString specFirstJob.hashEnd ++ " -r " ++
      toString specFirstJob.refBeg ++ "-" ++ toString specFirstJob.refEnd).data <+:
        specFirstJob.opt.data ∧
    ("--hashstrings".data <:+: specFirstJob.opt.data ↔ specFirstJob.numHashReads ≠ 0) ∧
    ("--hashdatalen".data <:+: specFirstJob.opt.data ↔ specFirstJob.numHashReads ≠ 0) ∧
    (specFirstJob.numHashReads ≠ 0 →
      (" --hashstrings " ++ toString specFirstJob.numHashReads ++ " --hashdatalen " ++
        toString specFirstJob.numHashBases ++ "\n").data <:+ specFirstJob.opt.data)) :=
  ⟨by decide, opt_line_content specScenario 11 specFirstJob (by decide)⟩

/-- C7 as the claim states it fails once the `uint32` batch name wraps: the run
of `unitScenario 2097154` (2097154 reads of length 1, block lengths 1) emits
more than 4294967295000 jobs, and the job number `k = 4294967295001` is written
with batch ID 0, whereas `1 + floor((k - 1) / 1000) = 4294967296`. -/
theorem batch_names_counterexample :
    ∃ j, (partitionLength (unitScenario 2097154) (2097154 + 1)).1[4294967295000]? = some j ∧
      j.batchName = 0 := by
  obtain ⟨j, hj⟩ := unitScenario_getElem 2097154 4294967295000 (by unfold u32; norm_num)
    (by norm_num) (by norm_num)
  refine ⟨j, hj, ?_⟩
  rw [(partitionLength_names _ _ _ j hj).1]
  unfold batchMax u32
  norm_num

/-- C7 (amended).  The job at position `i` (counted from 0; the job number
`k = i + 1`) of every run is written with the batch ID
`(1 + floor(i / 1000)) mod 2^32`, which is `1 + floor((k - 1) / 1000)` as long
as that number is below `2^32`.  In particular the first 1000 jobs are written
with batch ID 1, the next 1000 with batch ID 2 and the job number 2001 with
batch ID 3. -/
theorem batch_names (p : Params) (fuel i : Nat) (j : Job)
    (h : (partitionLength p fuel).1[i]? = some j) :
    j.batchName = (1 + i / batchMax) % u32 ∧
    (1 + i / batchMax < u32 → j.batchName = 1 + i / batchMax) ∧
    (i < 1000 → j.batchName = 1) ∧
    (1000 ≤ i → i < 2000 → j.batchName = 2) ∧
    (2000 ≤ i → i < 3000 → j.batchName = 3) := by
  have h1 := (partitionLength_names p fuel i j h).1
  rw [h1]
  unfold batchMax u32
  refine ⟨rfl, ?_, ?_, ?_, ?_⟩ <;> intros <;> omega

/-- Witness for C7 (amended): the third job of the scenario of the
specification, and the jobs number 1000, 1001, 2000 and 2001 of the 2025 jobs
of `unitScenario 46`, which are written with the batch IDs 1, 2, 2 and 3. -/
theorem batch_names_witness :
    (partitionLength specScenario 11).1[2]? = some specThirdJob ∧
    (specThirdJob.batchName = (1 + 2 / batchMax) % u32 ∧
      (1 + 2 / batchMax < u32 → specThirdJob.batchName = 1 + 2 / batchMax) ∧
      (2 < 1000 → specThirdJob.batchName = 1) ∧
      (1000 ≤ 2 → 2 < 2000 → specThirdJob.batchName = 2) ∧
      (2000 ≤ 2 → 2 < 3000 → specThirdJob.batchName = 3)) ∧
    ((partitionLength (unitScenario 46) (46 + 1)).1[999]?).map (fun j => j.batchName) = some 1 ∧
    ((partitionLength (unitScenario 46) (46 + 1)).1[1000]?).map (fun j => j.batchName) = some 2 ∧
    ((partitionLength (unitScenario 46) (46 + 1)).1[1999]?).map (fun j => j.batchName) = some 2 ∧
    ((partitionLength (unitScenario 46) (46 + 1)).1[2000]?).map (fun j => j.batchName) =
      some 3 := by
  refine ⟨by decide, batch_names specScenario 11 2 specThirdJob (by decide), ?_, ?_, ?_, ?_⟩
  · obtain ⟨j, hj⟩ := unitScenario_getElem 46 999 (by unfold u32; norm_num)
      (by norm_num) (by norm_num)
    rw [hj, Option.map_some', (batch_names _ _ _ j hj).2.2.1 (by norm_num)]
  · obtain ⟨j, hj⟩ := unitScenario_getElem 46 1000 (by unfold u32; norm_num)
      (by norm_num) (by norm_num)
    rw [hj, Option.map_some', (batch_names _ _ _ j hj).2.2.2.1 (by norm_num) (by norm_num)]
  · obtain ⟨j, hj⟩ := unitScenario_getElem 46 1999 (by unfold u32; norm_num)
      (by norm_num) (by norm_num)
    rw [hj, Option.map_some', (batch_names _ _ _ j hj).2.2.2.1 (by norm_num) (by norm_num)]
  · obtain ⟨j, hj⟩ := unitScenario_getElem 46 2000 (by unfold u32; norm_num)
      (by norm_num) (by norm_num)
    rw [hj, Option.map_some', (batch_names _ _ _ j hj).2.2.2.2 (by norm_num) (by norm_num)]

/-- C8 as the claim states it fails once the `uint32` job name wraps: the run of
`unitScenario 65538` (65538 reads of length 1, block lengths 1) emits more
than `2^32` jobs; its first job carries the job ID 1 and so does the job
number 4294967297. -/
theorem job_names_counterexample :
    ∃ j0 j, (partitionLength (unitScenario 65538) (65538 + 1)).1[0]? = some j0 ∧
      (partitionLength (unitScenario 65538) (65538 + 1)).1[4294967296]? = some j ∧
      j0.jobName = 1 ∧ j.jobName = 1 := by
  obtain ⟨j0, hj0⟩ := unitScenario_getElem 65538 0 (by unfold u32; norm_num)
    (by norm_num) (by norm_num)
  obtain ⟨j, hj⟩ := unitScenario_getElem 65538 4294967296 (by unfold u32; norm_num)
    (by norm_num) (by norm_num)
  refine ⟨j0, j, hj0, hj, ?_, ?_⟩
  · rw [(partitionLength_names _ _ _ j0 hj0).2]; unfold u32; norm_num
  · rw [(partitionLength_names _ _ _ j hj).2]; unfold u32; norm_num

/-- C8 (amended).  The job at position `i` (counted from 0; the job number
`k = i + 1`) of every run carries the job ID `k mod 2^32`, whatever the batch
it falls in.  Among the first `2^32 - 1` jobs the job number `k` carries the
job ID `k`, so there the job IDs increase by exactly 1 from job to job and do
not repeat. -/
theorem job_names_sequential (p : Params) (fuel i : Nat) (j : Job)
    (h : (partitionLength p fuel).1[i]? = some j) :
    j.jobName = (i + 1) % u32 ∧
    (i + 1 < u32 → j.jobName = i + 1) ∧
    (∀ i1 j1, (partitionLength p fuel).1[i1]? = some j1 → i < i1 → i1 + 1 < u32 →
      j.jobName < j1.jobName) := by
  have h1 := (partitionLength_names p fuel i j h).2
  refine ⟨by rw [h1, Nat.add_comm], ?_, ?_⟩
  · intro hi
    rw [h1, Nat.add_comm]
    exact Nat.mod_eq_of_lt hi
  · intro i1 j1 hj1 hlt hi1
    have h2 := (partitionLength_names p fuel i1 j1 hj1).2
    rw [h1, h2]
    unfold u32 at *
    omega

/-- Witness for C8 (amended): the third job of the scenario of the
specification carries the job ID 3. -/
theorem job_names_sequential_witness :
    (partitionLength specScenario 11).1[2]? = some specThirdJob ∧
    (specThirdJob.jobName = (2 + 1) % u32 ∧
    (2 + 1 < u32 → specThirdJob.jobName = 2 + 1) ∧
    (∀ i1 j1, (partitionLength specScenario 11).1[i1]? = some j1 → 2 < i1 → i1 + 1 < u32 →
      specThirdJob.jobName < j1.jobName)) :=
  ⟨by decide, job_names_sequential specScenario 11 2 specThirdJob (by decide)⟩

/-- C11.  Reported range ends are read IDs of the store: for a store with
`numReads + 1 < 2^32` and `hashMin ≥ 1`, every emitted job has
`1 ≤ hashBeg ≤ hashEnd ≤ numReads` and `1 ≤ refEnd ≤ numReads`, whatever
`hashMax` and `refMax` were passed in and whatever the lengths of the reads. -/
theorem range_ends_are_read_ids (p : Params) (fuel : Nat) (hwf : p.numReads + 1 < u32)
    (hmin : 1 ≤ p.hashMin) (j : Job) (hj : j ∈ (partitionLength p fuel).1) :
    1 ≤ j.hashBeg ∧ j.hashBeg ≤ j.hashEnd ∧ j.hashEnd ≤ p.numReads ∧
    1 ≤ j.refEnd ∧ j.refEnd ≤ p.numReads := by
  obtain ⟨h1, h2, h3⟩ := job_hash_bounds p fuel hwf j hj
  obtain ⟨_, r2, _⟩ := job_ref_bounds p fuel j hj
  have hM := hashMaxC_le_numReads p
  have hR := refMaxC_le_numReads p
  obtain ⟨re, s, hlink, hc, hscan, hend, _, _⟩ := job_ref_scan p fuel hwf j hj
  obtain ⟨_, hp1, hp2⟩ := job_ref_scan_pos p re j.refBeg j.hashEnd s fuel hwf hlink hc hscan
  have hge : 1 ≤ clampRef p j.hashEnd s.pos := by
    simp only [clampRef]
    split_ifs <;> omega
  rw [← hend] at hge
  exact ⟨by omega, h2, by omega, hge, by omega⟩

/-- Witness for C11: the last job of `mixedScenario`, where `hashMax` and
`refMax` were passed as `UINT32_MAX` and read 6, the end of both ranges, is
shorter than the minimum overlap length. -/
theorem range_ends_are_read_ids_witness :
    (mixedScenario.numReads + 1 < u32 ∧ 1 ≤ mixedScenario.hashMin ∧
      mixedLastJob ∈ (partitionLength mixedScenario 7).1) ∧
    mixedScenario.hashMax = 4294967295 ∧ mixedScenario.readLen[6]? = some 10 ∧
    mixedScenario.minOverlapLength = 50 ∧
    (1 ≤ mixedLastJob.hashBeg ∧ mixedLastJob.hashBeg ≤ mixedLastJob.hashEnd ∧
      mixedLastJob.hashEnd ≤ mixedScenario.numReads ∧
      1 ≤ mixedLastJob.refEnd ∧ mixedLastJob.refEnd ≤ mixedScenario.numReads) :=
  ⟨by decide, by decide, by decide, by decide,
    range_ends_are_read_ids mixedScenario 7 (by decide) (by decide) mixedLastJob (by decide)⟩

/-- C12.  Hash-side counts are exact: for a store with `numReads + 1 < 2^32`
and read lengths below `UINT32_MAX`, every emitted job has `numHashReads`
equal to the number of read IDs `i` in `[hashBeg, hashEnd]` with
`readLen[i] ≥ minOverlapLength`, and `numHashBases` equal to the sum of
`readLen[i] + 1` over exactly those IDs.  Shorter reads lie inside the ID
range and add nothing to either count. -/
theorem hash_counts_exact (p : Params) (fuel : Nat) (hwf : p.numReads + 1 < u32)
    (hrl : ∀ l ∈ p.readLen, l + 1 < u32) (j : Job) (hj : j ∈ (partitionLength p fuel).1) :
    j.numHashReads =
      ((Finset.Icc j.hashBeg j.hashEnd).filter
        (fun i => p.minOverlapLength ≤ p.readLen.getD i 0)).card ∧
    j.numHashBases =
      Finset.sum ((Finset.Icc j.hashBeg j.hashEnd).filter
        (fun i => p.minOverlapLength ≤ p.readLen.getD i 0))
        (fun i => p.readLen.getD i 0 + 1) :=
  job_hash_counts p fuel hwf hrl j hj

/-- Witness for C12: the first job of `mixedScenario` has the hash range 1-4,
which holds the short read 3, and counts 3 reads and 303 bytes. -/
theorem hash_counts_exact_witness :
    (mixedScenario.numReads + 1 < u32 ∧ (∀ l ∈ mixedScenario.readLen, l + 1 < u32) ∧
      mixedFirstJob ∈ (partitionLength mixedScenario 7).1) ∧
    (mixedFirstJob.numHashReads =
      ((Finset.Icc mixedFirstJob.hashBeg mixedFirstJob.hashEnd).filter
        (fun i => mixedScenario.minOverlapLength ≤ mixedScenario.readLen.getD i 0)).card ∧
    mixedFirstJob.numHashBases =
      Finset.sum ((Finset.Icc mixedFirstJob.hashBeg mixedFirstJob.hashEnd).filter
        (fun i => mixedScenario.minOverlapLength ≤ mixedScenario.readLen.getD i 0))
        (fun i => mixedScenario.readLen.getD i 0 + 1)) ∧
    mixedFirstJob.numHashReads = 3 ∧ mixedFirstJob.numHashBases = 303 :=
  ⟨by decide, hash_counts_exact mixedScenario 7 (by decide) (by decide) mixedFirstJob
    (by decide), by decide, by decide⟩

/-- C18.  Greedy stopping rule for hash ranges, for a store with
`numReads + 1 < 2^32`, read lengths below `UINT32_MAX` and a positive hash
block length (`main` refuses `ovlHashBlockLength = 0`): for every emitted job
whose hash range ends below `hashMax` (clamped to the read count), the sum of
`readLen[i] + 1` over the included reads of `[hashBeg, hashEnd]` is at least
`ovlHashBlockLength`, the read at `hashEnd` is an included read, and the same
sum over `[hashBeg, hashEnd - 1]` is below `ovlHashBlockLength`.  So a range
whose size stays below the block length ends at `hashMax`. -/
theorem hash_greedy_stop (p : Params) (fuel : Nat) (hwf : p.numReads + 1 < u32)
    (hrl : ∀ l ∈ p.readLen, l + 1 < u32) (hH : 0 < p.ovlHashBlockLength)
    (j : Job) (hj : j ∈ (partitionLength p fuel).1) :
    (j.hashEnd < p.hashMaxC →
      p.ovlHashBlockLength ≤
        Finset.sum ((Finset.Icc j.hashBeg j.hashEnd).filter
          (fun i => p.minOverlapLength ≤ p.readLen.getD i 0))
          (fun i => p.readLen.getD i 0 + 1) ∧
      p.minOverlapLength ≤ p.readLen.getD j.hashEnd 0 ∧
      Finset.sum ((Finset.Ico j.hashBeg j.hashEnd).filter
          (fun i => p.minOverlapLength ≤ p.readLen.getD i 0))
          (fun i => p.readLen.getD i 0 + 1) < p.ovlHashBlockLength) ∧
    (Finset.sum ((Finset.Icc j.hashBeg j.hashEnd).filter
          (fun i => p.minOverlapLength ≤ p.readLen.getD i 0))
          (fun i => p.readLen.getD i 0 + 1) < p.ovlHashBlockLength →
      j.hashEnd = p.hashMaxC) := by
  obtain ⟨_, h2⟩ := job_hash_counts p fuel hwf hrl j hj
  obtain ⟨g1, g2⟩ := job_hash_greedy p fuel hwf hrl hH j hj
  have hstop := job_hash_stop p fuel hwf hrl j hj
  obtain ⟨_, _, hle⟩ := job_hash_bounds p fuel hwf j hj
  have h2a : Finset.sum ((Finset.Icc j.hashBeg j.hashEnd).filter
      (fun i => p.minOverlapLength ≤ p.readLen.getD i 0))
      (fun i => p.readLen.getD i 0 + 1) = j.numHashBases := h2.symm
  have g1a : Finset.sum ((Finset.Ico j.hashBeg j.hashEnd).filter
      (fun i => p.minOverlapLength ≤ p.readLen.getD i 0))
      (fun i => p.readLen.getD i 0 + 1) < p.ovlHashBlockLength := g1
  rw [h2a]
  constructor
  · intro hend
    exact ⟨hstop hend, g2 (hstop hend), g1a⟩
  · intro hlt
    by_contra hne
    have := hstop (by omega)
    omega

/-- Witness for C18: the first job of `mixedScenario`; its hash range 1-4 ends
below `hashMax = 6` with 303 bytes, read 4 has length 100, and the reads 1-3
hold 202 bytes. -/
theorem hash_greedy_stop_witness :
    (mixedScenario.numReads + 1 < u32 ∧ (∀ l ∈ mixedScenario.readLen, l + 1 < u32) ∧
      0 < mixedScenario.ovlHashBlockLength ∧
      mixedFirstJob ∈ (partitionLength mixedScenario 7).1 ∧
      mixedFirstJob.hashEnd < mixedScenario.hashMaxC) ∧
    ((mixedFirstJob.hashEnd < mixedScenario.hashMaxC →
      mixedScenario.ovlHashBlockLength ≤
        Finset.sum ((Finset.Icc mixedFirstJob.hashBeg mixedFirstJob.hashEnd).filter
          (fun i => mixedScenario.minOverlapLength ≤ mixedScenario.readLen.getD i 0))
          (fun i => mixedScenario.readLen.getD i 0 + 1) ∧
      mixedScenario.minOverlapLength ≤ mixedScenario.readLen.getD mixedFirstJob.hashEnd 0 ∧
      Finset.sum ((Finset.Ico mixedFirstJob.hashBeg mixedFirstJob.hashEnd).filter
          (fun i => mixedScenario.minOverlapLength ≤ mixedScenario.readLen.getD i 0))
          (fun i => mixedScenario.readLen.getD i 0 + 1) <
        mixedScenario.ovlHashBlockLength) ∧
    (Finset.sum ((Finset.Icc mixedFirstJob.hashBeg mixedFirstJob.hashEnd).filter
          (fun i => mixedScenario.minOverlapLength ≤ mixedScenario.readLen.getD i 0))
          (fun i => mixedScenario.readLen.getD i 0 + 1) < mixedScenario.ovlHashBlockLength →
      mixedFirstJob.hashEnd = mixedScenario.hashMaxC)) :=
  ⟨by decide, hash_greedy_stop mixedScenario 7 (by decide) (by decide) (by decide)
    mixedFirstJob (by decide)⟩

/-- C19 as the claim states it fails: in `refOvershootScenario` (reads of length
100, reference block length 201) the first reference scan stops on size at
read 3 with `refLen = 300`, the sum of the lengths and not of `length + 1`,
and the job reports `numRefBases = 303`; taking away the last read's
`length + 1 = 101` leaves 202, which is not below the block length 201. -/
theorem ref_scan_rule_counterexample :
    refOvershootScenario.ovlRefBlockLength = 201 ∧ refOvershootScenario.refMaxC = 10 ∧
    refScan refOvershootScenario.readLen refOvershootScenario.minOverlapLength
      refOvershootScenario.ovlRefBlockLength refOvershootScenario.refMaxC 11
      { pos := 0, len := 0, reads := 0, bases := 0 } =
        .ok { pos := 3, len := 300, reads := 3, bases := 303 } ∧
    refOvershootJob ∈ (partitionLength refOvershootScenario 11).1 ∧
    refOvershootScenario.readLen[3]? = some 100 ∧
    ¬ (refOvershootJob.numRefBases - (100 + 1) < refOvershootScenario.ovlRefBlockLength) :=
  ⟨by decide, by decide, rfl, by decide, by decide, by decide⟩

/-- C19 (amended).  The reference scan does not use the accumulation rule of
the hash scan: it adds `readLen[i]`, without the `+ 1`, to `refLen` for every
included read and stops as soon as `refLen` reaches `ovlRefBlockLength` (or
`refMax` is reached), while `refBases` adds `readLen[i] + 1`.  For a store with
`numReads + 1 < 2^32`, read lengths below `UINT32_MAX` and a positive
reference block length, every job has a scanned ID range `a .. e` (`a` is the
job's `refBeg`, or read 1 for a job that begins at `refMin`; `refEnd` is `e`
clamped) such that `numRefReads` and `numRefBases` are the number and the sum
of `length + 1` of the included reads of `a .. e`, `numRefBases` is their
number of bases plus `numRefReads`, the bases of the included reads of
`a .. e - 1` are below `ovlRefBlockLength`, the scan stopped because the bases
of `a .. e` reached `ovlRefBlockLength` or `e = refMax`, and when it stopped
on size the read at `e` is included and
`numRefBases - numRefReads - readLen[e] < ovlRefBlockLength`. -/
theorem ref_scan_rule (p : Params) (fuel : Nat) (hwf : p.numReads + 1 < u32)
    (hrl : ∀ l ∈ p.readLen, l + 1 < u32) (hR : 0 < p.ovlRefBlockLength)
    (j : Job) (hj : j ∈ (partitionLength p fuel).1) :
    ∃ a e, ((a = 1 ∧ j.refBeg = p.refMin) ∨ a = j.refBeg) ∧ a ≤ e ∧ e ≤ p.refMaxC ∧
      j.refEnd = clampRef p j.hashEnd e ∧
      j.numRefReads = readCount p.readLen p.minOverlapLength (Finset.Icc a e) ∧
      j.numRefBases = readBytes p.readLen p.minOverlapLength (Finset.Icc a e) ∧
      j.numRefBases = readBases p.readLen p.minOverlapLength (Finset.Icc a e) +
        j.numRefReads ∧
      readBases p.readLen p.minOverlapLength (Finset.Ico a e) < p.ovlRefBlockLength ∧
      (p.ovlRefBlockLength ≤ readBases p.readLen p.minOverlapLength (Finset.Icc a e) ∨
        e = p.refMaxC) ∧
      (p.ovlRefBlockLength ≤ readBases p.readLen p.minOverlapLength (Finset.Icc a e) →
        p.minOverlapLength ≤ p.readLen.getD e 0 ∧
        j.numRefBases < p.ovlRefBlockLength + j.numRefReads + p.readLen.getD e 0) := by
  obtain ⟨a, e, hlink, hae, hem, hend, hcnt, hsz, hpre, hstop⟩ :=
    job_ref_sums p fuel hwf hrl j hj
  obtain ⟨d, hd⟩ : ∃ d, e = a + d := ⟨e - a, by omega⟩
  have hn : e + 1 - a = d + 1 := by omega
  rw [hn] at hcnt hsz hstop
  have hprefix : lenFrom p.readLen p.minOverlapLength a d < p.ovlRefBlockLength := by
    cases d with
    | zero => simpa [lenFrom] using hR
    | succ k =>
      have := hpre (a + k) (by omega) (by omega)
      rwa [show a + k + 1 - a = k + 1 by omega] at this
  have hIcc : Finset.Ico a (a + (d + 1)) = Finset.Icc a e := by
    rw [← hn]; exact Ico_eq_Icc a e hae
  have hsplit := sizeFrom_eq_lenFrom_add p.readLen p.minOverlapLength a (d + 1)
  have e1 := countFrom_eq_readCount p.readLen p.minOverlapLength a (d + 1)
  have e2 := sizeFrom_eq_readBytes p.readLen p.minOverlapLength a (d + 1)
  have e3 := lenFrom_eq_readBases p.readLen p.minOverlapLength a (d + 1)
  have e4 := lenFrom_eq_readBases p.readLen p.minOverlapLength a d
  rw [hIcc] at e1 e2 e3
  rw [← hd] at e4
  have hlast : lenFrom p.readLen p.minOverlapLength a (d + 1) =
      lenFrom p.readLen p.minOverlapLength a d +
        (if p.readLen.getD e 0 < p.minOverlapLength then 0 else p.readLen.getD e 0) := by
    rw [hd]; rfl
  refine ⟨a, e, hlink, hae, hem, hend, ?_, ?_, ?_, ?_, ?_, ?_⟩
  · rw [hcnt, e1]
  · rw [hsz, e2]
  · rw [hsz, hcnt, hsplit, e3]
  · rw [← e4]; exact hprefix
  · rw [← e3]; exact hstop
  · rw [← e3]
    intro hge
    constructor
    · by_contra hcon
      rw [hlast, if_pos (by omega)] at hge
      omega
    · rw [hsz, hcnt, hsplit, hlast]
      split <;> omega

/-- Witness for C19 (amended): the first job of `refOvershootScenario`. -/
theorem ref_scan_rule_witness :
    (refOvershootScenario.numReads + 1 < u32 ∧
      (∀ l ∈ refOvershootScenario.readLen, l + 1 < u32) ∧
      0 < refOvershootScenario.ovlRefBlockLength ∧
      refOvershootJob ∈ (partitionLength refOvershootScenario 11).1) ∧
    ∃ a e, ((a = 1 ∧ refOvershootJob.refBeg = refOvershootScenario.refMin) ∨
        a = refOvershootJob.refBeg) ∧ a ≤ e ∧ e ≤ refOvershootScenario.refMaxC ∧
      refOvershootJob.refEnd = clampRef refOvershootScenario refOvershootJob.hashEnd e ∧
      refOvershootJob.numRefReads = readCount refOvershootScenario.readLen
        refOvershootScenario.minOverlapLength (Finset.Icc a e) ∧
      refOvershootJob.numRefBases = readBytes refOvershootScenario.readLen
        refOvershootScenario.minOverlapLength (Finset.Icc a e) ∧
      refOvershootJob.numRefBases = readBases refOvershootScenario.readLen
        refOvershootScenario.minOverlapLength (Finset.Icc a e) +
          refOvershootJob.numRefReads ∧
      readBases refOvershootScenario.readLen refOvershootScenario.minOverlapLength
        (Finset.Ico a e) < refOvershootScenario.ovlRefBlockLength ∧
      (refOvershootScenario.ovlRefBlockLength ≤ readBases refOvershootScenario.readLen
          refOvershootScenario.minOverlapLength (Finset.Icc a e) ∨
        e = refOvershootScenario.refMaxC) ∧
      (refOvershootScenario.ovlRefBlockLength ≤ readBases refOvershootScenario.readLen
          refOvershootScenario.minOverlapLength (Finset.Icc a e) →
        refOvershootScenario.minOverlapLength ≤ refOvershootScenario.readLen.getD e 0 ∧
        refOvershootJob.numRefBases <
          refOvershootScenario.ovlRefBlockLength + refOvershootJob.numRefReads +
            refOvershootScenario.readLen.getD e 0) :=
  ⟨by decide, ref_scan_rule refOvershootScenario 11 (by decide) (by decide) (by decide)
    refOvershootJob (by decide)⟩

/-- C20 fails on the code: in `wideRefScenario` (reads of length 100, reference
block length 350, both role sets empty) the first job is emitted with the
reference range 1-3, cut at the hash end, but with the counts of the four
reads the scan went through, 4 reads and 404 bytes; the reported range 1-3
holds 3 included reads and 303 bytes. -/
theorem ref_counts_mismatch :
    wideRefJob ∈ (partitionLength wideRefScenario 11).1 ∧
    wideRefJob.refBeg = 1 ∧ wideRefJob.refEnd = 3 ∧
    wideRefJob.numRefReads = 4 ∧ wideRefJob.numRefBases = 404 ∧
    readCount wideRefScenario.readLen wideRefScenario.minOverlapLength
      (Finset.Icc wideRefJob.refBeg wideRefJob.refEnd) = 3 ∧
    readBytes wideRefScenario.readLen wideRefScenario.minOverlapLength
      (Finset.Icc wideRefJob.refBeg wideRefJob.refEnd) = 303 := by
  decide

/-- C13.  `gkStore_readInPartition(id)`: when the store holds no partition map
it returns true for every `id`; when a partition map is loaded it returns true
if and only if the partition the map assigns to `id` equals the `_partitionID`
of this instance. -/
theorem readInPartition_spec (gkp : GkStore) (id : Nat) :
    (gkp.readIDtoPartitionID = none → gkStore_readInPartition gkp id = some true) ∧
    (∀ m pid, gkp.readIDtoPartitionID = some m → m[id]? = some pid →
      (gkStore_readInPartition gkp id = some true ↔ pid = gkp.partitionID) ∧
      (gkStore_readInPartition gkp id = some false ↔ pid ≠ gkp.partitionID)) := by
  constructor
  · intro h
    simp [gkStore_readInPartition, h]
  · intro m pid hm hpid
    simp [gkStore_readInPartition, hm, hpid]

/-- Witness for C13: every read of `plainStore` is in the partition; of
`partitionedStore`, opened as partition 2, read 1 is in the partition and read
2, assigned to partition 1, is not. -/
theorem readInPartition_spec_witness :
    (plainStore.readIDtoPartitionID = none ∧
      gkStore_readInPartition plainStore 2 = some true) ∧
    (partitionedStore.readIDtoPartitionID = some [0, 2, 1, 2] ∧
      ([0, 2, 1, 2] : List Nat)[1]? = some 2 ∧
      (gkStore_readInPartition partitionedStore 1 = some true ↔
        2 = partitionedStore.partitionID) ∧
      (gkStore_readInPartition partitionedStore 1 = some false ↔
        2 ≠ partitionedStore.partitionID)) ∧
    gkStore_readInPartition partitionedStore 1 = some true ∧
    gkStore_readInPartition partitionedStore 2 = some false :=
  ⟨⟨rfl, (readInPartition_spec plainStore 2).1 rfl⟩,
    ⟨rfl, rfl, (readInPartition_spec partitionedStore 1).2 [0, 2, 1, 2] 2 rfl rfl⟩,
    by decide, by decide⟩

/-- C16.  Dense-ID check in `loadReadLengths`: for a store whose counts fit the
32-bit counters and whose reads name existing libraries, `loadReadLengths`
returns the length array if and only if every read `ii` in `1..numReads`
reports `readID == ii`; at the first read whose ID differs from its index the
line `ERROR: readID=... != ii=...` is written and the run stops on the failed
assertion. -/
theorem dense_id_check (gkp : GkStore) (H : Finset Nat) (hashMin hashMax : Nat)
    (R : Finset Nat) (refMin refMax fuel : Nat)
    (hN : gkp.numReads + 1 < u32) (hL : gkp.numLibraries + 1 < u32)
    (hlib : ∀ ii, 1 ≤ ii → ii ≤ gkp.numReads →
      (gkp.getRead ii).libraryID ≤ gkp.numLibraries)
    (hf1 : gkp.numLibraries + 2 ≤ fuel) (hf2 : gkp.numReads + 1 ≤ fuel) :
    ((∃ r, (loadReadLengths gkp H hashMin hashMax R refMin refMax fuel).2 = .ok r) ↔
      ∀ ii, 1 ≤ ii → ii ≤ gkp.numReads → (gkp.getRead ii).readID = ii) ∧
    ((∀ ii, 1 ≤ ii → ii ≤ gkp.numReads → (gkp.getRead ii).readID = ii) →
      (loadReadLengths gkp H hashMin hashMax R refMin refMax fuel).1 = []) ∧
    (∀ m, 1 ≤ m → m ≤ gkp.numReads → (gkp.getRead m).readID ≠ m →
      (∀ ii, 1 ≤ ii → ii < m → (gkp.getRead ii).readID = ii) →
      loadReadLengths gkp H hashMin hashMax R refMin refMax fuel =
        ([((gkp.getRead m).readID, m)], .error .assertFailed)) := by
  refine ⟨⟨?_, ?_⟩, ?_, ?_⟩
  · exact loadReadLengths_dense gkp H hashMin hashMax R refMin refMax fuel hN hL hlib hf1 hf2
  · intro hid
    obtain ⟨r, e, _⟩ := loadReadLengths_ok gkp H hashMin hashMax R refMin refMax fuel
      hN hL hlib hf1 hf2 hid
    exact ⟨r, by rw [e]⟩
  · intro hid
    obtain ⟨r, e, _⟩ := loadReadLengths_ok gkp H hashMin hashMax R refMin refMax fuel
      hN hL hlib hf1 hf2 hid
    rw [e]
  · intro m hm1 hm2 hbad hid
    exact loadReadLengths_abort gkp H hashMin hashMax R refMin refMax fuel m
      hN hL hlib hf1 hf2 hm1 hm2 hbad hid

/-- Witness for C16: `plainStore` has dense IDs and is loaded; in `brokenStore`
read 2 reports the ID 7, which is written as an error before the run stops. -/
theorem dense_id_check_witness :
    (plainStore.numReads + 1 < u32 ∧ plainStore.numLibraries + 1 < u32 ∧
      ∃ r, (loadReadLengths plainStore {1} 1 4294967295 ∅ 1 4294967295 5).2 = .ok r) ∧
    (brokenStore.getRead 2).readID ≠ 2 ∧
    loadReadLengths brokenStore {1} 1 4294967295 ∅ 1 4294967295 5 =
      ([((brokenStore.getRead 2).readID, 2)], .error .assertFailed) ∧
    loadReadLengths brokenStore {1} 1 4294967295 ∅ 1 4294967295 5 =
      ([(7, 2)], .error .assertFailed) :=
  ⟨⟨by decide, by decide,
      (dense_id_check plainStore {1} 1 4294967295 ∅ 1 4294967295 5 (by decide) (by decide)
        (fun _ _ _ => le_refl 1) (by decide) (by decide)).1.2 (fun _ _ _ => rfl)⟩,
    by decide,
    (dense_id_check brokenStore {1} 1 4294967295 ∅ 1 4294967295 5 (by decide) (by decide)
        (fun _ _ _ => le_refl 1) (by decide) (by decide)).2.2 2 (by decide) (by decide)
      (by decide)
      (fun ii h1 h2 => by
        show (if ii = 2 then 7 else ii) = ii
        rw [if_neg (by omega)]),
    rfl⟩

/-- C17.  Role bounds computed by `loadReadLengths`, for a store with dense read
IDs: the call returns; if the hash role set is non-empty and at least one read
belongs to a library in it, the returned `hashMin` and `hashMax` are the
smallest and the largest read ID whose library is in the set; if the hash role
set is empty, `hashMin` and `hashMax` are left as passed in; the same holds for
`refMin`, `refMax` and the reference role set; and `readLen[ii]` is the
`sequenceLength` of read `ii` for every `ii` in `1..numReads`, with
`readLen[0] = 0`. -/
theorem role_bounds_computed (gkp : GkStore) (H : Finset Nat) (hashMin hashMax : Nat)
    (R : Finset Nat) (refMin refMax fuel : Nat)
    (hN : gkp.numReads + 1 < u32) (hL : gkp.numLibraries + 1 < u32)
    (hlib : ∀ ii, 1 ≤ ii → ii ≤ gkp.numReads →
      (gkp.getRead ii).libraryID ≤ gkp.numLibraries)
    (hf1 : gkp.numLibraries + 2 ≤ fuel) (hf2 : gkp.numReads + 1 ≤ fuel)
    (hid : ∀ ii, 1 ≤ ii → ii ≤ gkp.numReads → (gkp.getRead ii).readID = ii) :
    ∃ r, loadReadLengths gkp H hashMin hashMax R refMin refMax fuel = ([], .ok r) ∧
      (H.Nonempty → (∃ ii, 1 ≤ ii ∧ ii ≤ gkp.numReads ∧ (gkp.getRead ii).libraryID ∈ H) →
        IsLeast {ii | 1 ≤ ii ∧ ii ≤ gkp.numReads ∧ (gkp.getRead ii).libraryID ∈ H}
          r.hashMin ∧
        IsGreatest {ii | 1 ≤ ii ∧ ii ≤ gkp.numReads ∧ (gkp.getRead ii).libraryID ∈ H}
          r.hashMax) ∧
      (H = ∅ → r.hashMin = hashMin ∧ r.hashMax = hashMax) ∧
      (R.Nonempty → (∃ ii, 1 ≤ ii ∧ ii ≤ gkp.numReads ∧ (gkp.getRead ii).libraryID ∈ R) →
        IsLeast {ii | 1 ≤ ii ∧ ii ≤ gkp.numReads ∧ (gkp.getRead ii).libraryID ∈ R}
          r.refMin ∧
        IsGreatest {ii | 1 ≤ ii ∧ ii ≤ gkp.numReads ∧ (gkp.getRead ii).libraryID ∈ R}
          r.refMax) ∧
      (R = ∅ → r.refMin = refMin ∧ r.refMax = refMax) ∧
      r.readLen.length = gkp.numReads + 1 ∧ r.readLen[0]? = some 0 ∧
      (∀ ii, 1 ≤ ii → ii ≤ gkp.numReads →
        r.readLen[ii]? = some (gkp.getRead ii).sequenceLength) := by
  obtain ⟨r, e, hlen, h0, hall, hbh, hbr⟩ := loadReadLengths_ok gkp H hashMin hashMax R
    refMin refMax fuel hN hL hlib hf1 hf2 hid
  refine ⟨r, e, ?_, ?_, ?_, ?_, hlen, h0, hall⟩
  · intro hne hex
    exact roleBounds_extremes _ _ _ _ _ _ _ hbh
      (decide_eq_true (Finset.card_pos.mpr hne)) hex
  · intro hem
    exact hbh.1 (by simp [hem])
  · intro hne hex
    exact roleBounds_extremes _ _ _ _ _ _ _ hbr
      (decide_eq_true (Finset.card_pos.mpr hne)) hex
  · intro hem
    exact hbr.1 (by simp [hem])

/-- Witness for C17: `twoLibraryStore` with hash role set `{2}` and no reference
role set; the bounds of the hash role become 3 and 5, those of the reference
role stay 1 and `UINT32_MAX`. -/
theorem role_bounds_computed_witness :
    loadReadLengths twoLibraryStore {2} 1 4294967295 ∅ 1 4294967295 6 =
      ([], .ok { readLen := [0, 100, 200, 300, 400, 500], hashMin := 3, hashMax := 5,
                 refMin := 1, refMax := 4294967295 }) ∧
    ∃ r, loadReadLengths twoLibraryStore {2} 1 4294967295 ∅ 1 4294967295 6 = ([], .ok r) ∧
      (({2} : Finset Nat).Nonempty →
        (∃ ii, 1 ≤ ii ∧ ii ≤ twoLibraryStore.numReads ∧
          (twoLibraryStore.getRead ii).libraryID ∈ ({2} : Finset Nat)) →
        IsLeast {ii | 1 ≤ ii ∧ ii ≤ twoLibraryStore.numReads ∧
          (twoLibraryStore.getRead ii).libraryID ∈ ({2} : Finset Nat)} r.hashMin ∧
        IsGreatest {ii | 1 ≤ ii ∧ ii ≤ twoLibraryStore.numReads ∧
          (twoLibraryStore.getRead ii).libraryID ∈ ({2} : Finset Nat)} r.hashMax) ∧
      (({2} : Finset Nat) = ∅ → r.hashMin = 1 ∧ r.hashMax = 4294967295) ∧
      ((∅ : Finset Nat).Nonempty →
        (∃ ii, 1 ≤ ii ∧ ii ≤ twoLibraryStore.numReads ∧
          (twoLibraryStore.getRead ii).libraryID ∈ (∅ : Finset Nat)) →
        IsLeast {ii | 1 ≤ ii ∧ ii ≤ twoLibraryStore.numReads ∧
          (twoLibraryStore.getRead ii).libraryID ∈ (∅ : Finset Nat)} r.refMin ∧
        IsGreatest {ii | 1 ≤ ii ∧ ii ≤ twoLibraryStore.numReads ∧
          (twoLibraryStore.getRead ii).libraryID ∈ (∅ : Finset Nat)} r.refMax) ∧
      ((∅ : Finset Nat) = ∅ → r.refMin = 1 ∧ r.refMax = 4294967295) ∧
      r.readLen.length = twoLibraryStore.numReads + 1 ∧ r.readLen[0]? = some 0 ∧
      (∀ ii, 1 ≤ ii → ii ≤ twoLibraryStore.numReads →
        r.readLen[ii]? = some (twoLibraryStore.getRead ii).sequenceLength) :=
  ⟨rfl,
    role_bounds_computed twoLibraryStore {2} 1 4294967295 ∅ 1 4294967295 6
      (by decide) (by decide)
      (fun ii _ _ => by
        show (if ii ≤ 2 then 1 else 2) ≤ 2
        split_ifs <;> omega)
      (by decide) (by decide) (fun _ _ _ => rfl)⟩

/-- C14 fails for library ID 0: with `-H 0` on `twoLibraryStore` (libraries 1
and 2) no ID is reported as invalid, `main` goes on to `loadReadLengths`
(which finds no read of library 0) and to `partitionLength`, and ends with
`exit(0)` and an empty job list instead of failing. -/
theorem zero_library_accepted :
    0 ∈ zeroLibraryOptions.libToHash ∧ twoLibraryStore.numLibraries = 2 ∧
    (main (fun _ => twoLibraryStore) zeroLibraryOptions 10).exit = .success ∧
    (main (fun _ => twoLibraryStore) zeroLibraryOptions 10).invalidHash = ∅ ∧
    (main (fun _ => twoLibraryStore) zeroLibraryOptions 10).notMentioned = [] ∧
    (main (fun _ => twoLibraryStore) zeroLibraryOptions 10).jobs = [] ∧
    loadReadLengths twoLibraryStore {0} 1 (u32 - 1) ∅ 1 (u32 - 1) 10 =
      ([], .ok { readLen := [0, 100, 200, 300, 400, 500], hashMin := 4294967295,
                 hashMax := 0, refMin := 1, refMax := 4294967295 }) :=
  ⟨by decide, rfl, by decide, by decide, by decide, by decide, rfl⟩

/-- C15 as the claim states it fails when the 32-bit error counter wraps: on
`twoLibraryStore` with the libraries `3 .. 2147483649` named in both roles and
the check enabled, both sets are non-empty and libraries 1 and 2 belong to
neither; `2^32` errors are counted and `main` does not stop at the library
checks. -/
theorem coverage_check_counterexample :
    (manyLibrariesOptions 2147483649).libToHash.Nonempty ∧
    (manyLibrariesOptions 2147483649).libToRef.Nonempty ∧
    1 ∉ (manyLibrariesOptions 2147483649).libToHash ∧
    1 ∉ (manyLibrariesOptions 2147483649).libToRef ∧
    (main (fun _ => twoLibraryStore) (manyLibrariesOptions 2147483649) 10).notMentioned
      = [1, 2] ∧
    (main (fun _ => twoLibraryStore) (manyLibrariesOptions 2147483649) 10).exit ≠
      .invalidLibraries :=
  main_many_wraps 2147483649 (by decide)

/-- C15 (amended).  Coverage check in `main`, for a run that passes the usage
checks on a store with fewer than `2^32 - 1` libraries.  When both role sets
are non-empty and the check is enabled, every library in `1..numLibs` that
belongs to neither set is reported as an error and counted, and `main` fails
with no job written exactly when the 32-bit sum of these errors and of the IDs
above `numLibs` is non-zero; so it fails whenever some library is in neither set
and fewer than `2^32` errors are counted.  When the check is disabled (`-C`)
these libraries are only reported as warnings.  When the check is disabled, a
role set is empty, or every library is in a set, `main` fails at the library
checks exactly when the 32-bit count of IDs above `numLibs` is non-zero, and
nothing is reported as an error by the coverage check. -/
theorem coverage_check (gkStore_open : String → GkStore) (o : Options) (fuel : Nat)
    (name : String) (hname : o.gkpStoreName = some name) (hu : o.unknownOptions = 0)
    (hH : 0 < o.ovlHashBlockLength) (hR : 0 < o.ovlRefBlockLength)
    (hL : (gkStore_open name).numLibraries + 1 < u32)
    (hf : (gkStore_open name).numLibraries + 1 ≤ fuel) :
    (∀ l, l ∈ uncoveredFrom o.libToHash o.libToRef (gkStore_open name).numLibraries 1 ↔
      1 ≤ l ∧ l ≤ (gkStore_open name).numLibraries ∧ l ∉ o.libToHash ∧ l ∉ o.libToRef) ∧
    (o.libToHash.Nonempty → o.libToRef.Nonempty → o.checkAllLibUsed = true →
      (main gkStore_open o fuel).notMentioned =
        uncoveredFrom o.libToHash o.libToRef (gkStore_open name).numLibraries 1 ∧
      (main gkStore_open o fuel).warnings = [] ∧
      ((main gkStore_open o fuel).exit = .invalidLibraries ↔
        (invalidCount o.libToHash o.libToRef (gkStore_open name).numLibraries +
          (uncoveredFrom o.libToHash o.libToRef (gkStore_open name).numLibraries 1).length)
          % u32 ≠ 0) ∧
      (uncoveredFrom o.libToHash o.libToRef (gkStore_open name).numLibraries 1 ≠ [] →
        invalidCount o.libToHash o.libToRef (gkStore_open name).numLibraries +
          (uncoveredFrom o.libToHash o.libToRef (gkStore_open name).numLibraries 1).length
          < u32 →
        (main gkStore_open o fuel).exit = .invalidLibraries ∧
        (main gkStore_open o fuel).jobs = [])) ∧
    (o.libToHash.Nonempty → o.libToRef.Nonempty → o.checkAllLibUsed = false →
      (main gkStore_open o fuel).warnings =
        uncoveredFrom o.libToHash o.libToRef (gkStore_open name).numLibraries 1) ∧
    ((o.checkAllLibUsed = false ∨ o.libToHash = ∅ ∨ o.libToRef = ∅ ∨
        uncoveredFrom o.libToHash o.libToRef (gkStore_open name).numLibraries 1 = []) →
      (main gkStore_open o fuel).notMentioned = [] ∧
      ((main gkStore_open o fuel).exit = .invalidLibraries ↔
        invalidCount o.libToHash o.libToRef (gkStore_open name).numLibraries % u32 ≠ 0)) := by
  obtain ⟨m1, m2, m3, m4⟩ := main_invalid_iff gkStore_open o fuel name hname hu hH hR hL hf
  refine ⟨mem_uncoveredFrom _ _ _, ?_, ?_, ?_⟩
  · intro hh hr hcheck
    have hcond : 0 < o.libToHash.card ∧ 0 < o.libToRef.card ∧ o.checkAllLibUsed = true :=
      ⟨Finset.card_pos.mpr hh, Finset.card_pos.mpr hr, hcheck⟩
    have hcond2 : ¬ (0 < o.libToHash.card ∧ 0 < o.libToRef.card ∧
        o.checkAllLibUsed = false) := by
      rintro ⟨_, _, h⟩
      rw [hcheck] at h
      cases h
    rw [if_pos hcond] at m1 m3
    rw [if_neg hcond2] at m4
    refine ⟨m3, m4, m1, fun hne hlt => ?_⟩
    have hex : (main gkStore_open o fuel).exit = .invalidLibraries := by
      rw [m1, Nat.mod_eq_of_lt hlt]
      have := List.length_pos.mpr hne
      omega
    exact ⟨hex, m2 hex⟩
  · intro hh hr hcheck
    have hcond : 0 < o.libToHash.card ∧ 0 < o.libToRef.card ∧ o.checkAllLibUsed = false :=
      ⟨Finset.card_pos.mpr hh, Finset.card_pos.mpr hr, hcheck⟩
    rw [if_pos hcond] at m4
    exact m4
  · intro hcase
    by_cases hcond : 0 < o.libToHash.card ∧ 0 < o.libToRef.card ∧ o.checkAllLibUsed = true
    · rw [if_pos hcond] at m1 m3
      have hu0 : uncoveredFrom o.libToHash o.libToRef (gkStore_open name).numLibraries 1
          = [] := by
        rcases hcase with h | h | h | h
        · rw [hcond.2.2] at h
          cases h
        · rw [h] at hcond
          exact absurd hcond.1 (by simp)
        · rw [h] at hcond
          exact absurd hcond.2.1 (by simp)
        · exact h
      rw [hu0] at m1 m3
      exact ⟨m3, by simpa using m1⟩
    · rw [if_neg hcond] at m1 m3
      exact ⟨m3, m1⟩

/-- Witness for C15 (amended): on `threeLibraryStore` with library 1 hashed
and library 3 streamed, library 2 is in neither set; with the check enabled
the run fails without a job, with `-C` it does not fail and library 2 is
reported in a warning. -/
theorem coverage_check_witness :
    (main (fun _ => threeLibraryStore) (partialOptions true) 10).notMentioned = [2] ∧
    ((main (fun _ => threeLibraryStore) (partialOptions true) 10).exit = .invalidLibraries ∧
      (main (fun _ => threeLibraryStore) (partialOptions true) 10).jobs = []) ∧
    (main (fun _ => threeLibraryStore) (partialOptions false) 10).warnings = [2] ∧
    (main (fun _ => threeLibraryStore) (partialOptions false) 10).exit ≠
      .invalidLibraries :=
  ⟨by decide,
    ((coverage_check (fun _ => threeLibraryStore) (partialOptions true) 10 "reads.gkpStore"
        rfl rfl (by decide) (by decide) (by decide) (by decide)).2.1
      (by decide) (by decide) rfl).2.2.2 (by decide) (by decide),
    by decide,
    fun h =>
      (((coverage_check (fun _ => threeLibraryStore) (partialOptions false) 10
        "reads.gkpStore" rfl rfl (by decide) (by decide) (by decide) (by decide)).2.2.2
        (Or.inl rfl)).2.mp h) (by decide)⟩

/-- C24.  ID-space bit budget constants of `gkStore.H`: `AS_MAX_LIBRARIES` is
`2^6 - 1 = 63`, `AS_MAX_READLEN` is `2^21 - 1 = 2097151`, `AS_MAX_READS_BITS`
evaluates to `64 - 21 - 6 = 37`, so that the three bit widths sum to 64,
`AS_MAX_READS`, where the unparenthesised text of `AS_MAX_READS_BITS` is pasted
behind the shift operator, is `2^37 - 1`, and `AS_BLOBFILE_MAX_SIZE` is
`2^30`. -/
theorem bit_budget_constants :
    CDefine.AS_MAX_LIBRARIES.value = some ⟨.uint32, 2 ^ 6 - 1⟩ ∧ 2 ^ 6 - 1 = 63 ∧
    CDefine.AS_MAX_READLEN.value = some ⟨.uint32, 2 ^ 21 - 1⟩ ∧ 2 ^ 21 - 1 = 2097151 ∧
    CDefine.AS_MAX_LIBRARIES_BITS.value = some ⟨.int, 6⟩ ∧
    CDefine.AS_MAX_READLEN_BITS.value = some ⟨.int, 21⟩ ∧
    CDefine.AS_MAX_READS_BITS.value = some ⟨.int, 37⟩ ∧ 6 + 21 + 37 = 64 ∧
    expand 4 CDefine.AS_MAX_READS.body =
      some [.lparen, .lparen, .lparen, .ty .uint64, .rparen, .num 1, .shl,
        .num 64, .minus, .num 21, .minus, .num 6, .rparen, .minus, .num 1, .rparen] ∧
    CDefine.AS_MAX_READS.value = some ⟨.uint64, 2 ^ 37 - 1⟩ ∧
    CDefine.AS_BLOBFILE_MAX_SIZE.value = some ⟨.int, 2 ^ 30⟩ := by
  refine ⟨?_, ?_, ?_, ?_, ?_, ?_, ?_, ?_, ?_, ?_, ?_⟩ <;> decide

/-- C22 fails on the code: with `-H 1-2 -R 2` on `splitStore`,
`loadReadLengths` returns `refMin = 5`, which gives `twoLibraryScenario`.  For
the hash range 4-6 the reference scan starts at read 1, because `refEnd` is
reset to 0, and stops at read 4; the job is emitted with `refBeg = 5` and
`refEnd = 4`, with the counts of the reads 1-4, and the next job begins at
read 5 again. -/
theorem ref_range_backward :
    loadReadLengths splitStore {1, 2} 1 (u32 - 1) {2} 1 (u32 - 1) 11 =
      ([], .ok { readLen := twoLibraryScenario.readLen, hashMin := 1, hashMax := 10,
                 refMin := 5, refMax := 10 }) ∧
    (main (fun _ => splitStore) splitOptions 11).jobs =
      (partitionLength twoLibraryScenario 11).1 ∧
    twoLibraryScenario.refMin = 5 ∧
    refScan twoLibraryScenario.readLen twoLibraryScenario.minOverlapLength
      twoLibraryScenario.ovlRefBlockLength twoLibraryScenario.refMaxC 11
      { pos := 0, len := 0, reads := 0, bases := 0 } =
        .ok { pos := 4, len := 400, reads := 4, bases := 404 } ∧
    (partitionLength twoLibraryScenario 11).1[0]? = some backwardRefJob ∧
    (partitionLength twoLibraryScenario 11).1[1]? = some twoLibraryJob ∧
    backwardRefJob.refBeg = 5 ∧ backwardRefJob.refEnd = 4 ∧
    ¬ backwardRefJob.refBeg ≤ backwardRefJob.refEnd ∧
    twoLibraryJob.refBeg = 5 :=
  ⟨rfl, by decide, by decide, rfl, by decide, by decide, by decide, by decide, by decide,
    by decide⟩

/-- C23.  Outer-loop boundary of `partitionLength`, for a store with
`numReads + 1 < 2^32`: no emitted job has a hash range that begins at
`hashMax` (as passed or clamped to the read count); the outer loop entered
with `hashBeg == hashMax` stops and emits nothing; when a job's hash range ends
at `hashMax - 1`, no job of the run has `hashMax` in its hash range; and a run
with `hashMax ≤ hashMin`, in particular a store with exactly one read (with
`hashMin ≥ 1`) or a run with `hashMin == hashMax`, finishes with an empty job
list. -/
theorem outer_loop_boundary (p : Params) (fuel : Nat) (hwf : p.numReads + 1 < u32) :
    (∀ j ∈ (partitionLength p fuel).1,
      j.hashBeg < p.hashMaxC ∧ j.hashBeg ≠ p.hashMaxC ∧ j.hashBeg ≠ p.hashMax) ∧
    (∀ F k hashEnd c, hashLoop p F (k + 1) p.hashMaxC hashEnd c = ([], .finished)) ∧
    (∀ j ∈ (partitionLength p fuel).1, j.hashEnd + 1 = p.hashMaxC →
      ∀ j2 ∈ (partitionLength p fuel).1,
        ¬ (j2.hashBeg ≤ p.hashMaxC ∧ p.hashMaxC ≤ j2.hashEnd)) ∧
    (p.hashMaxC ≤ p.hashMin → partitionLength p (fuel + 1) = ([], .finished)) ∧
    (p.numReads = 1 → 1 ≤ p.hashMin → partitionLength p (fuel + 1) = ([], .finished)) ∧
    (p.hashMin = p.hashMax → partitionLength p (fuel + 1) = ([], .finished)) := by
  have hle := hashMaxC_le_hashMax p
  have hN := hashMaxC_le_numReads p
  refine ⟨?_, ?_, ?_, ?_, ?_, ?_⟩
  · intro j hj
    have := job_hashBeg_lt p fuel j hj
    exact ⟨this, by omega, by omega⟩
  · intro F k hashEnd c
    exact hashLoop_stop p F k _ hashEnd c (by omega)
  · intro j hj hend j2 hj2 hin
    have hb := job_hash_bounds p fuel hwf j hj
    have hb2 := job_hash_bounds p fuel hwf j2 hj2
    have hlt := job_hashBeg_lt p fuel j2 hj2
    rcases job_hash_ranges_apart p fuel hwf j hj j2 hj2 with ⟨_, h⟩ | h | h <;> omega
  · exact partitionLength_empty p fuel
  · intro h1 hmin
    exact partitionLength_empty p fuel (by omega)
  · intro heq
    exact partitionLength_empty p fuel (by omega)

/-- Witness for C23: in `specScenario` the last job has the hash range 7-9,
`hashMax` is clamped to 10, and read 10 is in no hash range; the store with
one read yields no job. -/
theorem outer_loop_boundary_witness :
    specScenario.numReads + 1 < u32 ∧
    specLastJob ∈ (partitionLength specScenario 11).1 ∧
    specLastJob.hashEnd + 1 = specScenario.hashMaxC ∧
    (∀ j2 ∈ (partitionLength specScenario 11).1,
      ¬ (j2.hashBeg ≤ specScenario.hashMaxC ∧ specScenario.hashMaxC ≤ j2.hashEnd)) ∧
    (oneReadScenario.numReads + 1 < u32 ∧ oneReadScenario.numReads = 1 ∧
      1 ≤ oneReadScenario.hashMin) ∧
    partitionLength oneReadScenario (1 + 1) = ([], .finished) :=
  ⟨by decide, by decide, by decide,
    (outer_loop_boundary specScenario 11 (by decide)).2.2.1 specLastJob (by decide)
      (by decide),
    by decide,
    (outer_loop_boundary oneReadScenario 1 (by decide)).2.2.2.2.1 (by decide) (by decide)⟩

/-- C21.  `partitionLength` does not fail at run time: for a store with
`numReads + 1 < 2^32`, a length array with the indices `0 .. numReads` and
`hashMin ≥ 1`, whatever `hashMax`, `refMin` and `refMax` are, a run with more
than `numReads` units of fuel finishes, so neither assertion fails and no read
of `readLen` lies outside of the array; and the run reads `readLen` only at
the indices `1 .. numReads`: it is the same run for every other array with the
same entries there. -/
theorem partitionLength_safe (p : Params) (fuel : Nat) (hwf : p.numReads + 1 < u32)
    (hlen : p.readLen.length = p.numReads + 1) (hmin : 1 ≤ p.hashMin)
    (hfuel : p.numReads < fuel) :
    (partitionLength p fuel).2 = .finished ∧
    (partitionLength p fuel).2 ≠ .assertFailed ∧ (partitionLength p fuel).2 ≠ .badIndex ∧
    (∀ rl2 : List Nat, (∀ i, 1 ≤ i → i ≤ p.numReads → rl2[i]? = p.readLen[i]?) →
      partitionLength { p with readLen := rl2 } fuel = partitionLength p fuel) := by
  have hfin := partitionLength_finished p hwf hlen fuel hfuel
  refine ⟨hfin, ?_, ?_, ?_⟩
  · rw [hfin]
    decide
  · rw [hfin]
    decide
  · intro rl2 hag
    exact partitionLength_congr p rl2 fuel hwf hmin hag

/-- Witness for C21: the run on the bounds of a hash role without reads,
`hashMin = UINT32_MAX` and `hashMax = 0`, finishes; the run of `specScenario`
is the same on an array with another entry at index 0 and one more entry at
index 11. -/
theorem partitionLength_safe_witness :
    (emptyRoleScenario.numReads + 1 < u32 ∧
      emptyRoleScenario.readLen.length = emptyRoleScenario.numReads + 1 ∧
      1 ≤ emptyRoleScenario.hashMin ∧ emptyRoleScenario.numReads < 11) ∧
    (emptyRoleScenario.hashMin = 4294967295 ∧ emptyRoleScenario.hashMax = 0) ∧
    (partitionLength emptyRoleScenario 11).2 = .finished ∧
    partitionLength { specScenario with readLen := 7 :: List.replicate 10 100 ++ [5] } 11 =
      partitionLength specScenario 11 :=
  ⟨by decide, by decide,
    (partitionLength_safe emptyRoleScenario 11 (by decide) (by decide) (by decide)
      (by decide)).1,
    (partitionLength_safe specScenario 11 (by decide) (by decide) (by decide)
      (by decide)).2.2.2 (7 :: List.replicate 10 100 ++ [5])
      (fun i h1 h2 => by
        have h3 : i ≤ 10 := h2
        interval_cases i <;> rfl)⟩

end OverlapPartition
